import Mathlib

/-!
# QALSH B-tree bulk load and Top-K list: a shallow embedding

The development follows `src/methods/b_tree.cc` (the Tree Controller:
`BTree::bulkload`, `BTree::init`, `BTree::load_root`, `BTree::delete_root`),
`src/methods/b_node.h` (the inline members of `BNode`, `BIndexNode`,
`BLeafNode`) and `src/methods/pri_queue.h` (the inline members of `MinK_List`).
Functions whose bodies are not in these files (the node primitives of
b_node.cc, the Block Store, `MinK_List::insert`) are modelled from the
specification and marked as such.

Conventions of the embedding:

* keys are `float` in the source; only their order is used by the code modelled
  here, so a key is an `Int`;
* `int` block addresses, sibling addresses and counters are `Int` or `Nat`
  without wrap-around (no property below depends on overflow); the sibling
  value `-1` is the "none" sentinel;
* the level of a node is a `char` in the source (`char level_`, one byte of the
  block header) while `cur_level` is an `int`; the model keeps the level as an
  unbounded `Nat`, which is the value the program stores as long as the level
  is at most `maxLevel = 127`. With index capacity at least 2 and `n < 2 ^ 31`
  the level counter never exceeds 32 (`cur_level_bound`); statements about
  stored levels that allow index capacity 1 carry the bound on `cur_level`
  as a hypothesis;
* a node pointer is an `Option BNode` (`none` is `NULL`); dereferencing `NULL`,
  restoring a block that was never written, and reading `key_[0]` of a node
  without entries set the `fault` flag of the frame and stop the execution;
* the `while` loop of `bulkload` takes a fuel argument that bounds the number
  of level-building passes.
-/

namespace nns

/-! ## Data model -/

/-- Result record of `pri_queue.h`: a key with an object id. -/
structure Result where
  key_ : Int
  id_ : Int
deriving DecidableEq, Repr

/-- Dynamic type of a node: `BIndexNode` or `BLeafNode`. -/
inductive NodeKind where
  | index
  | leaf
deriving DecidableEq, Repr

/-- Logical content of one disk block holding a node, as the Node Codec writes
it: the shared header (`level_`, `num_entries_`, the two siblings) and the
entries. `ptr_` is `son_` for an index node and `id_` for a leaf node; the
`num_keys_` counter of a leaf is kept equal to `num_entries_` (spec 4.4) and is
not represented separately. The header holds one level byte; `level_` is kept
here without wrap-around and is the byte written as long as it is at most
`maxLevel`. -/
structure NodeImage where
  kind : NodeKind
  level_ : Nat
  num_entries_ : Nat
  left_sibling_ : Int
  right_sibling_ : Int
  key_ : List Int
  ptr_ : List Int
deriving DecidableEq, Repr

/-- In-memory node (`BNode` with the entry array of its subclass). The field
`char level_` of b_node.h is kept as a `Nat` without wrap-around: it is the
value the program holds as long as it is at most `maxLevel`. -/
structure BNode where
  kind : NodeKind
  level_ : Nat
  num_entries_ : Nat
  left_sibling_ : Int
  right_sibling_ : Int
  key_ : List Int
  ptr_ : List Int
  dirty_ : Bool
  block_ : Int
  capacity_ : Nat
deriving DecidableEq, Repr

/-- Modelled from the spec: the Block Store (`BlockFile`, not under src/). Block
addresses are consecutive, the address of a block is its position; a block
that was allocated and never written holds `none`. -/
structure BlockFile where
  blocks : List (Option NodeImage)
deriving DecidableEq, Repr

/-- Modelled from the spec: `new_block`, append-allocate the next free block
(the address handed out is the number of blocks before the call). -/
def BlockFile.append_block (f : BlockFile) : BlockFile :=
  { blocks := f.blocks ++ [none] }

/-- Modelled from the spec: `read_block(address)`. -/
def BlockFile.read_block (f : BlockFile) (a : Int) : Option NodeImage :=
  if 0 ≤ a then (f.blocks[a.toNat]?).join else none

/-- Modelled from the spec: `write_block(address, buffer)`. -/
def BlockFile.write_block (f : BlockFile) (a : Int) (img : NodeImage) : BlockFile :=
  if 0 ≤ a then { blocks := f.blocks.set a.toNat (some img) } else f

/-- Tree Controller state: `root_`, `file_`, `root_ptr_`. -/
structure BTree where
  root_ : Int
  file_ : BlockFile
  root_ptr_ : Option BNode
deriving DecidableEq, Repr

/-! ## Node operations -/

/-- Function `BNode::get_block`. -/
def BNode.get_block (nd : BNode) : Int := nd.block_

/-- Function `BNode::isFull`: `num_entries_ >= capacity_`. -/
def BNode.isFull (nd : BNode) : Bool := decide (nd.num_entries_ ≥ nd.capacity_)

/-- Function `BNode::set_left_sibling`: assigns the field, nothing else. -/
def BNode.set_left_sibling (nd : BNode) (left_sibling : Int) : BNode :=
  { nd with left_sibling_ := left_sibling }

/-- Function `BNode::set_right_sibling`: assigns the field, nothing else. -/
def BNode.set_right_sibling (nd : BNode) (right_sibling : Int) : BNode :=
  { nd with right_sibling_ := right_sibling }

/-- Function `BNode::get_key_of_node`: `key_[0]`; `none` when the node holds no
entry (the slot is not populated). -/
def BNode.get_key_of_node (nd : BNode) : Option Int := nd.key_.head?

/-- Modelled from the spec: `init(level, tree)` (body in the absent b_node.cc),
a node for the fresh block `block`: no entries, both siblings "none", dirty.
The `int` argument `level` is stored as it is; the program stores it in the
`char` field, the same value as long as `level` is at most `maxLevel`. -/
def BNode.init (kind : NodeKind) (level cap : Nat) (block : Int) : BNode :=
  { kind := kind, level_ := level, num_entries_ := 0, left_sibling_ := -1,
    right_sibling_ := -1, key_ := [], ptr_ := [], dirty_ := true, block_ := block,
    capacity_ := cap }

/-- Modelled from the spec: the Node Codec, encoding direction. -/
def BNode.write_to_buffer (nd : BNode) : NodeImage :=
  { kind := nd.kind, level_ := nd.level_, num_entries_ := nd.num_entries_,
    left_sibling_ := nd.left_sibling_, right_sibling_ := nd.right_sibling_,
    key_ := nd.key_, ptr_ := nd.ptr_ }

/-- Modelled from the spec: `init_restore(tree, block)`, read the block, decode
it, mark the node clean. A block that was never written, or one written by the
other node variant, cannot be decoded (`none`). -/
def BNode.init_restore (kind : NodeKind) (cap : Nat) (f : BlockFile) (block : Int) :
    Option BNode :=
  match f.read_block block with
  | none => none
  | some img =>
    if img.kind = kind then
      some { kind := kind, level_ := img.level_, num_entries_ := img.num_entries_,
             left_sibling_ := img.left_sibling_, right_sibling_ := img.right_sibling_,
             key_ := img.key_, ptr_ := img.ptr_, dirty_ := false, block_ := block,
             capacity_ := cap }
    else none

/-- Modelled from the spec: release of a node (`delete`), flushing it to its
block when dirty. -/
def BNode.release (f : BlockFile) (nd : BNode) : BlockFile :=
  if nd.dirty_ then f.write_block nd.block_ nd.write_to_buffer else f

/-- Modelled from the spec: `BIndexNode::add_new_child(key, son)`, append the
entry at position `num_entries_`, increment the counter, mark dirty. -/
def BIndexNode.add_new_child (nd : BNode) (key son : Int) : BNode :=
  { nd with key_ := nd.key_ ++ [key], ptr_ := nd.ptr_ ++ [son],
            num_entries_ := nd.num_entries_ + 1, dirty_ := true }

/-- Modelled from the spec: `BLeafNode::add_new_child(id, key)`, append the id
and the key, increment the counters in lock-step, mark dirty. -/
def BLeafNode.add_new_child (nd : BNode) (id key : Int) : BNode :=
  { nd with key_ := nd.key_ ++ [key], ptr_ := nd.ptr_ ++ [id],
            num_entries_ := nd.num_entries_ + 1, dirty_ := true }

/-! ## Execution frame of `BTree::bulkload` -/

/-- How a live node was acquired: by `init` (a node of the level under
construction) or by `init_restore` (a node of the level being read). -/
inductive Role where
  | built
  | read
deriving DecidableEq, Repr

/-- Observable steps of `bulkload`. -/
inductive Event where
  | acquire (r : Role) (level : Nat) (block : Int)
  | release (r : Role) (block : Int)
  | add_new_child (block : Int) (num_entries capacity : Nat)
  | get_key_of_node (block : Int) (num_entries : Nat)
deriving DecidableEq, Repr

/-- Local state of `bulkload` together with the block file of the tree.
`child` stands for `leaf_child` / `index_child`, `prev_nd` for `leaf_prev_nd` /
`index_prev_nd` and `act_nd` for `leaf_act_nd` / `index_act_nd`: the leaf
variables are `NULL` from line 139 on and the index variables are `NULL` before
line 149, so one field serves both. `trace` is a history variable, `fault`
records undefined behaviour, `done` that the `while` loop was left. -/
structure Frame where
  file_ : BlockFile
  child : Option BNode
  prev_nd : Option BNode
  act_nd : Option BNode
  first_node : Bool
  start_block : Int
  end_block : Int
  cur_level : Nat
  last_start_block : Int
  last_end_block : Int
  trace : List Event
  fault : Bool
  done : Bool
deriving DecidableEq, Repr

/-- Lines 106-123 and 167-181 of b_tree.cc: when there is no node being filled,
create one, and either record it as the first node of the level or link it with
its left neighbour and release that neighbour. -/
def attach (kind : NodeKind) (level cap : Nat) (s : Frame) : Frame :=
  match s.act_nd with
  | some _ => s
  | none =>
    let nd := BNode.init kind level cap s.file_.blocks.length
    let tr := s.trace ++ [Event.acquire Role.built level nd.get_block]
    if s.first_node then
      { s with file_ := s.file_.append_block, act_nd := some nd, first_node := false,
               start_block := nd.get_block, end_block := nd.get_block, trace := tr }
    else
      match s.prev_nd with
      | none =>
        { s with file_ := s.file_.append_block, act_nd := some nd, trace := tr,
                 fault := true }
      | some prev =>
        let nd1 := nd.set_left_sibling prev.get_block
        let prev1 := prev.set_right_sibling nd1.get_block
        { s with file_ := BNode.release s.file_.append_block prev1, act_nd := some nd1,
                 prev_nd := none, end_block := nd1.get_block,
                 trace := tr ++ [Event.release Role.built prev.get_block] }

/-- Lines 124-130 and 182-188 of b_tree.cc: append the entry to the node being
filled and, when that node is full, make it the previous node. -/
def fill (kind : NodeKind) (s : Frame) (key ptr : Int) : Frame :=
  match s.act_nd with
  | none => { s with fault := true }
  | some act =>
    let act1 :=
      match kind with
      | NodeKind.leaf => BLeafNode.add_new_child act ptr key
      | NodeKind.index => BIndexNode.add_new_child act key ptr
    let tr := s.trace ++ [Event.add_new_child act.get_block act.num_entries_ act.capacity_]
    if act1.isFull then
      { s with prev_nd := some act1, act_nd := none, trace := tr }
    else
      { s with act_nd := some act1, trace := tr }

/-- Lines 106-130 (leaf pass, `kind = leaf`, `level = 0`) and 167-188
(level-building pass, `kind = index`, `level = cur_level`): one entry is put
into the level under construction. -/
def put (kind : NodeKind) (level cap : Nat) (s : Frame) (key ptr : Int) : Frame :=
  if s.fault then s
  else
    let s1 := attach kind level cap s
    if s1.fault then s1 else fill kind s1 key ptr

/-- Lines 103-130: body of the leaf loop for the record `table[i]`. -/
def leafBody (lcap : Nat) (s : Frame) (r : Result) : Frame :=
  put NodeKind.leaf 0 lcap s r.key_ r.id_

/-- Lines 132-139 and 191-198: release the previous node and the node being
filled, when present. -/
def cleanup (s : Frame) : Frame :=
  if s.fault then s
  else
  let s1 :=
    match s.prev_nd with
    | none => s
    | some prev =>
      { s with file_ := BNode.release s.file_ prev, prev_nd := none,
               trace := s.trace ++ [Event.release Role.built prev.get_block] }
  match s1.act_nd with
  | none => s1
  | some act =>
    { s1 with file_ := BNode.release s1.file_ act, act_nd := none,
              trace := s1.trace ++ [Event.release Role.built act.get_block] }

/-- Lines 152-188: body of the inner loop of a level-building pass for the block
address `i` of the previous level. The child is restored as a leaf when
`cur_level == 1` and as an index node otherwise, its first key is read, it is
released, and the pair (key, address) is put into the new level. -/
def levelBody (lcap icap : Nat) (s : Frame) (i : Int) : Frame :=
  if s.fault then s
  else
    let restored :=
      if s.cur_level = 1 then BNode.init_restore NodeKind.leaf lcap s.file_ i
      else BNode.init_restore NodeKind.index icap s.file_ i
    match restored with
    | none => { s with fault := true }
    | some ch =>
      let tr := s.trace ++ [Event.acquire Role.read ch.level_ ch.get_block,
                            Event.get_key_of_node ch.get_block ch.num_entries_]
      match ch.get_key_of_node with
      | none => { s with child := some ch, trace := tr, fault := true }
      | some key =>
        put NodeKind.index s.cur_level icap
          { s with file_ := BNode.release s.file_ ch, child := none,
                   trace := tr ++ [Event.release Role.read ch.get_block] }
          key i

/-- Block addresses `lo, lo + 1, ..., hi` visited by the loop of line 151. -/
def addrRange (lo hi : Int) : List Int :=
  (List.range (hi + 1 - lo).toNat).map (fun (j : Nat) => lo + (j : Int))

/-- Lines 150-202: one level-building pass, the body of the `while` loop. -/
def levelPass (lcap icap : Nat) (s : Frame) : Frame :=
  let s1 := List.foldl (levelBody lcap icap) { s with first_node := true }
    (addrRange s.last_start_block s.last_end_block)
  let s2 := cleanup s1
  if s2.fault then s2
  else
    { s2 with last_start_block := s2.start_block, last_end_block := s2.end_block,
              cur_level := s2.cur_level + 1 }

/-- Lines 149-203: the `while (last_end_block > last_start_block)` loop; `fuel`
bounds the number of passes, and `done` is set when the loop condition is found
false. -/
def whileLoop (lcap icap : Nat) : Nat → Frame → Frame
  | fuel, s =>
    if s.fault then s
    else if s.last_end_block > s.last_start_block then
      match fuel with
      | 0 => s
      | fuel + 1 => whileLoop lcap icap fuel (levelPass lcap icap s)
    else { s with done := true }

/-- Lines 84-147: the leaf pass over `table[0..n-1]`, then the initialisation
of the level loop. Reading past the end of `table` is a fault. -/
def leafPass (lcap : Nat) (t : BTree) (n : Nat) (table : List Result) : Frame :=
  let s0 : Frame :=
    { file_ := t.file_, child := none, prev_nd := none, act_nd := none,
      first_node := true, start_block := 0, end_block := 0, cur_level := 1,
      last_start_block := 0, last_end_block := 0, trace := [],
      fault := decide (table.length < n), done := false }
  let s1 := cleanup (List.foldl (leafBody lcap) s0 (table.take n))
  { s1 with last_start_block := s1.start_block, last_end_block := s1.end_block }

/-- Result of running `bulkload`: the tree afterwards, the frame at the point
reached, and the value returned (`none` when the call did not return within the
fuel or ran into a fault). -/
structure Outcome where
  tree : BTree
  frame : Frame
  ret : Option Int
deriving DecidableEq, Repr

/-- Lines 206-211: the deletes at the end of `bulkload`. A pointer that is not
`NULL` is deleted (the node is released); the pointer itself is left as it is. -/
def finalCleanup (s : Frame) : Frame :=
  let s1 :=
    match s.prev_nd with
    | none => s
    | some prev =>
      { s with file_ := BNode.release s.file_ prev,
               trace := s.trace ++ [Event.release Role.built prev.get_block] }
  let s2 :=
    match s1.act_nd with
    | none => s1
    | some act =>
      { s1 with file_ := BNode.release s1.file_ act,
                trace := s1.trace ++ [Event.release Role.built act.get_block] }
  match s2.child with
  | none => s2
  | some ch =>
    { s2 with file_ := BNode.release s2.file_ ch,
              trace := s2.trace ++ [Event.release Role.read ch.get_block] }

/-- Function `BTree::bulkload(n, table)` (b_tree.cc lines 80-214) on a tree
whose leaves hold `lcap` entries and whose index nodes hold `icap` entries.
`root_` is assigned (line 204), the final deletes run (lines 206-211) and 0 is
returned only when the loop was left. -/
def bulkload (lcap icap fuel : Nat) (t : BTree) (n : Nat) (table : List Result) : Outcome :=
  let s := whileLoop lcap icap fuel (leafPass lcap t n table)
  if s.done && !s.fault then
    { tree := { t with file_ := (finalCleanup s).file_, root_ := s.last_start_block },
      frame := finalCleanup s, ret := some 0 }
  else
    { tree := { t with file_ := s.file_ }, frame := s, ret := none }

/-! ## Description of a built level

A level is described by the list of the entry chunks of its nodes, in address
order; an entry is a pair (key, son or id). These definitions state what the
passes of `bulkload` write; they are compared with the code by the theorems
below. -/

/-- An entry of a node: the key and the son address (index node) or the object
id (leaf node). -/
abbrev Entry := Int × Int

/-- Image of the `j`-th node of a level whose first node has address `base`:
the entries `c`, the left neighbour (none for `j = 0`) and the given right
sibling. -/
def nodeImage (kind : NodeKind) (level base j : Nat) (c : List Entry) (right : Int) :
    NodeImage :=
  { kind := kind, level_ := level, num_entries_ := c.length,
    left_sibling_ := if j = 0 then -1 else ((base + j : Nat) : Int) - 1,
    right_sibling_ := right, key_ := c.map Prod.fst, ptr_ := c.map Prod.snd }

/-- Blocks of the nodes `j, j + 1, ...` of a level, each linked to its right
neighbour. -/
def linkedFrom (kind : NodeKind) (level base : Nat) : Nat → List (List Entry) →
    List (Option NodeImage)
  | _, [] => []
  | j, c :: cs =>
    some (nodeImage kind level base j c (((base + j : Nat) : Int) + 1)) ::
      linkedFrom kind level base (j + 1) cs

/-- Blocks of a complete level: the nodes `cs`, linked, then the last node
`last` without right sibling. -/
def levelBlocks (kind : NodeKind) (level base : Nat) (cs : List (List Entry))
    (last : List Entry) : List (Option NodeImage) :=
  linkedFrom kind level base 0 cs ++ [some (nodeImage kind level base cs.length last (-1))]

/-- In-memory node of the level under construction that holds the entries `c`:
the `j`-th node, linked to the left, not yet to the right. -/
def pendingNode (kind : NodeKind) (level cap base j : Nat) (c : List Entry) : BNode :=
  { kind := kind, level_ := level, num_entries_ := c.length,
    left_sibling_ := if j = 0 then -1 else ((base + j : Nat) : Int) - 1,
    right_sibling_ := -1, key_ := c.map Prod.fst, ptr_ := c.map Prod.snd,
    dirty_ := true, block_ := ((base + j : Nat) : Int), capacity_ := cap }

/-- Loop invariant of a pass that started in frame `s0` and has put the entries
`xs` so far: either nothing was put, or the entries form full chunks `cs`
followed by a non-empty chunk `last` held by the only live node. -/
def PassInv (kind : NodeKind) (level cap : Nat) (s0 s : Frame) (xs : List Entry) : Prop :=
  s.fault = false ∧ s.child = none ∧ s.cur_level = s0.cur_level ∧
  s.last_start_block = s0.last_start_block ∧ s.last_end_block = s0.last_end_block ∧
  s.done = s0.done ∧
  ((xs = [] ∧ s.file_ = s0.file_ ∧ s.prev_nd = none ∧ s.act_nd = none ∧
      s.first_node = true ∧ s.start_block = s0.start_block ∧ s.end_block = s0.end_block) ∨
   (∃ cs last, xs = cs.flatten ++ last ∧ (∀ c ∈ cs, c.length = cap) ∧ last ≠ [] ∧
      last.length ≤ cap ∧
      s.file_.blocks =
        s0.file_.blocks ++ linkedFrom kind level s0.file_.blocks.length 0 cs ++ [none] ∧
      s.first_node = false ∧ s.start_block = (s0.file_.blocks.length : Int) ∧
      s.end_block = ((s0.file_.blocks.length + cs.length : Nat) : Int) ∧
      (if last.length < cap then
        s.act_nd = some (pendingNode kind level cap s0.file_.blocks.length cs.length last) ∧
          s.prev_nd = none
       else
        s.act_nd = none ∧
          s.prev_nd =
            some (pendingNode kind level cap s0.file_.blocks.length cs.length last))))

/-- State after a complete pass (the loop and the releases that follow it) that
started in frame `s0` and has put the entries `xs`: no node is live, and
either nothing was put and the file is untouched, or the file has grown by the
blocks of one level made of the full chunks `cs` and the last chunk `last`. -/
def PassDone (kind : NodeKind) (level cap : Nat) (s0 s : Frame) (xs : List Entry) : Prop :=
  s.fault = false ∧ s.child = none ∧ s.prev_nd = none ∧ s.act_nd = none ∧
  s.cur_level = s0.cur_level ∧ s.last_start_block = s0.last_start_block ∧
  s.last_end_block = s0.last_end_block ∧ s.done = s0.done ∧
  ((xs = [] ∧ s.file_ = s0.file_ ∧ s.first_node = true ∧
      s.start_block = s0.start_block ∧ s.end_block = s0.end_block) ∨
   (∃ cs last, xs = cs.flatten ++ last ∧ (∀ c ∈ cs, c.length = cap) ∧ last ≠ [] ∧
      last.length ≤ cap ∧
      s.file_.blocks =
        s0.file_.blocks ++ levelBlocks kind level s0.file_.blocks.length cs last ∧
      s.first_node = false ∧ s.start_block = (s0.file_.blocks.length : Int) ∧
      s.end_block = ((s0.file_.blocks.length + cs.length : Nat) : Int)))

/-- Kind of the nodes of a level: leaves at level 0, index nodes above. This is
the choice made at lines 153-165 for the level below `cur_level`. -/
def childKind (cur_level : Nat) : NodeKind :=
  if cur_level = 1 then NodeKind.leaf else NodeKind.index

/-- Entry appended for the child block `i` by a level-building pass (lines
152-165 and 182): the first key stored in the block, and the address. -/
def entryOf (f : BlockFile) (i : Int) : Entry :=
  (((f.read_block i).bind (fun img => img.key_.head?)).getD 0, i)

/-- First key of an entry chunk (0 for an empty chunk, which no node holds). -/
def firstKey (c : List Entry) : Int := ((c.map Prod.fst).head?).getD 0

/-- Entries that a level-building pass appends when the level below is made of
the chunks `ch` at the addresses `base + j, base + j + 1, ...`: for each node
its first key and its address. -/
def upEntries (base : Nat) : Nat → List (List Entry) → List Entry
  | _, [] => []
  | j, c :: cs => (firstKey c, ((base + j : Nat) : Int)) :: upEntries base (j + 1) cs

/-- Shape of the block list after the leaf pass and some level-building passes.
`Stack lcap icap F0 cs0 last0 L base ch B`: the blocks `B` are the initial
blocks `F0`, then the leaf level made of the chunks `cs0 ++ [last0]`, then the
index levels `1 .. L`; the topmost level `L` starts at address `base` and its
nodes hold the chunks `ch`. Each index level holds the entries `upEntries` of
the level below, cut into chunks of `icap` entries. -/
inductive Stack (lcap icap : Nat) (F0 : List (Option NodeImage)) (cs0 : List (List Entry))
    (last0 : List Entry) : Nat → Nat → List (List Entry) → List (Option NodeImage) → Prop
  | leaf : 1 ≤ lcap → (∀ c ∈ cs0, c.length = lcap) → last0 ≠ [] → last0.length ≤ lcap →
      Stack lcap icap F0 cs0 last0 0 F0.length (cs0 ++ [last0])
        (F0 ++ levelBlocks NodeKind.leaf 0 F0.length cs0 last0)
  | up {L base : Nat} {ch : List (List Entry)} {B : List (Option NodeImage)}
      (cs : List (List Entry)) (last : List Entry) :
      Stack lcap icap F0 cs0 last0 L base ch B → 2 ≤ ch.length → 1 ≤ icap →
      upEntries base 0 ch = cs.flatten ++ last → (∀ c ∈ cs, c.length = icap) → last ≠ [] →
      last.length ≤ icap →
      Stack lcap icap F0 cs0 last0 (L + 1) (base + ch.length) (cs ++ [last])
        (B ++ levelBlocks NodeKind.index (L + 1) (base + ch.length) cs last)

/-- Frame at the head of the `while` loop when the topmost level built so far
is level `L`, made of `m` nodes at the addresses `base .. base + m - 1`, and the
blocks of the file are `B`. -/
def AtLevel (s : Frame) (L base m : Nat) (B : List (Option NodeImage)) : Prop :=
  s.file_.blocks = B ∧ s.last_start_block = (base : Int) ∧
  s.last_end_block = ((base + m : Nat) : Int) - 1 ∧ s.cur_level = L + 1 ∧
  s.fault = false ∧ s.done = false ∧ s.child = none ∧ s.prev_nd = none ∧ s.act_nd = none

/-- Entries put by the leaf pass: for each record its key and its id. -/
def entriesOf (table : List Result) : List Entry :=
  table.map (fun r => (r.key_, r.id_))

/-! ## Observations on a block file

What a reader of the file sees: the chain of leaves, the nodes of a level, the
keys below a node. The claims about `bulkload` are stated with them. -/

/-- Records of a leaf image, in slot order. -/
def NodeImage.records (img : NodeImage) : List Result :=
  List.zipWith Result.mk img.key_ img.ptr_

/-- Scan of a sibling chain: starting at address `a`, load the node, take its
records, and follow `right_sibling` until the "none" sentinel `-1`. At most
`fuel` nodes are visited after the first check; `none` when a block cannot be
read or the fuel runs out. -/
def scanChain (f : BlockFile) : Nat → Int → Option (List Result)
  | 0, a => if a = -1 then some [] else none
  | fuel + 1, a =>
    if a = -1 then some []
    else
      match f.read_block a with
      | none => none
      | some img =>
        match scanChain f fuel img.right_sibling_ with
        | none => none
        | some rest => some (img.records ++ rest)

/-- Whether the block at position `a` was allocated after `old` and holds a
leaf. -/
def isCreatedLeaf (old new : BlockFile) (a : Nat) : Bool :=
  decide (old.blocks.length ≤ a) &&
    (match new.read_block (a : Int) with
     | some img => decide (img.kind = NodeKind.leaf)
     | none => false)

/-- Address of the first leaf created between the file states `old` and `new`,
or the sentinel `-1` when no leaf was created. -/
def firstCreatedLeaf (old new : BlockFile) : Int :=
  match (List.range new.blocks.length).find? (isCreatedLeaf old new) with
  | some a => (a : Int)
  | none => -1

/-! ## Example data (the scenario of the specification) -/

/-- A freshly initialised tree as `BTree::init` leaves it: one block, holding
the empty root created at lines 46-48 and flushed by `delete_root`; `root_` is
its address and no root is cached. -/
def exampleTree : BTree :=
  { root_ := 0,
    file_ := { blocks := [some { kind := NodeKind.index, level_ := 0, num_entries_ := 0,
                                  left_sibling_ := -1, right_sibling_ := -1, key_ := [],
                                  ptr_ := [] }] },
    root_ptr_ := none }

/-- The ten sorted records of the example scenario: keys 0..9 with the ids
9, 1, 5, 3, 8, 0, 4, 6, 2, 7. -/
def exampleTable : List Result :=
  [⟨0, 9⟩, ⟨1, 1⟩, ⟨2, 5⟩, ⟨3, 3⟩, ⟨4, 8⟩, ⟨5, 0⟩, ⟨6, 4⟩, ⟨7, 6⟩, ⟨8, 2⟩, ⟨9, 7⟩]

/-- Images of the blocks allocated after the file state `old`, in address
order (blocks never written are skipped). -/
def createdImages (old new : BlockFile) : List NodeImage :=
  (new.blocks.drop old.blocks.length).filterMap id

/-- Entry counts of the nodes of level `l` created after the file state `old`,
in address order. -/
def levelSizes (old new : BlockFile) (l : Nat) : List Nat :=
  ((createdImages old new).filter (fun img => decide (img.level_ = l))).map
    NodeImage.num_entries_

/-- Entry counts of `ceil(m / cap)` nodes filled in order with `m` entries:
every node but the last holds `cap` entries, the last one holds the rest. -/
def sizesOf (cap m : Nat) : List Nat :=
  List.replicate ((m + cap - 1) / cap - 1) cap ++ [m - ((m + cap - 1) / cap - 1) * cap]

/-- Layout of the nodes created after the first `n0` blocks: `seg l` is the
address of the first node of level `l` and the number of nodes of that level.
Every block from `n0` on holds an image; an image of level `l` lies in the
segment of `l` and is linked to its neighbours inside the segment; and every
address of the segment of a level up to `L` holds an image of that level. -/
def Segmented (n0 : Nat) (B : List (Option NodeImage)) (L : Nat) (seg : Nat → Nat × Nat) :
    Prop :=
  (∀ a : Nat, n0 ≤ a → a < B.length → ∃ x, (BlockFile.mk B).read_block (a : Int) = some x) ∧
  (∀ (a : Nat) (x : NodeImage), n0 ≤ a → (BlockFile.mk B).read_block (a : Int) = some x →
    x.level_ ≤ L ∧ (seg x.level_).1 ≤ a ∧ a < (seg x.level_).1 + (seg x.level_).2 ∧
    x.left_sibling_ = (if a = (seg x.level_).1 then -1 else (a : Int) - 1) ∧
    x.right_sibling_ =
      (if a + 1 = (seg x.level_).1 + (seg x.level_).2 then -1 else (a : Int) + 1)) ∧
  (∀ l, l ≤ L → n0 ≤ (seg l).1 ∧
    ∀ a : Nat, (seg l).1 ≤ a → a < (seg l).1 + (seg l).2 →
      ∃ x, (BlockFile.mk B).read_block (a : Int) = some x ∧ x.level_ = l)

/-! ## Live nodes along an execution -/

/-- Effect of one event on the list of live nodes (acquired, not yet
released), each recorded with the way it was acquired and its block. -/
def liveStep (live : List (Role × Int)) : Event → List (Role × Int)
  | Event.acquire r _ b => live ++ [(r, b)]
  | Event.release r b => live.erase (r, b)
  | Event.add_new_child _ _ _ => live
  | Event.get_key_of_node _ _ => live

/-- Live nodes after the events `tr`. -/
def liveAfter (tr : List Event) : List (Role × Int) :=
  tr.foldl liveStep []

/-- The memory bound of the spec: at most 2 live nodes of the level under
construction (acquired by `init`), at most 1 live node of the level being read
(acquired by `init_restore`), hence at most 3 live nodes. -/
def LiveBound (live : List (Role × Int)) : Prop :=
  (live.filter (fun p => decide (p.1 = Role.built))).length ≤ 2 ∧
  (live.filter (fun p => decide (p.1 = Role.read))).length ≤ 1 ∧ live.length ≤ 3

/-- The bound holds at every point of the execution recorded by `tr`. -/
def BoundedTrace (tr : List Event) : Prop :=
  ∀ k, LiveBound (liveAfter (tr.take k))

/-- Nodes referenced by the pointer variables of the frame. -/
def heldNodes (s : Frame) : List (Role × Int) :=
  s.prev_nd.toList.map (fun nd => (Role.built, nd.block_)) ++
    s.act_nd.toList.map (fun nd => (Role.built, nd.block_)) ++
    s.child.toList.map (fun nd => (Role.read, nd.block_))

/-- Invariant of the frames between two steps of `bulkload`: the bound held so
far, and unless a fault occurred no child is held, a node being filled excludes
a previous node and is not awaited as the first node of its level, the previous
node is absent before the first node of a level, and the live nodes are exactly
the nodes the pointer variables reference. -/
def LInv (s : Frame) : Prop :=
  BoundedTrace s.trace ∧
  (s.fault = false →
    s.child = none ∧ (s.act_nd ≠ none → s.prev_nd = none ∧ s.first_node = false) ∧
    (s.first_node = true → s.prev_nd = none) ∧ liveAfter s.trace = heldNodes s)

/-! ## Top-K list (`MinK_List`, pri_queue.h) -/

/-- Modelled from the spec: the "infinite key" sentinel `MAXREAL` of the absent
def.h, the largest finite float. -/
def MAXREAL : Int := 340282346638528859811704183484516925440

/-- Modelled from the spec: the "invalid id" sentinel `MININT` of the absent
def.h, the least 32-bit integer. -/
def MININT : Int := -2147483648

/-- State of a `MinK_List`: the capacity `k_`, the count `num_` and the backing
array `list_`. The populated slots are the indices `0 .. num_ - 1`. -/
structure MinK_List where
  k_ : Int
  num_ : Int
  list_ : List Result
deriving DecidableEq, Repr

/-- What an accessor evaluates: the sentinel, or the subscript `list_[i]`. -/
inductive Access where
  | sentinel
  | slot (i : Int)
deriving DecidableEq, Repr

/-- Array read `list_[i]`: `none` when `i` is outside the array (undefined
behaviour in the source). -/
def MinK_List.read (s : MinK_List) (i : Int) : Option Result :=
  if 0 ≤ i then s.list_[i.toNat]? else none

/-- Subscript evaluated by `min_key()`: `num_ > 0 ? list_[0].key_ : MAXREAL`. -/
def MinK_List.min_key_access (s : MinK_List) : Access :=
  if s.num_ > 0 then Access.slot 0 else Access.sentinel

/-- Subscript evaluated by `max_key()`:
`num_ >= k_ ? list_[k_ - 1].key_ : MAXREAL`. -/
def MinK_List.max_key_access (s : MinK_List) : Access :=
  if s.num_ ≥ s.k_ then Access.slot (s.k_ - 1) else Access.sentinel

/-- Subscript evaluated by `ith_key(i)`: `i < num_ ? list_[i].key_ : MAXREAL`. -/
def MinK_List.ith_key_access (s : MinK_List) (i : Int) : Access :=
  if i < s.num_ then Access.slot i else Access.sentinel

/-- Subscript evaluated by `ith_id(i)`: `i < num_ ? list_[i].id_ : MININT`. -/
def MinK_List.ith_id_access (s : MinK_List) (i : Int) : Access :=
  if i < s.num_ then Access.slot i else Access.sentinel

/-- Value of a key accessor: the key of the slot read, `MAXREAL` for the
sentinel; `none` when the read is outside the array. -/
def MinK_List.keyOf (s : MinK_List) : Access → Option Int
  | Access.sentinel => some MAXREAL
  | Access.slot i => (s.read i).map Result.key_

/-- Value of an id accessor: the id of the slot read, `MININT` for the
sentinel; `none` when the read is outside the array. -/
def MinK_List.idOf (s : MinK_List) : Access → Option Int
  | Access.sentinel => some MININT
  | Access.slot i => (s.read i).map Result.id_

/-- Function `MinK_List::min_key`. -/
def MinK_List.min_key (s : MinK_List) : Option Int := s.keyOf s.min_key_access

/-- Function `MinK_List::max_key`. -/
def MinK_List.max_key (s : MinK_List) : Option Int := s.keyOf s.max_key_access

/-- Function `MinK_List::ith_key`. -/
def MinK_List.ith_key (s : MinK_List) (i : Int) : Option Int := s.keyOf (s.ith_key_access i)

/-- Function `MinK_List::ith_id`. -/
def MinK_List.ith_id (s : MinK_List) (i : Int) : Option Int := s.idOf (s.ith_id_access i)

/-- Function `MinK_List::size`. -/
def MinK_List.size (s : MinK_List) : Int := s.num_

/-- Function `MinK_List::isFull`: `num_ >= k_`. -/
def MinK_List.isFull (s : MinK_List) : Bool := decide (s.num_ ≥ s.k_)

/-- Function `MinK_List::reset`: `num_ = 0`. -/
def MinK_List.reset (s : MinK_List) : MinK_List := { s with num_ := 0 }

/-- An access stays inside the populated range `[0, num_)`. -/
def MinK_List.inPopulated (s : MinK_List) : Access → Prop
  | Access.sentinel => True
  | Access.slot i => 0 ≤ i ∧ i < s.num_

/-- A Top-K list of capacity 3 holding the two records (2, 1) and (5, 0); its
array has `k + 1` slots. -/
def exampleList : MinK_List :=
  { k_ := 3, num_ := 2, list_ := [⟨2, 1⟩, ⟨5, 0⟩, ⟨0, 0⟩, ⟨0, 0⟩] }

/-- An empty Top-K list of capacity 0. -/
def exampleEmptyList : MinK_List :=
  { k_ := 0, num_ := 0, list_ := [⟨0, 0⟩] }

/-! ## Keys below a node -/

/-- Keys of all records reachable from the node stored at address `a`: the keys
of a leaf, and for an index node the keys reachable through its sons, in entry
order. `fuel` bounds the depth of the descent (a node of level `l` needs
`l + 1`); a block that cannot be read contributes nothing. -/
def subtreeKeys (f : BlockFile) : Nat → Int → List Int
  | 0, _ => []
  | fuel + 1, a =>
    match f.read_block a with
    | none => []
    | some img =>
      match img.kind with
      | NodeKind.leaf => img.key_
      | NodeKind.index => img.ptr_.flatMap (fun p => subtreeKeys f fuel p)

/-- Stored keys of a node ascend: `key[i] <= key[i+1]` for all valid `i`. -/
def KeysAscending (x : NodeImage) : Prop :=
  ∀ (i : Nat) (ka kb : Int), x.key_[i]? = some ka → x.key_[i + 1]? = some kb → ka ≤ kb

/-- First-key property of an index image `x` in the file `f`: `key[i]` is the
first key of the node stored at `son[i]`, it is one of the keys reachable
through `son[i]`, and no key reachable through `son[i]` is smaller. -/
def FirstKeys (f : BlockFile) (x : NodeImage) : Prop :=
  ∀ (i : Nat) (ki pi : Int), x.key_[i]? = some ki → x.ptr_[i]? = some pi →
    (∃ y, f.read_block pi = some y ∧ y.key_.head? = some ki) ∧
    ki ∈ subtreeKeys f x.level_ pi ∧ ∀ k ∈ subtreeKeys f x.level_ pi, ki ≤ k

/-- Separator property with a closed upper end: every key reachable through
`son[i]` lies in `[key[i], key[i+1]]`, or in `[key[i], +infinity)` for the last
entry. -/
def SeparatesClosed (f : BlockFile) (x : NodeImage) : Prop :=
  ∀ (i : Nat) (ki pi : Int), x.key_[i]? = some ki → x.ptr_[i]? = some pi →
    ∀ k ∈ subtreeKeys f x.level_ pi, ki ≤ k ∧ ∀ kn, x.key_[i + 1]? = some kn → k ≤ kn

/-- Separator property with a half-open interval, as the specification states
it: every key reachable through `son[i]` lies in `[key[i], key[i+1])`, or in
`[key[i], +infinity)` for the last entry. -/
def SeparatesHalfOpen (f : BlockFile) (x : NodeImage) : Prop :=
  ∀ (i : Nat) (ki pi : Int), x.key_[i]? = some ki → x.ptr_[i]? = some pi →
    ∀ k ∈ subtreeKeys f x.level_ pi, ki ≤ k ∧ ∀ kn, x.key_[i + 1]? = some kn → k < kn

/-- Facts about one node image of a file built from a sorted table. -/
def NodeOK (f : BlockFile) (x : NodeImage) : Prop :=
  x.key_.length = x.num_entries_ ∧ x.ptr_.length = x.num_entries_ ∧
  x.key_.Pairwise (fun a b => a ≤ b) ∧
  (x.kind = NodeKind.index → FirstKeys f x ∧ SeparatesClosed f x)

/-- Invariant of a stack built from a table with the keys `keys`: the keys
reachable through the nodes of the topmost level, taken in order, are `keys`;
the keys reachable through a node start with its first key; every created node
satisfies `NodeOK`, has level at most `L`, and the sons of a created index
node are created nodes at lower addresses. -/
def Covered (n0 : Nat) (B : List (Option NodeImage)) (L base : Nat) (ch : List (List Entry))
    (keys : List Int) : Prop :=
  (upEntries base 0 ch).flatMap (fun e => subtreeKeys (BlockFile.mk B) (L + 1) e.2) = keys ∧
  (∀ e ∈ upEntries base 0 ch,
    (subtreeKeys (BlockFile.mk B) (L + 1) e.2).head? = some e.1) ∧
  (∀ (a : Nat) (x : NodeImage), n0 ≤ a → (BlockFile.mk B).read_block (a : Int) = some x →
    NodeOK (BlockFile.mk B) x ∧ x.level_ ≤ L ∧
    (x.kind = NodeKind.index → ∀ p ∈ x.ptr_, ∃ q : Nat, p = (q : Int) ∧ n0 ≤ q ∧ q < a))

/-- Two records with the same key: a sorted table with a duplicate. -/
def duplicateTable : List Result := [⟨1, 10⟩, ⟨1, 11⟩]

/-- Precondition of `bulkload`: the table is sorted ascending by key, that is
`key[i] <= key[i+1]` for consecutive records (equal keys allowed). -/
def sortedByKey : List Result → Bool
  | [] => true
  | [_] => true
  | a :: b :: rest => decide (a.key_ ≤ b.key_) && sortedByKey (b :: rest)

/-- Keys stored in the leaves created after the file state `old`, leaf after
leaf in address order and slot after slot. -/
def leafKeys (old new : BlockFile) : List Int :=
  ((createdImages old new).filter (fun img => decide (img.kind = NodeKind.leaf))).flatMap
    NodeImage.key_

/-! ## Top-K list: populated slots and insertion -/

/-- Populated slots of a Top-K list: the first `num_` records of the array. -/
def MinK_List.stored (s : MinK_List) : List Result := s.list_.take s.num_.toNat

/-- Keys of the populated slots, in slot order. -/
def MinK_List.storedKeys (s : MinK_List) : List Int := s.stored.map Result.key_

/-- A full Top-K list of capacity 3 holding the keys 2, 5, 8 (the state of the
example after the third insertion); its array has `k + 1` slots. -/
def exampleList258 : MinK_List :=
  { k_ := 3, num_ := 3, list_ := [⟨2, 1⟩, ⟨5, 0⟩, ⟨8, 2⟩, ⟨0, 0⟩] }

/-- A full Top-K list of capacity 3 holding the keys 1, 2, 5 (the state of the
example after the fourth insertion). -/
def exampleList125 : MinK_List :=
  { k_ := 3, num_ := 3, list_ := [⟨1, 3⟩, ⟨2, 1⟩, ⟨5, 0⟩, ⟨8, 2⟩] }

/-- Modelled from the spec: the sorted position of a new record among ascending
records (spec 4.6, "binary search for insertion point"; the comparison `cmp` of
pri_queue.h is the one "for lower_bound"): the record goes before the first
record whose key is not smaller than its key. -/
def insertSorted (r : Result) : List Result → List Result
  | [] => [r]
  | x :: xs => if x.key_ < r.key_ then x :: insertSorted r xs else r :: x :: xs

/-- Modelled from the spec: `MinK_List::insert(key, id)` (declared in
pri_queue.h, body in the absent pri_queue.cc), spec 4.6. With fewer than `k_`
records the record is inserted at its sorted position and the count grows by
one; on a full list a key smaller than the current maximum evicts the maximum
and is inserted among the remaining records; on a full list any other key
changes nothing. The array slots after the populated ones are kept. -/
def MinK_List.insert (s : MinK_List) (key id : Int) : MinK_List :=
  if s.num_ < s.k_ then
    let st := insertSorted ⟨key, id⟩ s.stored
    { s with list_ := st ++ s.list_.drop st.length, num_ := s.num_ + 1 }
  else
    match s.stored.getLast? with
    | none => s
    | some mx =>
      if key < mx.key_ then
        let st := insertSorted ⟨key, id⟩ s.stored.dropLast
        { s with list_ := st ++ s.list_.drop st.length }
      else s

/-- Modelled from the spec: the value `insert` returns, the maximum of the
list after the operation, or `MAXREAL` while the list is not full (spec 4.6). -/
def MinK_List.insert_ret (s : MinK_List) (key id : Int) : Option Int :=
  (s.insert key id).max_key

/-- Modelled from the spec: a list of capacity `k` on which nothing has been
inserted yet, over the array `arr` (constructor body in the absent
pri_queue.cc). -/
def MinK_List.empty (k : Int) (arr : List Result) : MinK_List :=
  { k_ := k, num_ := 0, list_ := arr }

/-- A sequence of `insert` calls, one per record, in order. -/
def MinK_List.insertAll (s : MinK_List) (rs : List Result) : MinK_List :=
  rs.foldl (fun s r => s.insert r.key_ r.id_) s

/-- The insertions of the example: (5, a), (2, b), (8, c), (1, d), (9, e), the
ids `a .. e` written 0 .. 4. -/
def exampleInserts : List Result := [⟨5, 0⟩, ⟨2, 1⟩, ⟨8, 2⟩, ⟨1, 3⟩, ⟨9, 4⟩]

/-- The populated slots of `s` are the `min(k, count)` smallest-key records of
the inserted records `ins`, ascending by key: the capacity is `k`, the count is
`min(k, count)`, the stored keys ascend, and the inserted records split into
the stored ones and the others, none of the others having a key smaller than
a stored key. -/
def HoldsSmallest (k : Nat) (s : MinK_List) (ins : List Result) : Prop :=
  s.k_ = (k : Int) ∧ s.num_ = ((min k ins.length : Nat) : Int) ∧
  s.stored.length = min k ins.length ∧
  s.storedKeys.Pairwise (fun a b => a ≤ b) ∧
  ∃ rest, (s.stored ++ rest).Perm ins ∧ ∀ x ∈ s.stored, ∀ y ∈ rest, x.key_ ≤ y.key_

/-! ## Projections of the event trace -/

/-- Restorations recorded by a trace: the level and the block of every node
acquired by `init_restore`, in order. -/
def restoresOf (tr : List Event) : List (Nat × Int) :=
  tr.filterMap (fun e =>
    match e with
    | Event.acquire Role.read l b => some (l, b)
    | _ => none)

/-- Creations recorded by a trace: the block of every node acquired by `init`,
in order. -/
def builtOf (tr : List Event) : List Int :=
  tr.filterMap (fun e =>
    match e with
    | Event.acquire Role.built _ b => some b
    | _ => none)

/-- Events of the level under construction: acquisition by `init`, release of
such a node, `add_new_child`. -/
def Event.isBuild : Event → Bool
  | Event.acquire Role.built _ _ => true
  | Event.release Role.built _ => true
  | Event.add_new_child _ _ _ => true
  | _ => false

/-- Every `get_key_of_node` call recorded by the trace was made on a node with
at least one entry, so that `key_[0]` is a populated slot. -/
def KeyReadsPopulated (tr : List Event) : Prop :=
  ∀ b ne, Event.get_key_of_node b ne ∈ tr → 1 ≤ ne

/-- Frame at the head of the `while` loop or after it, when the topmost level
built so far is level `L`, made of `m` nodes at the addresses
`base .. base + m - 1`, and the blocks of the file are `B`; no node is held. -/
def OnLevel (s : Frame) (L base m : Nat) (B : List (Option NodeImage)) : Prop :=
  s.file_.blocks = B ∧ s.last_start_block = (base : Int) ∧
  s.last_end_block = ((base + m : Nat) : Int) - 1 ∧ s.cur_level = L + 1 ∧
  s.fault = false ∧ s.child = none ∧ s.prev_nd = none ∧ s.act_nd = none

/-! ## Tree Controller: `init`, `load_root`, `delete_root` -/

/-- Modelled from the spec: `init_restore(tree, block)` called on a `BIndexNode`
object whatever the block holds, as `load_root` does (body in the absent
b_node.cc). The node is an index node, clean, at the address `block`. The header
is the shared prefix of both layouts (spec 4.1) and is decoded as written; the
entries of a block written by an index node are decoded as written; the entry
payload of a block written by a leaf node, laid out differently, and a block
that was never written are misread: the result at the byte level is not
modelled and is given by `misread`. -/
def BIndexNode.init_restore (icap : Nat) (misread : Option NodeImage → NodeImage)
    (f : BlockFile) (block : Int) : BNode :=
  let img : NodeImage :=
    match f.read_block block with
    | some x =>
      if x.kind = NodeKind.index then x
      else
        { misread (some x) with level_ := x.level_, num_entries_ := x.num_entries_,
                                left_sibling_ := x.left_sibling_,
                                right_sibling_ := x.right_sibling_ }
    | none => misread none
  { kind := NodeKind.index, level_ := img.level_, num_entries_ := img.num_entries_,
    left_sibling_ := img.left_sibling_, right_sibling_ := img.right_sibling_,
    key_ := img.key_, ptr_ := img.ptr_, dirty_ := false, block_ := block,
    capacity_ := icap }

/-- Function `BTree::load_root` (b_tree.cc lines 217-223): when `root_ptr_` is
`NULL`, a new `BIndexNode` is restored from the block `root_`. The result is the
tree afterwards and the list of the block addresses read from the Block Store
by the call. -/
def BTree.load_root (icap : Nat) (misread : Option NodeImage → NodeImage) (t : BTree) :
    BTree × List Int :=
  match t.root_ptr_ with
  | some _ => (t, [])
  | none =>
    ({ t with root_ptr_ := some (BIndexNode.init_restore icap misread t.file_ t.root_) },
      [t.root_])

/-- Function `BTree::delete_root` (b_tree.cc lines 226-232): when `root_ptr_` is
not `NULL`, the node is deleted (flushed when dirty) and the pointer is set to
`NULL`. -/
def BTree.delete_root (t : BTree) : BTree :=
  match t.root_ptr_ with
  | some nd => { t with file_ := BNode.release t.file_ nd, root_ptr_ := none }
  | none => t

/-- Function `BTree::init` (b_tree.cc lines 34-50) for index nodes of capacity
`icap`: a new Block Store (modelled from the spec: without any data block), a
new `BIndexNode` initialised at level 0 on a fresh block, `root_` set to its
address, and `delete_root()`. -/
def BTree.init (icap : Nat) : BTree :=
  let file : BlockFile := { blocks := [] }
  let nd := BNode.init NodeKind.index 0 icap file.blocks.length
  BTree.delete_root { root_ := nd.get_block, file_ := file.append_block, root_ptr_ := some nd }

/-- The level of every node agrees with its variant: a leaf node has level 0,
an index node has a level above 0. -/
def LevelsMatchKinds (imgs : List NodeImage) : Prop :=
  ∀ img ∈ imgs, (img.kind = NodeKind.leaf → img.level_ = 0) ∧
    (img.kind = NodeKind.index → 0 < img.level_)

/-- A decoding of foreign blocks used in examples: every field empty. -/
def blankMisread : Option NodeImage → NodeImage :=
  fun _ => { kind := NodeKind.index, level_ := 0, num_entries_ := 0, left_sibling_ := -1,
             right_sibling_ := -1, key_ := [], ptr_ := [] }

/-! ## Invariants of the frames of `bulkload` -/

/-- Initial frame of `bulkload` (lines 84-100): no node held, nothing recorded;
the fault flag is set when the table holds fewer than `n` records. -/
def startFrame (t : BTree) (n : Nat) (table : List Result) : Frame :=
  { file_ := t.file_, child := none, prev_nd := none, act_nd := none,
    first_node := true, start_block := 0, end_block := 0, cur_level := 1,
    last_start_block := 0, last_end_block := 0, trace := [],
    fault := decide (table.length < n), done := false }

/-- Capacity invariant: every `add_new_child` call recorded so far was made on
a node with fewer entries than its capacity, that capacity being the leaf or
the index capacity; and the node being filled is not full. -/
def CapInv (lcap icap : Nat) (s : Frame) : Prop :=
  (∀ b ne cap, Event.add_new_child b ne cap ∈ s.trace →
    ne < cap ∧ (cap = lcap ∨ cap = icap)) ∧
  (s.fault = false → ∀ a, s.act_nd = some a →
    a.num_entries_ < a.capacity_ ∧ (a.capacity_ = lcap ∨ a.capacity_ = icap))

/-- Every release recorded by the trace acts on a node that is live at that
point: acquired before and not released since. -/
def ReleasesLive (tr : List Event) : Prop :=
  ∀ (k : Nat) (r : Role) (b : Int), tr[k]? = some (Event.release r b) →
    (r, b) ∈ liveAfter (tr.take k)

/-- Acquisitions recorded by a trace, in order: how the node was acquired and
its block. -/
def acquiredOf (tr : List Event) : List (Role × Int) :=
  tr.filterMap (fun e =>
    match e with
    | Event.acquire r _ b => some (r, b)
    | _ => none)

/-- Releases recorded by a trace, in order. -/
def releasedOf (tr : List Event) : List (Role × Int) :=
  tr.filterMap (fun e =>
    match e with
    | Event.release r b => some (r, b)
    | _ => none)

/-- Creation order invariant: the nodes created since the file held `m0` blocks
were given the addresses `m0, m0 + 1, ...` in the order of their creation, one
per block appended to the file. -/
def BuiltInv (m0 : Nat) (s : Frame) : Prop :=
  m0 ≤ s.file_.blocks.length ∧
  builtOf s.trace =
    (List.range (s.file_.blocks.length - m0)).map (fun j => ((m0 + j : Nat) : Int))

/-! ## Tree Controller: sequences of operations -/

/-- Constructor `BTree::BTree()` (b_tree.cc lines 8-13): `root_ = -1`, no Block
Store (`file_ = NULL`, here a store without blocks), `root_ptr_ = NULL`. -/
def BTree.new : BTree :=
  { root_ := -1, file_ := { blocks := [] }, root_ptr_ := none }

/-- Function `BTree::init_restore` (b_tree.cc lines 53-77): the Block Store `f`
of an existing tree file is opened, `root_ptr_` is set to `NULL`, and `root_` is
read from the header block. `root` is the root address the header holds
(`read_header` is declared in the absent b_tree.h and is not modelled). -/
def BTree.init_restore (f : BlockFile) (root : Int) : BTree :=
  { root_ := root, file_ := f, root_ptr_ := none }

/-- The invariant of the cached root: when a root is cached, it is the node of
the block `root_`. -/
def RootCached (t : BTree) : Prop :=
  ∀ nd, t.root_ptr_ = some nd → nd.block_ = t.root_

/-- A call of an operation of the Tree Controller, with its arguments. -/
inductive TreeOp where
  | init
  | init_restore (f : BlockFile) (root : Int)
  | load_root
  | delete_root
  | bulkload (fuel n : Nat) (table : List Result)

/-- Tree after one call. Leaves hold `lcap` entries, index nodes `icap`. -/
def TreeOp.apply (lcap icap : Nat) (misread : Option NodeImage → NodeImage) (t : BTree) :
    TreeOp → BTree
  | TreeOp.init => BTree.init icap
  | TreeOp.init_restore f root => BTree.init_restore f root
  | TreeOp.load_root => (BTree.load_root icap misread t).1
  | TreeOp.delete_root => BTree.delete_root t
  | TreeOp.bulkload fuel n table => (nns.bulkload lcap icap fuel t n table).tree

/-- Tree after a sequence of calls, in order. -/
def runOps (lcap icap : Nat) (misread : Option NodeImage → NodeImage) (t : BTree)
    (ops : List TreeOp) : BTree :=
  ops.foldl (TreeOp.apply lcap icap misread) t

/-- Whether every `bulkload` call of the sequence is made while no root is
cached. -/
def bulkloadsUncached (lcap icap : Nat) (misread : Option NodeImage → NodeImage) :
    BTree → List TreeOp → Bool
  | _, [] => true
  | t, op :: ops =>
    (match op with
      | TreeOp.bulkload _ _ _ => t.root_ptr_.isNone
      | _ => true) &&
      bulkloadsUncached lcap icap misread (TreeOp.apply lcap icap misread t op) ops

/-! ## The one-byte level field -/

/-- Largest level that the field `char level_` of b_node.h (one level byte in
the block header, spec 4.1) holds whether `char` is signed or not. The model
keeps levels as unbounded numbers; it agrees with the program as long as no
level above `maxLevel` is stored, that is as long as `cur_level` has not
exceeded `maxLevel + 1`. -/
def maxLevel : Nat := 127

/-- The tree's `root_` is the address of a node built since the file state
`old`: a block allocated after `old` that holds a node. -/
def RootBuilt (old : BlockFile) (t : BTree) : Prop :=
  ∃ a : Nat, old.blocks.length ≤ a ∧ t.root_ = (a : Int) ∧
    ∃ img, t.file_.read_block t.root_ = some img

/-! ## Theorems -/

/-! ### Block file lemmas -/

theorem read_block_natCast (f : BlockFile) (n : Nat) :
    f.read_block (n : Int) = (f.blocks[n]?).join := by
  simp [BlockFile.read_block]

theorem write_block_natCast (f : BlockFile) (n : Nat) (img : NodeImage) :
    f.write_block (n : Int) img = { blocks := f.blocks.set n (some img) } := by
  simp [BlockFile.write_block]

theorem set_length_append_cons {α : Type} (A : List α) (x v : α) (B : List α) :
    (A ++ x :: B).set A.length v = A ++ v :: B := by
  induction A with
  | nil => simp
  | cons a A ih => simp [ih]

/-! ### The pass invariant -/

theorem linkedFrom_length (kind : NodeKind) (level base : Nat) (cs : List (List Entry)) (j : Nat) :
    (linkedFrom kind level base j cs).length = cs.length := by
  induction cs generalizing j with
  | nil => simp [linkedFrom]
  | cons c cs ih => simp [linkedFrom, ih]

theorem linkedFrom_append (kind : NodeKind) (level base : Nat) (cs ds : List (List Entry))
    (j : Nat) :
    linkedFrom kind level base j (cs ++ ds) =
      linkedFrom kind level base j cs ++ linkedFrom kind level base (j + cs.length) ds := by
  induction cs generalizing j with
  | nil => simp [linkedFrom]
  | cons c cs ih =>
    have e : j + 1 + cs.length = j + (cs.length + 1) := by omega
    rw [List.cons_append]
    simp only [linkedFrom, List.length_cons, List.cons_append]
    rw [ih, e]

theorem release_pending_blocks (A B : List (Option NodeImage)) (kind : NodeKind)
    (level cap base j : Nat) (c : List Entry) (right : Int) (hA : A.length = base + j) :
    (BNode.release { blocks := A ++ none :: B }
        ((pendingNode kind level cap base j c).set_right_sibling right)).blocks =
      A ++ some (nodeImage kind level base j c right) :: B := by
  simp only [BNode.release, pendingNode, BNode.set_right_sibling, if_true, write_block_natCast,
    BNode.write_to_buffer]
  rw [← hA, set_length_append_cons]
  simp [nodeImage, hA]

/-- Effect of lines 124-130 / 182-188 on a node of the level under construction. -/
theorem fill_pending (kind : NodeKind) (level cap base j : Nat) (c : List Entry) (s : Frame)
    (k p : Int) (h : s.act_nd = some (pendingNode kind level cap base j c)) :
    fill kind s k p =
      if cap ≤ c.length + 1 then
        { s with prev_nd := some (pendingNode kind level cap base j (c ++ [(k, p)])),
                 act_nd := none,
                 trace := s.trace ++
                   [Event.add_new_child ((base + j : Nat) : Int) c.length cap] }
      else
        { s with act_nd := some (pendingNode kind level cap base j (c ++ [(k, p)])),
                 trace := s.trace ++
                   [Event.add_new_child ((base + j : Nat) : Int) c.length cap] } := by
  cases kind <;>
    simp [fill, h, pendingNode, BNode.isFull, BNode.get_block, BLeafNode.add_new_child,
      BIndexNode.add_new_child]

/-- Effect of lines 106-113 / 167-173: the first node of a level is created. -/
theorem attach_first (kind : NodeKind) (level cap : Nat) (s : Frame) (ha : s.act_nd = none)
    (h1 : s.first_node = true) :
    attach kind level cap s =
      { s with file_ := s.file_.append_block,
               act_nd := some (pendingNode kind level cap s.file_.blocks.length 0 []),
               first_node := false, start_block := (s.file_.blocks.length : Int),
               end_block := (s.file_.blocks.length : Int),
               trace := s.trace ++
                 [Event.acquire Role.built level (s.file_.blocks.length : Int)] } := by
  simp [attach, ha, h1, BNode.init, BNode.get_block, pendingNode]

/-- Effect of lines 106-123 / 167-181 when a node is being filled: nothing. -/
theorem attach_some (kind : NodeKind) (level cap : Nat) (s : Frame) (nd : BNode)
    (ha : s.act_nd = some nd) : attach kind level cap s = s := by
  simp [attach, ha]

/-- Effect of lines 114-122 / 174-180: a further node of the level is created,
linked with its left neighbour, and the neighbour is released. -/
theorem attach_link (kind : NodeKind) (level cap base j : Nat) (c : List Entry) (s : Frame)
    (ha : s.act_nd = none) (h1 : s.first_node = false)
    (hp : s.prev_nd = some (pendingNode kind level cap base j c))
    (hlen : s.file_.blocks.length = base + j + 1) :
    attach kind level cap s =
      { s with
        file_ := BNode.release s.file_.append_block
          ((pendingNode kind level cap base j c).set_right_sibling
            (((base + j : Nat) : Int) + 1)),
        act_nd := some (pendingNode kind level cap base (j + 1) []),
        prev_nd := none,
        end_block := ((base + (j + 1) : Nat) : Int),
        trace := s.trace ++ [Event.acquire Role.built level (((base + j : Nat) : Int) + 1),
          Event.release Role.built ((base + j : Nat) : Int)] } := by
  simp [attach, ha, h1, hp, BNode.get_block, BNode.set_left_sibling, BNode.init, pendingNode,
    hlen]
  constructor <;> omega

theorem passInv_start (kind : NodeKind) (level cap : Nat) (s0 : Frame)
    (hf : s0.fault = false) (hc : s0.child = none) (hp : s0.prev_nd = none)
    (ha : s0.act_nd = none) (h1 : s0.first_node = true) :
    PassInv kind level cap s0 s0 [] := by
  simp [PassInv, hf, hc, hp, ha, h1]

theorem passInv_put (kind : NodeKind) (level cap : Nat) (hcap : 1 ≤ cap) (s0 s : Frame)
    (xs : List Entry) (k p : Int) (h : PassInv kind level cap s0 s xs) :
    PassInv kind level cap s0 (put kind level cap s k p) (xs ++ [(k, p)]) := by
  obtain ⟨hf, hc, hl, hls, hle, hd, h⟩ := h
  rcases h with ⟨rfl, hfile, hp, ha, h1, hsb, heb⟩ |
    ⟨cs, last, rfl, hcs, hne, hlen, hfile, h1, hsb, heb, hnd⟩
  · -- first entry of the pass
    have hatt := attach_first kind level cap s ha h1
    have hfill := fill_pending kind level cap s.file_.blocks.length 0 [] (attach kind level cap s)
      k p (by rw [hatt])
    have hput : put kind level cap s k p = fill kind (attach kind level cap s) k p := by
      simp [put, hf, hatt]
    rw [hput, hfill, hatt]
    refine ⟨?_, ?_, ?_, ?_, ?_, ?_, Or.inr ⟨[], [(k, p)], ?_⟩⟩
    clear hfill hatt hput
    all_goals (split <;> simp [hf, hc, hl, hls, hle, hd, hp, hfile, linkedFrom, BlockFile.append_block])
    all_goals (rename_i hh; simp at hh; omega)
  · have hlenF : s.file_.blocks.length = s0.file_.blocks.length + cs.length + 1 := by
      rw [hfile]; simp [linkedFrom_length]; omega
    by_cases hlt : last.length < cap
    · rw [if_pos hlt] at hnd
      obtain ⟨ha, hp⟩ := hnd
      have hatt := attach_some kind level cap s _ ha
      have hfill := fill_pending kind level cap s0.file_.blocks.length cs.length last s k p ha
      have hput : put kind level cap s k p = fill kind s k p := by
        simp [put, hf, hatt]
      rw [hput, hfill]
      clear hfill hatt hput
      refine ⟨?_, ?_, ?_, ?_, ?_, ?_, Or.inr ⟨cs, last ++ [(k, p)], ?_⟩⟩
      all_goals (split <;> simp [hf, hc, hl, hls, hle, hd, hfile, h1, hsb, hp, heb])
      all_goals exact ⟨hcs, by omega, by omega⟩
    · rw [if_neg hlt] at hnd
      obtain ⟨ha, hp⟩ := hnd
      have hlast : last.length = cap := by omega
      have hatt := attach_link kind level cap s0.file_.blocks.length cs.length last s ha h1 hp hlenF
      have hfileA : s.file_.append_block =
          { blocks := (s0.file_.blocks ++ linkedFrom kind level s0.file_.blocks.length 0 cs) ++
              none :: [none] } := by
        simp [BlockFile.append_block, hfile]
      have hrel := release_pending_blocks
        (s0.file_.blocks ++ linkedFrom kind level s0.file_.blocks.length 0 cs) [none] kind level cap
        s0.file_.blocks.length cs.length last (((s0.file_.blocks.length + cs.length : Nat) : Int) + 1)
        (by simp [linkedFrom_length])
      rw [← hfileA] at hrel
      have hfill := fill_pending kind level cap s0.file_.blocks.length (cs.length + 1) []
        (attach kind level cap s) k p (by rw [hatt])
      have hput : put kind level cap s k p = fill kind (attach kind level cap s) k p := by
        simp [put, hf, hatt]
      rw [hput, hfill, hatt]
      clear hfill hatt hput
      refine ⟨?_, ?_, ?_, ?_, ?_, ?_, Or.inr ⟨cs ++ [last], [(k, p)], ?_⟩⟩
      all_goals (split <;> simp [hf, hc, hl, hls, hle, hd, h1, hsb, linkedFrom_append, linkedFrom])
      all_goals
        (rename_i hh
         simp at hh
         refine ⟨?_, hcap, by simpa using hrel, by omega⟩
         rintro c (hc' | rfl)
         · exact hcs c hc'
         · exact hlast)

theorem passInv_foldl (kind : NodeKind) (level cap : Nat) (hcap : 1 ≤ cap) (s0 : Frame)
    (ys : List Entry) (s : Frame) (xs : List Entry) (h : PassInv kind level cap s0 s xs) :
    PassInv kind level cap s0
      (List.foldl (fun st (e : Entry) => put kind level cap st e.1 e.2) s ys) (xs ++ ys) := by
  induction ys generalizing s xs with
  | nil => simpa using h
  | cons y ys ih =>
    have h' := passInv_put kind level cap hcap s0 s xs y.1 y.2 h
    have := ih _ _ h'
    simpa using this

theorem release_pending_last (A : List (Option NodeImage)) (kind : NodeKind)
    (level cap base j : Nat) (c : List Entry) (hA : A.length = base + j) :
    (BNode.release { blocks := A ++ [none] } (pendingNode kind level cap base j c)).blocks =
      A ++ [some (nodeImage kind level base j c (-1))] := by
  simp only [BNode.release, pendingNode, if_true, write_block_natCast, BNode.write_to_buffer]
  rw [← hA, set_length_append_cons]
  simp [nodeImage, hA]

theorem passInv_cleanup (kind : NodeKind) (level cap : Nat) (s0 s : Frame) (xs : List Entry)
    (h : PassInv kind level cap s0 s xs) :
    PassDone kind level cap s0 (cleanup s) xs := by
  obtain ⟨hf, hc, hl, hls, hle, hd, h⟩ := h
  rcases h with ⟨rfl, hfile, hp, ha, h1, hsb, heb⟩ |
    ⟨cs, last, rfl, hcs, hne, hlen, hfile, h1, hsb, heb, hnd⟩
  · have : cleanup s = s := by simp [cleanup, hf, hp, ha]
    rw [this]
    simp [PassDone, hf, hc, hl, hls, hle, hd, hfile, hp, ha, h1, hsb, heb]
  · have hfileA : s.file_ =
        { blocks := (s0.file_.blocks ++ linkedFrom kind level s0.file_.blocks.length 0 cs) ++
            [none] } := by
      cases hs : s.file_; simp [hs] at hfile; simp [hfile]
    have hrel := release_pending_last
      (s0.file_.blocks ++ linkedFrom kind level s0.file_.blocks.length 0 cs) kind level cap
      s0.file_.blocks.length cs.length last (by simp [linkedFrom_length])
    rw [← hfileA] at hrel
    by_cases hlt : last.length < cap
    · rw [if_pos hlt] at hnd
      obtain ⟨ha, hp⟩ := hnd
      refine ⟨?_, ?_, ?_, ?_, ?_, ?_, ?_, ?_, Or.inr ⟨cs, last, rfl, hcs, hne, hlen, ?_⟩⟩
      all_goals simp [cleanup, hf, hc, hl, hls, hle, hd, hp, ha, h1, hsb, heb, hrel, levelBlocks]
    · rw [if_neg hlt] at hnd
      obtain ⟨ha, hp⟩ := hnd
      refine ⟨?_, ?_, ?_, ?_, ?_, ?_, ?_, ?_, Or.inr ⟨cs, last, rfl, hcs, hne, hlen, ?_⟩⟩
      all_goals simp [cleanup, hf, hc, hl, hls, hle, hd, hp, ha, h1, hsb, heb, hrel, levelBlocks]

theorem passInv_read (kind : NodeKind) (level cap : Nat) (s0 s : Frame) (xs : List Entry)
    (h : PassInv kind level cap s0 s xs) (i : Int) (img : NodeImage)
    (hr : s0.file_.read_block i = some img) : s.file_.read_block i = some img := by
  obtain ⟨-, -, -, -, -, -, h⟩ := h
  rcases h with ⟨-, hfile, -⟩ | ⟨cs, last, -, -, -, -, hfile, -⟩
  · rw [hfile]; exact hr
  · unfold BlockFile.read_block at hr ⊢
    by_cases h0 : 0 ≤ i
    · simp only [h0, if_true] at hr ⊢
      have hlt : i.toNat < s0.file_.blocks.length := by
        by_contra hge
        rw [List.getElem?_eq_none (by omega)] at hr
        simp at hr
      rw [hfile, List.append_assoc, List.getElem?_append_left hlt]
      exact hr
    · simp [h0] at hr

theorem passInv_untraced (kind : NodeKind) (level cap : Nat) (s0 s : Frame) (xs : List Entry)
    (h : PassInv kind level cap s0 s xs) (tr : List Event) :
    PassInv kind level cap s0 { s with child := none, trace := tr } xs := by
  obtain ⟨hf, hc, hl, hls, hle, hd, h⟩ := h
  exact ⟨hf, rfl, hl, hls, hle, hd, h⟩

theorem levelBody_eq (lcap icap : Nat) (s0 s : Frame) (xs : List Entry)
    (h : PassInv NodeKind.index s0.cur_level icap s0 s xs) (i : Int) (img : NodeImage)
    (hr : s0.file_.read_block i = some img) (hk : img.kind = childKind s0.cur_level)
    (hne : img.key_ ≠ []) :
    levelBody lcap icap s i =
      put NodeKind.index s0.cur_level icap
        { s with child := none,
                 trace := s.trace ++ [Event.acquire Role.read img.level_ i,
                   Event.get_key_of_node i img.num_entries_, Event.release Role.read i] }
        (entryOf s0.file_ i).1 (entryOf s0.file_ i).2 := by
  have hr' := passInv_read _ _ _ _ _ _ h i img hr
  obtain ⟨hf, hc, hl, -⟩ := h
  obtain ⟨k, rest, hkey⟩ := List.exists_cons_of_ne_nil hne
  unfold childKind at hk
  by_cases h1 : s0.cur_level = 1
  · simp [levelBody, hf, hl, h1, BNode.init_restore, hr', hk, BNode.get_key_of_node, hkey,
      BNode.release, BNode.get_block, entryOf, hr]
  · simp [levelBody, hf, hl, h1, BNode.init_restore, hr', hk, BNode.get_key_of_node, hkey,
      BNode.release, BNode.get_block, entryOf, hr]

theorem passInv_levelBody_foldl (lcap icap : Nat) (hcap : 1 ≤ icap) (s0 : Frame) (ys : List Int)
    (hys : ∀ i ∈ ys, ∃ img, s0.file_.read_block i = some img ∧
      img.kind = childKind s0.cur_level ∧ img.key_ ≠ [])
    (s : Frame) (xs : List Entry) (h : PassInv NodeKind.index s0.cur_level icap s0 s xs) :
    PassInv NodeKind.index s0.cur_level icap s0 (List.foldl (levelBody lcap icap) s ys)
      (xs ++ ys.map (entryOf s0.file_)) := by
  induction ys generalizing s xs with
  | nil => simpa using h
  | cons y ys ih =>
    obtain ⟨img, hr, hk, hne⟩ := hys y (by simp)
    have e := levelBody_eq lcap icap s0 s xs h y img hr hk hne
    have h' := passInv_put NodeKind.index s0.cur_level icap hcap s0 _ xs
      (entryOf s0.file_ y).1 (entryOf s0.file_ y).2
      (passInv_untraced _ _ _ _ _ _ h (s.trace ++ [Event.acquire Role.read img.level_ y,
          Event.get_key_of_node y img.num_entries_, Event.release Role.read y]))
    rw [← e] at h'
    have := ih (fun i hi => hys i (by simp [hi])) _ _ h'
    simpa using this

theorem linkedFrom_getElem? (kind : NodeKind) (level base : Nat) (cs : List (List Entry))
    (j0 j : Nat) (c : List Entry) (h : cs[j]? = some c) :
    (linkedFrom kind level base j0 cs)[j]? =
      some (some (nodeImage kind level base (j0 + j) c (((base + (j0 + j) : Nat) : Int) + 1))) := by
  induction cs generalizing j0 j with
  | nil => simp at h
  | cons d cs ih =>
    cases j with
    | zero =>
      simp at h
      simp [linkedFrom, h]
    | succ j =>
      simp at h
      simp only [linkedFrom, List.getElem?_cons_succ]
      rw [ih (j0 + 1) j h]
      have e : j0 + 1 + j = j0 + (j + 1) := by omega
      rw [e]

theorem levelBlocks_length (kind : NodeKind) (level base : Nat) (cs : List (List Entry))
    (last : List Entry) : (levelBlocks kind level base cs last).length = cs.length + 1 := by
  simp [levelBlocks, linkedFrom_length]

theorem levelBlocks_getElem? (kind : NodeKind) (level base : Nat) (cs : List (List Entry))
    (last : List Entry) (j : Nat) (c : List Entry) (h : (cs ++ [last])[j]? = some c) :
    (levelBlocks kind level base cs last)[j]? =
      some (some (nodeImage kind level base j c
        (if j = cs.length then -1 else ((base + j : Nat) : Int) + 1))) := by
  unfold levelBlocks
  by_cases hj : j < cs.length
  · rw [List.getElem?_append_left hj] at h
    rw [List.getElem?_append_left (by simpa [linkedFrom_length] using hj)]
    have := linkedFrom_getElem? kind level base cs 0 j c h
    simp only [Nat.zero_add] at this
    rw [this, if_neg (by omega)]
  · have hj' : j = cs.length := by
      by_contra hne
      rw [List.getElem?_eq_none (by simp; omega)] at h
      simp at h
    subst hj'
    simp at h
    subst h
    rw [List.getElem?_append_right (by simp [linkedFrom_length])]
    simp [linkedFrom_length]

theorem upEntries_length (base : Nat) (ch : List (List Entry)) (j0 : Nat) :
    (upEntries base j0 ch).length = ch.length := by
  induction ch generalizing j0 with
  | nil => simp [upEntries]
  | cons c ch ih => simp [upEntries, ih]

theorem upEntries_getElem? (base : Nat) (ch : List (List Entry)) (j0 j : Nat) (c : List Entry)
    (h : ch[j]? = some c) :
    (upEntries base j0 ch)[j]? = some (firstKey c, ((base + (j0 + j) : Nat) : Int)) := by
  induction ch generalizing j0 j with
  | nil => simp at h
  | cons d ch ih =>
    cases j with
    | zero =>
      simp at h
      simp [upEntries, h]
    | succ j =>
      simp at h
      simp only [upEntries, List.getElem?_cons_succ]
      rw [ih (j0 + 1) j h]
      have e : j0 + 1 + j = j0 + (j + 1) := by omega
      rw [e]

theorem Stack.length_eq {lcap icap : Nat} {F0 : List (Option NodeImage)}
    {cs0 : List (List Entry)} {last0 : List Entry} {L base : Nat} {ch : List (List Entry)}
    {B : List (Option NodeImage)} (h : Stack lcap icap F0 cs0 last0 L base ch B) :
    B.length = base + ch.length := by
  induction h with
  | leaf => simp [levelBlocks_length]
  | up cs last hS h2 h1 hup hcs hne hlen ih => simp [levelBlocks_length, ih]

/-- The topmost level of a stack is the last segment of the block list. -/
theorem Stack.top {lcap icap : Nat} {F0 : List (Option NodeImage)} {cs0 : List (List Entry)}
    {last0 : List Entry} {L base : Nat} {ch : List (List Entry)} {B : List (Option NodeImage)}
    (h : Stack lcap icap F0 cs0 last0 L base ch B) :
    ∃ B0 cs last, ch = cs ++ [last] ∧ B0.length = base ∧
      B = B0 ++ levelBlocks (childKind (L + 1)) L base cs last ∧ (∀ c ∈ ch, c ≠ []) := by
  cases h with
  | leaf h1 hcs hne hlen =>
    refine ⟨F0, cs0, last0, rfl, rfl, by simp [childKind], ?_⟩
    intro c hc
    simp at hc
    rcases hc with hc | rfl
    · intro h0
      have := hcs c hc
      rw [h0] at this
      simp at this
      omega
    · exact hne
  | up cs last hS h2 h1 hup hcs hne hlen =>
    rename_i L' base' ch' B'
    have hB : B'.length = base' + ch'.length := hS.length_eq
    refine ⟨B', cs, last, rfl, hB, by simp [childKind], ?_⟩
    intro c hc
    simp at hc
    rcases hc with hc | rfl
    · intro h0
      have := hcs c hc
      rw [h0] at this
      simp at this
      omega
    · exact hne

/-- Reading a node of the topmost level. -/
theorem Stack.read_top {lcap icap : Nat} {F0 : List (Option NodeImage)}
    {cs0 : List (List Entry)} {last0 : List Entry} {L base : Nat} {ch : List (List Entry)}
    {B : List (Option NodeImage)} (h : Stack lcap icap F0 cs0 last0 L base ch B)
    (j : Nat) (c : List Entry) (hj : ch[j]? = some c) :
    (BlockFile.mk B).read_block ((base + j : Nat) : Int) =
      some (nodeImage (childKind (L + 1)) L base j c
        (if j + 1 = ch.length then -1 else ((base + j : Nat) : Int) + 1)) ∧ c ≠ [] := by
  obtain ⟨B0, cs, last, rfl, hB0, rfl, hne⟩ := h.top
  refine ⟨?_, hne c (List.getElem?_mem hj)⟩
  rw [read_block_natCast]
  simp only
  rw [List.getElem?_append_right (by omega)]
  have e : base + j - B0.length = j := by omega
  rw [e, levelBlocks_getElem? _ _ _ _ _ _ _ hj]
  simp

theorem addrRange_eq (base m : Nat) :
    addrRange (base : Int) (((base + m : Nat) : Int) - 1) =
      (List.range m).map (fun j => ((base + j : Nat) : Int)) := by
  unfold addrRange
  have e : (((base + m : Nat) : Int) - 1 + 1 - (base : Int)).toNat = m := by
    push_cast
    omega
  rw [e]
  apply List.map_congr_left
  intro j _
  push_cast
  rfl

theorem Stack.entries_top {lcap icap : Nat} {F0 : List (Option NodeImage)}
    {cs0 : List (List Entry)} {last0 : List Entry} {L base : Nat} {ch : List (List Entry)}
    {B : List (Option NodeImage)} (h : Stack lcap icap F0 cs0 last0 L base ch B) :
    (addrRange (base : Int) (((base + ch.length : Nat) : Int) - 1)).map (entryOf (BlockFile.mk B)) =
      upEntries base 0 ch := by
  rw [addrRange_eq]
  apply List.ext_getElem?
  intro j
  by_cases hj : j < ch.length
  · have hc : ch[j]? = some ch[j] := List.getElem?_eq_getElem hj
    rw [upEntries_getElem? base ch 0 j _ hc]
    obtain ⟨hr, hne⟩ := h.read_top j _ hc
    simp only [List.getElem?_map, List.getElem?_range hj, Option.map_some', entryOf, hr,
      Option.bind_some, nodeImage, firstKey]
    obtain ⟨x, rest, hx⟩ := List.exists_cons_of_ne_nil hne
    simp [hx]
  · rw [List.getElem?_eq_none (by simp; omega),
      List.getElem?_eq_none (by simp [upEntries_length]; omega)]

/-- One level-building pass on top of a stack whose topmost level has at least
two nodes builds the next level of the stack. -/
theorem levelPass_stack {lcap icap : Nat} {F0 : List (Option NodeImage)}
    {cs0 : List (List Entry)} {last0 : List Entry} {L base : Nat} {ch : List (List Entry)}
    {B : List (Option NodeImage)} (hS : Stack lcap icap F0 cs0 last0 L base ch B) (s : Frame)
    (hs : AtLevel s L base ch.length B) (h2 : 2 ≤ ch.length) (hcap : 1 ≤ icap) :
    ∃ cs last, upEntries base 0 ch = cs.flatten ++ last ∧ (∀ c ∈ cs, c.length = icap) ∧
      last ≠ [] ∧ last.length ≤ icap ∧
      AtLevel (levelPass lcap icap s) (L + 1) (base + ch.length) (cs.length + 1)
        (B ++ levelBlocks NodeKind.index (L + 1) (base + ch.length) cs last) := by
  obtain ⟨hB, hls, hle, hl, hf, hd, hc, hp, ha⟩ := hs
  have hlen := hS.length_eq
  have hfile : s.file_ = BlockFile.mk B := by cases hs' : s.file_; simp [hs'] at hB; simp [hB]
  obtain ⟨s0, hs0⟩ : ∃ s0 : Frame, s0 = { s with first_node := true } := ⟨_, rfl⟩
  have e0 : levelPass lcap icap s =
      if (cleanup (List.foldl (levelBody lcap icap) s0
            (addrRange s.last_start_block s.last_end_block))).fault then
        cleanup (List.foldl (levelBody lcap icap) s0
          (addrRange s.last_start_block s.last_end_block))
      else
        { cleanup (List.foldl (levelBody lcap icap) s0
            (addrRange s.last_start_block s.last_end_block)) with
          last_start_block := (cleanup (List.foldl (levelBody lcap icap) s0
            (addrRange s.last_start_block s.last_end_block))).start_block,
          last_end_block := (cleanup (List.foldl (levelBody lcap icap) s0
            (addrRange s.last_start_block s.last_end_block))).end_block,
          cur_level := (cleanup (List.foldl (levelBody lcap icap) s0
            (addrRange s.last_start_block s.last_end_block))).cur_level + 1 } := by
    rw [hs0]; rfl
  have hl0 : s0.cur_level = L + 1 := by rw [hs0]; exact hl
  have hfile0 : s0.file_ = BlockFile.mk B := by rw [hs0]; exact hfile
  have hd0 : s0.done = false := by rw [hs0]; exact hd
  have h0 : PassInv NodeKind.index s0.cur_level icap s0 s0 [] :=
    passInv_start _ _ _ _ (by rw [hs0]; exact hf) (by rw [hs0]; exact hc) (by rw [hs0]; exact hp)
      (by rw [hs0]; exact ha) (by rw [hs0])
  have hys : ∀ i ∈ addrRange s.last_start_block s.last_end_block,
      ∃ img, s0.file_.read_block i = some img ∧ img.kind = childKind s0.cur_level ∧
        img.key_ ≠ [] := by
    intro i hi
    rw [hls, hle, addrRange_eq] at hi
    simp only [List.mem_map, List.mem_range] at hi
    obtain ⟨j, hj, rfl⟩ := hi
    obtain ⟨hr, hne⟩ := hS.read_top j _ (List.getElem?_eq_getElem hj)
    refine ⟨_, by rw [hfile0]; exact hr, by rw [hl0]; rfl, ?_⟩
    simpa [nodeImage] using hne
  have h1 := passInv_levelBody_foldl lcap icap hcap s0
    (addrRange s.last_start_block s.last_end_block) hys _ [] h0
  have h3 := passInv_cleanup _ _ _ _ _ _ h1
  have hitems : List.map (entryOf s0.file_) (addrRange s.last_start_block s.last_end_block) =
      upEntries base 0 ch := by
    rw [hls, hle, hfile0, hS.entries_top]
  simp only [List.nil_append, hitems] at h3
  obtain ⟨gf, gc, gp, ga, gl, gls, gle, gd, h3⟩ := h3
  have hne : upEntries base 0 ch ≠ [] := by
    intro h0
    have := upEntries_length base ch 0
    rw [h0] at this
    simp at this
    omega
  rcases h3 with ⟨h0, -⟩ | ⟨cs, last, hx, hcs, hlast, hlen', gfile, g1, gsb, geb⟩
  · exact absurd h0 hne
  · refine ⟨cs, last, hx, hcs, hlast, hlen', ?_⟩
    rw [e0, gf]
    simp only [Bool.false_eq_true, if_false]
    rw [hfile0] at gfile gsb geb
    simp only [hlen] at gfile gsb geb
    refine ⟨?_, ?_, ?_, ?_, gf, ?_, gc, gp, ga⟩
    · rw [gfile, hl0]
    · exact gsb
    · simp only [geb]
      push_cast
      omega
    · simp only [gl, hl0]
    · simp only [gd, hd0]

theorem chunks_length_lt {cap m : Nat} {xs : List Entry} {cs : List (List Entry)}
    {last : List Entry} (hx : xs = cs.flatten ++ last) (hcs : ∀ c ∈ cs, c.length = cap)
    (hlen : xs.length = m) (hne : last ≠ []) (hcap : 2 ≤ cap) (hm : 2 ≤ m) :
    cs.length + 1 < m ∧ cs.length * cap + last.length = m := by
  have hfl : cs.flatten.length = cs.length * cap := by
    clear hx
    induction cs with
    | nil => simp
    | cons c cs ih =>
      have hc := hcs c (by simp)
      have := ih (fun c' hc' => hcs c' (by simp [hc']))
      simp [this, hc]
      ring
  have hl : 0 < last.length := List.length_pos.mpr hne
  have htot : cs.length * cap + last.length = m := by
    rw [← hlen, hx, List.length_append, hfl]
  refine ⟨?_, htot⟩
  have : cs.length * 2 ≤ cs.length * cap := Nat.mul_le_mul_left _ hcap
  omega

/-- The `while` loop, started on a stack with enough fuel, ends on a stack whose
topmost level is a single node. -/
theorem whileLoop_stack {lcap icap : Nat} (hcap : 2 ≤ icap) {F0 : List (Option NodeImage)}
    {cs0 : List (List Entry)} {last0 : List Entry} (fuel : Nat) :
    ∀ {L base : Nat} {ch : List (List Entry)} {B : List (Option NodeImage)} (s : Frame),
      Stack lcap icap F0 cs0 last0 L base ch B → AtLevel s L base ch.length B →
      ch.length ≤ fuel + 1 →
      ∃ L' base' c B', Stack lcap icap F0 cs0 last0 L' base' [c] B' ∧
        (whileLoop lcap icap fuel s).file_.blocks = B' ∧
        (whileLoop lcap icap fuel s).last_start_block = (base' : Int) ∧
        (whileLoop lcap icap fuel s).last_end_block = (base' : Int) ∧
        (whileLoop lcap icap fuel s).cur_level = L' + 1 ∧
        (whileLoop lcap icap fuel s).fault = false ∧
        (whileLoop lcap icap fuel s).done = true ∧
        (whileLoop lcap icap fuel s).child = none ∧
        (whileLoop lcap icap fuel s).prev_nd = none ∧
        (whileLoop lcap icap fuel s).act_nd = none := by
  induction fuel with
  | zero =>
    intro L base ch B s hS hs hfuel
    obtain ⟨B0, cs, last, hch, -, -, -⟩ := hS.top
    have hcs : cs = [] := by
      rw [hch] at hfuel
      simp at hfuel
      exact hfuel
    subst hcs
    simp only [List.nil_append] at hch
    subst hch
    obtain ⟨hB, hls, hle, hl, hf, hd, hc, hp, ha⟩ := hs
    have hcond : ¬ (s.last_end_block > s.last_start_block) := by
      rw [hls, hle]; simp
    refine ⟨L, base, last, B, hS, ?_⟩
    have e : whileLoop lcap icap 0 s = { s with done := true } := by
      unfold whileLoop
      simp only [hf, Bool.false_eq_true, if_false, hcond]
    rw [e]
    exact ⟨hB, hls, by rw [hle]; simp, hl, hf, rfl, hc, hp, ha⟩
  | succ fuel ih =>
    intro L base ch B s hS hs hfuel
    by_cases h2 : 2 ≤ ch.length
    · obtain ⟨cs, last, hx, hcs, hne, hlen, hA⟩ := levelPass_stack hS s hs h2 (by omega)
      have hS' := Stack.up cs last hS h2 (by omega) hx hcs hne hlen
      have hlt := (chunks_length_lt hx hcs (upEntries_length base ch 0) hne hcap h2).1
      obtain ⟨hB, hls, hle, hl, hf, hd, hc, hp, ha⟩ := hs
      have hcond : s.last_end_block > s.last_start_block := by
        rw [hls, hle]; push_cast; omega
      have e : whileLoop lcap icap (fuel + 1) s =
          whileLoop lcap icap fuel (levelPass lcap icap s) := by
        rw [whileLoop]
        simp only [hf, Bool.false_eq_true, if_false, hcond, if_true]
      rw [e]
      exact ih _ hS' (by simpa using hA) (by simp; omega)
    · obtain ⟨B0, cs, last, hch, -, -, -⟩ := hS.top
      have hcs : cs = [] := by
        rw [hch] at h2
        simp at h2
        exact h2
      subst hcs
      simp only [List.nil_append] at hch
      subst hch
      obtain ⟨hB, hls, hle, hl, hf, hd, hc, hp, ha⟩ := hs
      have hcond : ¬ (s.last_end_block > s.last_start_block) := by
        rw [hls, hle]; simp
      refine ⟨L, base, last, B, hS, ?_⟩
      have e : whileLoop lcap icap (fuel + 1) s = { s with done := true } := by
        unfold whileLoop
        simp only [hf, Bool.false_eq_true, if_false, hcond]
      rw [e]
      exact ⟨hB, hls, by rw [hle]; simp, hl, hf, rfl, hc, hp, ha⟩

theorem foldl_leafBody (lcap : Nat) (table : List Result) (s : Frame) :
    List.foldl (leafBody lcap) s table =
      List.foldl (fun st (e : Entry) => put NodeKind.leaf 0 lcap st e.1 e.2) s
        (entriesOf table) := by
  unfold entriesOf
  rw [List.foldl_map]
  rfl

theorem flatten_length_of_forall {cap : Nat} (cs : List (List Entry))
    (hcs : ∀ c ∈ cs, c.length = cap) : cs.flatten.length = cs.length * cap := by
  induction cs with
  | nil => simp
  | cons c cs ih =>
    have hc := hcs c (by simp)
    have := ih (fun c' hc' => hcs c' (by simp [hc']))
    simp [this, hc]
    ring

/-- The leaf pass on a non-empty table builds the leaf level. -/
theorem leafPass_stack (lcap : Nat) (hcap : 1 ≤ lcap) (t : BTree) (table : List Result)
    (hne : table ≠ []) :
    ∃ cs0 last0, entriesOf table = cs0.flatten ++ last0 ∧ (∀ c ∈ cs0, c.length = lcap) ∧
      last0 ≠ [] ∧ last0.length ≤ lcap ∧
      AtLevel (leafPass lcap t table.length table) 0 t.file_.blocks.length (cs0.length + 1)
        (t.file_.blocks ++ levelBlocks NodeKind.leaf 0 t.file_.blocks.length cs0 last0) := by
  obtain ⟨s0, hs0⟩ : ∃ s0 : Frame, s0 =
    { file_ := t.file_, child := none, prev_nd := none, act_nd := none,
      first_node := true, start_block := 0, end_block := 0, cur_level := 1,
      last_start_block := 0, last_end_block := 0, trace := [],
      fault := decide (table.length < table.length), done := false } := ⟨_, rfl⟩
  have e0 : leafPass lcap t table.length table =
      { cleanup (List.foldl (leafBody lcap) s0 table) with
        last_start_block := (cleanup (List.foldl (leafBody lcap) s0 table)).start_block,
        last_end_block := (cleanup (List.foldl (leafBody lcap) s0 table)).end_block } := by
    rw [hs0]; unfold leafPass; simp only [List.take_length]
  have h0 : PassInv NodeKind.leaf 0 lcap s0 s0 [] :=
    passInv_start _ _ _ _ (by rw [hs0]; simp) (by rw [hs0]) (by rw [hs0]) (by rw [hs0])
      (by rw [hs0])
  have h1 := passInv_foldl NodeKind.leaf 0 lcap hcap s0 (entriesOf table) s0 [] h0
  rw [← foldl_leafBody] at h1
  have h3 := passInv_cleanup _ _ _ _ _ _ h1
  simp only [List.nil_append] at h3
  obtain ⟨gf, gc, gp, ga, gl, gls, gle, gd, h3⟩ := h3
  have hne' : entriesOf table ≠ [] := by simpa [entriesOf] using hne
  rcases h3 with ⟨h0, -⟩ | ⟨cs, last, hx, hcs, hlast, hlen', gfile, g1, gsb, geb⟩
  · exact absurd h0 hne'
  · refine ⟨cs, last, hx, hcs, hlast, hlen', ?_⟩
    · rw [e0]
      have hf0 : s0.file_ = t.file_ := by rw [hs0]
      have hl0 : s0.cur_level = 1 := by rw [hs0]
      have hd0 : s0.done = false := by rw [hs0]
      rw [hf0] at gfile gsb geb
      refine ⟨gfile, gsb, ?_, ?_, gf, ?_, gc, gp, ga⟩
      · simp only [geb]
        push_cast
        omega
      · simp only [gl, hl0]
      · simp only [gd, hd0]

theorem finalCleanup_eq (s : Frame) (hp : s.prev_nd = none) (ha : s.act_nd = none)
    (hc : s.child = none) : finalCleanup s = s := by
  simp [finalCleanup, hp, ha, hc]

/-- Main structural theorem: on a non-empty table, with leaf capacity at least 1,
index capacity at least 2 and fuel at least the number of records, `bulkload`
returns 0, the blocks of the file form a stack whose topmost level is a single
node, and `root_` is the address of that node. -/
theorem bulkload_stack (lcap icap fuel : Nat) (hl : 1 ≤ lcap) (hi : 2 ≤ icap) (t : BTree)
    (table : List Result) (hne : table ≠ []) (hfuel : table.length ≤ fuel) :
    ∃ cs0 last0 L base c B, entriesOf table = cs0.flatten ++ last0 ∧
      Stack lcap icap t.file_.blocks cs0 last0 L base [c] B ∧
      (bulkload lcap icap fuel t table.length table).tree.file_.blocks = B ∧
      (bulkload lcap icap fuel t table.length table).tree.root_ = (base : Int) ∧
      (bulkload lcap icap fuel t table.length table).tree.root_ptr_ = t.root_ptr_ ∧
      (bulkload lcap icap fuel t table.length table).ret = some 0 ∧
      (bulkload lcap icap fuel t table.length table).frame.cur_level = L + 1 ∧
      (bulkload lcap icap fuel t table.length table).frame.last_start_block = (base : Int) ∧
      (bulkload lcap icap fuel t table.length table).frame.last_end_block = (base : Int) ∧
      (bulkload lcap icap fuel t table.length table).frame.child = none ∧
      (bulkload lcap icap fuel t table.length table).frame.prev_nd = none ∧
      (bulkload lcap icap fuel t table.length table).frame.act_nd = none := by
  obtain ⟨cs0, last0, hx, hcs, hlast, hlen, hA⟩ := leafPass_stack lcap hl t table hne
  have hS : Stack lcap icap t.file_.blocks cs0 last0 0 t.file_.blocks.length (cs0 ++ [last0])
      (t.file_.blocks ++ levelBlocks NodeKind.leaf 0 t.file_.blocks.length cs0 last0) :=
    Stack.leaf hl hcs hlast hlen
  have hcount : cs0.length + 1 ≤ fuel + 1 := by
    have h1 : (entriesOf table).length = table.length := by simp [entriesOf]
    have h2 := flatten_length_of_forall cs0 hcs
    rw [hx, List.length_append, h2] at h1
    have h3 : 0 < last0.length := List.length_pos.mpr hlast
    have h4 : cs0.length * 1 ≤ cs0.length * lcap := Nat.mul_le_mul_left _ hl
    omega
  obtain ⟨L, base, c, B, hS', gB, gls, gle, gl, gf, gd, gc, gp, ga⟩ :=
    whileLoop_stack hi fuel (leafPass lcap t table.length table) hS (by simpa using hA)
      (by simpa using hcount)
  refine ⟨cs0, last0, L, base, c, B, hx, hS', ?_⟩
  have hfc := finalCleanup_eq _ gp ga gc
  unfold bulkload
  simp only [gd, gf, Bool.not_false, Bool.and_self, if_true, hfc]
  exact ⟨gB, gls, trivial, trivial, gl, gls, gle, gc, gp, ga⟩

/-- On an empty table `bulkload` creates nothing, returns 0 and sets `root_`
to 0. -/
theorem bulkload_nil (lcap icap fuel : Nat) (t : BTree) :
    bulkload lcap icap fuel t 0 [] =
      { tree := { t with root_ := 0 },
        frame := { file_ := t.file_, child := none, prev_nd := none, act_nd := none,
                   first_node := true, start_block := 0, end_block := 0, cur_level := 1,
                   last_start_block := 0, last_end_block := 0, trace := [], fault := false,
                   done := true },
        ret := some 0 } := by
  cases fuel <;> simp [bulkload, leafPass, whileLoop, cleanup, leafBody, finalCleanup]

theorem Stack.leaf_segment {lcap icap : Nat} {F0 : List (Option NodeImage)}
    {cs0 : List (List Entry)} {last0 : List Entry} {L base : Nat} {ch : List (List Entry)}
    {B : List (Option NodeImage)} (h : Stack lcap icap F0 cs0 last0 L base ch B) :
    ∃ rest, B = F0 ++ levelBlocks NodeKind.leaf 0 F0.length cs0 last0 ++ rest ∧
      (∀ x ∈ rest, ∃ img, x = some img ∧ img.kind = NodeKind.index) := by
  induction h with
  | leaf => exact ⟨[], by simp, by simp⟩
  | @up L' base' ch' B' cs last hS h2 h1 hup hcs hne hlen ih =>
    obtain ⟨rest, hB, hrest⟩ := ih
    refine ⟨rest ++ levelBlocks NodeKind.index (L' + 1) (base' + ch'.length) cs last, ?_, ?_⟩
    · rw [hB]; exact List.append_assoc _ _ _
    intro x hx
    rw [List.mem_append] at hx
    rcases hx with hx | hx
    · exact hrest x hx
    · obtain ⟨j, hj⟩ := List.getElem?_of_mem hx
      have hlt : j < (cs ++ [last]).length := by
        have := (List.getElem?_eq_some_iff.mp hj).1
        simpa [levelBlocks_length] using this
      rw [levelBlocks_getElem? _ _ _ _ _ j _ (List.getElem?_eq_getElem hlt)] at hj
      simp only [Option.some.injEq] at hj
      exact ⟨_, hj.symm, rfl⟩

theorem records_nodeImage (kind : NodeKind) (level base j : Nat) (c : List Entry) (r : Int) :
    (nodeImage kind level base j c r).records = c.map (fun e => Result.mk e.1 e.2) := by
  simp only [NodeImage.records, nodeImage]
  induction c with
  | nil => rfl
  | cons e c ih => simp [ih]

theorem getElem?_mid {α : Type} (A M R : List α) (j : Nat) (hj : j < M.length) :
    (A ++ M ++ R)[A.length + j]? = M[j]? := by
  rw [List.getElem?_append_left (by simp; omega), List.getElem?_append_right (by omega)]
  simp

theorem nodeImage_right (kind : NodeKind) (level base j : Nat) (c : List Entry) (r : Int) :
    (nodeImage kind level base j c r).right_sibling_ = r := rfl

theorem scanChain_sentinel (f : BlockFile) (fuel : Nat) : scanChain f fuel (-1) = some [] := by
  cases fuel <;> simp [scanChain]

theorem scanChain_level (F0 rest : List (Option NodeImage)) (kind : NodeKind) (level : Nat)
    (cs : List (List Entry)) (last : List Entry) (fuel : Nat) :
    ∀ j, j ≤ cs.length → cs.length + 1 ≤ fuel + j →
      scanChain (BlockFile.mk (F0 ++ levelBlocks kind level F0.length cs last ++ rest)) fuel
          ((F0.length + j : Nat) : Int) =
        some ((((cs ++ [last]).drop j).flatten).map (fun e => Result.mk e.1 e.2)) := by
  induction fuel with
  | zero => intro j hj hf; omega
  | succ fuel ih =>
    intro j hj hf
    have hlt : j < (cs ++ [last]).length := by simp; omega
    have hc : (cs ++ [last])[j]? = some (cs ++ [last])[j] := List.getElem?_eq_getElem hlt
    have hread : (BlockFile.mk (F0 ++ levelBlocks kind level F0.length cs last ++ rest)).read_block
        ((F0.length + j : Nat) : Int) = some (nodeImage kind level F0.length j (cs ++ [last])[j]
          (if j = cs.length then -1 else ((F0.length + j : Nat) : Int) + 1)) := by
      rw [read_block_natCast]
      simp only
      rw [getElem?_mid _ _ _ _ (by simpa [levelBlocks_length] using hlt),
        levelBlocks_getElem? _ _ _ _ _ _ _ hc]
      rfl
    have hdrop : (cs ++ [last]).drop j = (cs ++ [last])[j] :: (cs ++ [last]).drop (j + 1) :=
      List.drop_eq_getElem_cons hlt
    have hneg : ¬ (((F0.length + j : Nat) : Int) = -1) := by omega
    rw [scanChain, if_neg hneg, hread]
    simp only
    by_cases hj' : j = cs.length
    · rw [if_pos hj', nodeImage_right, scanChain_sentinel]
      simp only [records_nodeImage, List.append_nil]
      rw [hdrop, List.drop_eq_nil_of_le (by simp; omega)]
      simp
    · rw [if_neg hj']
      have e : ((F0.length + j : Nat) : Int) + 1 = ((F0.length + (j + 1) : Nat) : Int) := by
        push_cast; ring
      rw [nodeImage_right, e, ih (j + 1) (by omega) (by omega)]
      simp only [records_nodeImage]
      rw [hdrop]
      simp only [List.flatten_cons, List.map_append]

theorem find?_range_first (p : Nat → Bool) (n b : Nat) (hb : b < n) (hp : p b = true)
    (hlt : ∀ a, a < b → p a = false) : (List.range n).find? p = some b := by
  induction n with
  | zero => omega
  | succ n ih =>
    rw [List.range_succ, List.find?_append]
    by_cases hbn : b < n
    · rw [ih hbn]; rfl
    · have hbn' : b = n := by omega
      subst hbn'
      have hnone : (List.range b).find? p = none := by
        rw [List.find?_eq_none]
        intro x hx
        rw [List.mem_range] at hx
        simp [hlt x hx]
      rw [hnone]
      simp [hp]

theorem firstCreatedLeaf_self (f : BlockFile) : firstCreatedLeaf f f = -1 := by
  unfold firstCreatedLeaf
  have hnone : (List.range f.blocks.length).find? (isCreatedLeaf f f) = none := by
    rw [List.find?_eq_none]
    intro x hx
    rw [List.mem_range] at hx
    simp [isCreatedLeaf]
    intro h
    omega
  rw [hnone]

theorem firstCreatedLeaf_level (F0 rest : List (Option NodeImage)) (cs : List (List Entry))
    (last : List Entry) :
    firstCreatedLeaf (BlockFile.mk F0)
        (BlockFile.mk (F0 ++ levelBlocks NodeKind.leaf 0 F0.length cs last ++ rest)) =
      (F0.length : Int) := by
  unfold firstCreatedLeaf
  have hlt : 0 < (cs ++ [last]).length := by simp
  have hc : (cs ++ [last])[0]? = some (cs ++ [last])[0] := List.getElem?_eq_getElem hlt
  rw [find?_range_first _ _ F0.length]
  · simp [levelBlocks_length]
  · simp only [isCreatedLeaf, read_block_natCast]
    have := getElem?_mid F0 (levelBlocks NodeKind.leaf 0 F0.length cs last) rest 0
      (by simp [levelBlocks_length])
    simp only [Nat.add_zero] at this
    rw [this, levelBlocks_getElem? _ _ _ _ _ _ _ hc]
    simp [nodeImage]
  · intro a ha
    simp [isCreatedLeaf]
    intro h
    omega

theorem map_entriesOf (table : List Result) :
    (entriesOf table).map (fun e => Result.mk e.1 e.2) = table := by
  induction table with
  | nil => rfl
  | cons r table ih =>
    simp only [entriesOf, List.map_cons, List.map_map] at ih ⊢
    rw [ih]

theorem blockFile_eq_mk (f : BlockFile) (B : List (Option NodeImage)) (h : f.blocks = B) :
    f = BlockFile.mk B := by
  cases f; simp at h; simp [h]

theorem Stack.leaf_facts {lcap icap : Nat} {F0 : List (Option NodeImage)}
    {cs0 : List (List Entry)} {last0 : List Entry} {L base : Nat} {ch : List (List Entry)}
    {B : List (Option NodeImage)} (h : Stack lcap icap F0 cs0 last0 L base ch B) :
    1 ≤ lcap ∧ (∀ c ∈ cs0, c.length = lcap) ∧ last0 ≠ [] ∧ last0.length ≤ lcap := by
  induction h with
  | leaf h1 hcs hne hlen => exact ⟨h1, hcs, hne, hlen⟩
  | up _ _ _ _ _ _ _ _ _ ih => exact ih

/-- Claim C1. For every table (of any length, 0 included), leaf capacity at
least 1, index capacity at least 2 and enough fuel, `bulkload` returns, and the
scan that starts at the first leaf created and follows `right_sibling` until
the sentinel yields exactly the input records, in input order. -/
theorem C1_leaf_chain_reproduces_table (lcap icap fuel : Nat) (t : BTree) (table : List Result)
    (hl : 1 ≤ lcap) (hi : 2 ≤ icap) (hfuel : table.length ≤ fuel) (k : Nat)
    (hk : table.length ≤ k) :
    (bulkload lcap icap fuel t table.length table).ret = some 0 ∧
    scanChain (bulkload lcap icap fuel t table.length table).tree.file_ k
        (firstCreatedLeaf t.file_ (bulkload lcap icap fuel t table.length table).tree.file_) =
      some table := by
  by_cases hne : table = []
  · subst hne
    simp only [List.length_nil, bulkload_nil]
    exact ⟨trivial, by rw [firstCreatedLeaf_self, scanChain_sentinel]⟩
  · obtain ⟨cs0, last0, L, base, c, B, hx, hS, gB, -, -, gret, -⟩ :=
      bulkload_stack lcap icap fuel hl hi t table hne hfuel
    refine ⟨gret, ?_⟩
    obtain ⟨rest, hB, -⟩ := hS.leaf_segment
    obtain ⟨-, hcs, hlast, -⟩ := hS.leaf_facts
    have hcount : cs0.length + 1 ≤ k + 0 := by
      have h1 : (entriesOf table).length = table.length := by simp [entriesOf]
      have h2 := flatten_length_of_forall cs0 hcs
      rw [hx, List.length_append, h2] at h1
      have h3 : 0 < last0.length := List.length_pos.mpr hlast
      have h4 : cs0.length * 1 ≤ cs0.length * lcap := Nat.mul_le_mul_left _ hl
      omega
    rw [blockFile_eq_mk _ _ gB, blockFile_eq_mk t.file_ _ rfl, hB, firstCreatedLeaf_level]
    have := scanChain_level t.file_.blocks rest NodeKind.leaf 0 cs0 last0 k 0 (by omega) hcount
    simp only [Nat.add_zero, List.drop_zero] at this
    rw [this]
    simp only [List.flatten_append, List.flatten_cons, List.flatten_nil, List.append_nil]
    rw [← hx, map_entriesOf]

/-- Witness for C1 on the example scenario (leaf capacity 4, index capacity 3,
ten records). -/
theorem C1_leaf_chain_reproduces_table_witness :
    (1 ≤ 4 ∧ 2 ≤ 3 ∧ exampleTable.length ≤ 10) ∧
    (bulkload 4 3 10 exampleTree exampleTable.length exampleTable).ret = some 0 ∧
    scanChain (bulkload 4 3 10 exampleTree exampleTable.length exampleTable).tree.file_ 10
        (firstCreatedLeaf exampleTree.file_
          (bulkload 4 3 10 exampleTree exampleTable.length exampleTable).tree.file_) =
      some exampleTable :=
  ⟨by decide, C1_leaf_chain_reproduces_table 4 3 10 exampleTree exampleTable (by decide)
    (by decide) (by decide) 10 (by decide)⟩

/-- Every frame at which the `while` loop stands with its condition true is
followed by a pass that builds strictly fewer nodes than the level it reads. -/
theorem whileLoop_progress {lcap icap : Nat} (hcap : 2 ≤ icap) {F0 : List (Option NodeImage)}
    {cs0 : List (List Entry)} {last0 : List Entry} (k : Nat) :
    ∀ {L base : Nat} {ch : List (List Entry)} {B : List (Option NodeImage)} (s : Frame),
      Stack lcap icap F0 cs0 last0 L base ch B → AtLevel s L base ch.length B →
      (whileLoop lcap icap k s).done = false →
      (whileLoop lcap icap k s).last_start_block < (whileLoop lcap icap k s).last_end_block ∧
      (levelPass lcap icap (whileLoop lcap icap k s)).last_end_block -
          (levelPass lcap icap (whileLoop lcap icap k s)).last_start_block <
        (whileLoop lcap icap k s).last_end_block -
          (whileLoop lcap icap k s).last_start_block := by
  induction k with
  | zero =>
    intro L base ch B s hS hs hdone
    by_cases h2 : 2 ≤ ch.length
    · obtain ⟨cs, last, hx, hcs, hne, hlen, hA⟩ := levelPass_stack hS s hs h2 (by omega)
      have hlt := (chunks_length_lt hx hcs (upEntries_length base ch 0) hne hcap h2).1
      obtain ⟨hB, hls, hle, hl, hf, hd, hc, hp, ha⟩ := hs
      have hcond : s.last_end_block > s.last_start_block := by
        rw [hls, hle]; push_cast; omega
      have e : whileLoop lcap icap 0 s = s := by
        rw [whileLoop]
        simp only [hf, Bool.false_eq_true, if_false, hcond, if_true]
      obtain ⟨-, gls, gle, -⟩ := hA
      rw [e, gls, gle, hls, hle]
      push_cast
      omega
    · exfalso
      obtain ⟨hB, hls, hle, hl, hf, hd, hc, hp, ha⟩ := hs
      have hcond : ¬ (s.last_end_block > s.last_start_block) := by
        rw [hls, hle]; push_cast; omega
      have e : whileLoop lcap icap 0 s = { s with done := true } := by
        unfold whileLoop
        simp only [hf, Bool.false_eq_true, if_false, hcond]
      rw [e] at hdone
      simp at hdone
  | succ k ih =>
    intro L base ch B s hS hs hdone
    by_cases h2 : 2 ≤ ch.length
    · obtain ⟨cs, last, hx, hcs, hne, hlen, hA⟩ := levelPass_stack hS s hs h2 (by omega)
      have hS' := Stack.up cs last hS h2 (by omega) hx hcs hne hlen
      obtain ⟨hB, hls, hle, hl, hf, hd, hc, hp, ha⟩ := hs
      have hcond : s.last_end_block > s.last_start_block := by
        rw [hls, hle]; push_cast; omega
      have e : whileLoop lcap icap (k + 1) s =
          whileLoop lcap icap k (levelPass lcap icap s) := by
        rw [whileLoop]
        simp only [hf, Bool.false_eq_true, if_false, hcond, if_true]
      rw [e] at hdone ⊢
      exact ih _ hS' (by simpa using hA) hdone
    · exfalso
      obtain ⟨hB, hls, hle, hl, hf, hd, hc, hp, ha⟩ := hs
      have hcond : ¬ (s.last_end_block > s.last_start_block) := by
        rw [hls, hle]; push_cast; omega
      have e : whileLoop lcap icap (k + 1) s = { s with done := true } := by
        unfold whileLoop
        simp only [hf, Bool.false_eq_true, if_false, hcond]
      rw [e] at hdone
      simp at hdone

theorem ceil_chunks (cap q l m : Nat) (h : q * cap + l = m) (h1 : 1 ≤ l)
    (h2 : l ≤ cap) : (m + cap - 1) / cap = q + 1 := by
  apply Nat.div_eq_of_lt_le
  · have : (q + 1) * cap = q * cap + cap := by ring
    omega
  · have : (q + 1 + 1) * cap = q * cap + cap + cap := by ring
    omega

/-- Number of nodes of the next level: the ceiling of the quotient. -/
theorem chunks_count {cap m : Nat} {xs : List Entry} {cs : List (List Entry)}
    {last : List Entry} (hx : xs = cs.flatten ++ last) (hcs : ∀ c ∈ cs, c.length = cap)
    (hlen : xs.length = m) (hne : last ≠ []) (hle : last.length ≤ cap) :
    cs.length + 1 = (m + cap - 1) / cap ∧ cs.length * cap + last.length = m := by
  have hfl := flatten_length_of_forall cs hcs
  have hl : 0 < last.length := List.length_pos.mpr hne
  have htot : cs.length * cap + last.length = m := by
    rw [← hlen, hx, List.length_append, hfl]
  exact ⟨(ceil_chunks cap cs.length last.length m htot hl hle).symm, htot⟩

/-- The root of a finished stack: the single node of the topmost level. -/
theorem Stack.read_root {lcap icap : Nat} {F0 : List (Option NodeImage)}
    {cs0 : List (List Entry)} {last0 : List Entry} {L base : Nat} {c : List Entry}
    {B : List (Option NodeImage)} (h : Stack lcap icap F0 cs0 last0 L base [c] B) :
    (BlockFile.mk B).read_block (base : Int) =
      some (nodeImage (childKind (L + 1)) L base 0 c (-1)) := by
  obtain ⟨hr, -⟩ := h.read_top 0 c rfl
  simpa using hr

theorem Stack.clog_eq {lcap icap : Nat} (hi : 2 ≤ icap) {F0 : List (Option NodeImage)}
    {cs0 : List (List Entry)} {last0 : List Entry} {L base : Nat} {ch : List (List Entry)}
    {B : List (Option NodeImage)} (h : Stack lcap icap F0 cs0 last0 L base ch B) :
    Nat.clog icap (cs0.length + 1) = L + Nat.clog icap ch.length := by
  induction h with
  | leaf => simp
  | @up L' base' ch' B' cs last hS h2 h1 hup hcs hne hlen ih =>
    rw [ih, Nat.clog_of_two_le (by omega) h2]
    have := (chunks_count hup hcs (upEntries_length base' ch' 0) hne hlen).1
    simp only [List.length_append, List.length_singleton]
    rw [this]
    omega

/-- Claim C8. For a non-empty table, leaf capacity `c >= 1` and index capacity
`d >= 2`, the number of index levels built (`cur_level - 1` on return) is the
level of the root node and is the least `h` with `d ^ h >= ceil(n / c)`. -/
theorem C8_tree_height (lcap icap fuel : Nat) (t : BTree) (table : List Result)
    (hl : 1 ≤ lcap) (hi : 2 ≤ icap) (hne : table ≠ []) (hfuel : table.length ≤ fuel) :
    (bulkload lcap icap fuel t table.length table).ret = some 0 ∧
    (∃ img, (bulkload lcap icap fuel t table.length table).tree.file_.read_block
        (bulkload lcap icap fuel t table.length table).tree.root_ = some img ∧
      img.level_ = (bulkload lcap icap fuel t table.length table).frame.cur_level - 1) ∧
    (table.length + lcap - 1) / lcap ≤
      icap ^ ((bulkload lcap icap fuel t table.length table).frame.cur_level - 1) ∧
    (∀ h, (table.length + lcap - 1) / lcap ≤ icap ^ h →
      (bulkload lcap icap fuel t table.length table).frame.cur_level - 1 ≤ h) := by
  obtain ⟨cs0, last0, L, base, c, B, hx, hS, gB, groot, -, gret, gl, -⟩ :=
    bulkload_stack lcap icap fuel hl hi t table hne hfuel
  obtain ⟨-, hcs, hlast, hlen⟩ := hS.leaf_facts
  have hn : (entriesOf table).length = table.length := by simp [entriesOf]
  have hcount := (chunks_count hx hcs hn hlast hlen).1
  have hclog := hS.clog_eq hi
  simp only [List.length_singleton, Nat.clog_one_right, Nat.add_zero] at hclog
  rw [hcount] at hclog
  have hL : (bulkload lcap icap fuel t table.length table).frame.cur_level - 1 = L := by
    rw [gl]; rfl
  rw [hL]
  refine ⟨gret, ?_, ?_, ?_⟩
  · refine ⟨nodeImage (childKind (L + 1)) L base 0 c (-1), ?_, rfl⟩
    rw [blockFile_eq_mk _ _ gB, groot]
    exact hS.read_root
  · rw [← hclog]
    exact Nat.le_pow_clog (by omega) _
  · intro h hh
    rw [← hclog]
    exact (Nat.le_pow_iff_clog_le (by omega)).mp hh

/-- Witness for C8 on the example scenario: ten records, leaf capacity 4, index
capacity 3 give three leaves and height 1. -/
theorem C8_tree_height_witness :
    (1 ≤ 4 ∧ 2 ≤ 3 ∧ exampleTable ≠ [] ∧ exampleTable.length ≤ 10) ∧
    (bulkload 4 3 10 exampleTree exampleTable.length exampleTable).frame.cur_level - 1 = 1 ∧
    (exampleTable.length + 4 - 1) / 4 ≤
      3 ^ ((bulkload 4 3 10 exampleTree exampleTable.length exampleTable).frame.cur_level - 1) :=
  ⟨by decide, by decide,
    (C8_tree_height 4 3 10 exampleTree exampleTable (by decide) (by decide) (by decide)
      (by decide)).2.2.1⟩

theorem linkedFrom_sizes (kind : NodeKind) (level base l : Nat) (cs : List (List Entry))
    (j : Nat) :
    ((((linkedFrom kind level base j cs).filterMap id).filter
        (fun img => decide (img.level_ = l))).map NodeImage.num_entries_) =
      if l = level then cs.map List.length else [] := by
  induction cs generalizing j with
  | nil => simp [linkedFrom]
  | cons c cs ih =>
    simp only [linkedFrom, List.filterMap_cons, id]
    by_cases h : l = level
    · subst h
      have := ih (j + 1)
      simp only [if_true] at this
      simp [nodeImage, this]
    · have := ih (j + 1)
      simp only [if_neg h] at this
      have h' : ¬ level = l := fun e => h e.symm
      simp [nodeImage, h, h', this]

theorem levelBlocks_sizes (kind : NodeKind) (level base l : Nat) (cs : List (List Entry))
    (last : List Entry) :
    ((((levelBlocks kind level base cs last).filterMap id).filter
        (fun img => decide (img.level_ = l))).map NodeImage.num_entries_) =
      if l = level then (cs ++ [last]).map List.length else [] := by
  unfold levelBlocks
  rw [List.filterMap_append, List.filter_append, List.map_append, linkedFrom_sizes]
  by_cases h : l = level
  · subst h
    simp [nodeImage]
  · have h' : ¬ level = l := fun e => h e.symm
    simp [nodeImage, h, h']

theorem levelBlocks_kinds (kind : NodeKind) (level base : Nat) (cs : List (List Entry))
    (last : List Entry) :
    ∀ img ∈ (levelBlocks kind level base cs last).filterMap id,
      img.kind = kind ∧ img.level_ = level := by
  intro img himg
  rw [List.mem_filterMap] at himg
  obtain ⟨x, hx, hid⟩ := himg
  simp only [id] at hid
  subst hid
  obtain ⟨j, hj⟩ := List.getElem?_of_mem hx
  have hlt : j < (cs ++ [last]).length := by
    have := (List.getElem?_eq_some_iff.mp hj).1
    simpa [levelBlocks_length] using this
  rw [levelBlocks_getElem? _ _ _ _ _ j _ (List.getElem?_eq_getElem hlt)] at hj
  simp only [Option.some.injEq] at hj
  subst hj
  exact ⟨rfl, rfl⟩

theorem sizes_of_chunks {cap m : Nat} {xs : List Entry} {cs : List (List Entry)}
    {last : List Entry} (hx : xs = cs.flatten ++ last) (hcs : ∀ c ∈ cs, c.length = cap)
    (hlen : xs.length = m) (hne : last ≠ []) (hle : last.length ≤ cap) :
    (cs ++ [last]).map List.length = sizesOf cap m := by
  obtain ⟨h1, h2⟩ := chunks_count hx hcs hlen hne hle
  unfold sizesOf
  rw [← h1]
  simp only [List.map_append, List.map_cons, List.map_nil, Nat.add_sub_cancel]
  congr 1
  · rw [List.eq_replicate_iff]
    simp only [List.length_map, List.mem_map, true_and]
    rintro b ⟨c, hc, rfl⟩
    exact hcs c hc
  · congr 1
    omega

theorem levelSizes_append (F0 B X : List (Option NodeImage)) (l : Nat)
    (h : F0.length ≤ B.length) :
    levelSizes (BlockFile.mk F0) (BlockFile.mk (B ++ X)) l =
      levelSizes (BlockFile.mk F0) (BlockFile.mk B) l ++
        (((X.filterMap id).filter (fun img => decide (img.level_ = l))).map
          NodeImage.num_entries_) := by
  simp only [levelSizes, createdImages]
  rw [List.drop_append_of_le_length h, List.filterMap_append, List.filter_append,
    List.map_append]

theorem createdImages_append (F0 B X : List (Option NodeImage)) (h : F0.length ≤ B.length) :
    createdImages (BlockFile.mk F0) (BlockFile.mk (B ++ X)) =
      createdImages (BlockFile.mk F0) (BlockFile.mk B) ++ X.filterMap id := by
  simp only [createdImages]
  rw [List.drop_append_of_le_length h, List.filterMap_append]

theorem Stack.base_le {lcap icap : Nat} {F0 : List (Option NodeImage)}
    {cs0 : List (List Entry)} {last0 : List Entry} {L base : Nat} {ch : List (List Entry)}
    {B : List (Option NodeImage)} (h : Stack lcap icap F0 cs0 last0 L base ch B) :
    F0.length ≤ base := by
  induction h with
  | leaf => exact Nat.le_refl _
  | up _ _ _ _ _ _ _ _ _ ih => omega

/-- Entry counts of the levels of a stack. -/
theorem Stack.sizes {lcap icap : Nat} {F0 : List (Option NodeImage)}
    {cs0 : List (List Entry)} {last0 : List Entry} {L base : Nat} {ch : List (List Entry)}
    {B : List (Option NodeImage)} (h : Stack lcap icap F0 cs0 last0 L base ch B) :
    (∀ l, L < l → levelSizes (BlockFile.mk F0) (BlockFile.mk B) l = []) ∧
    levelSizes (BlockFile.mk F0) (BlockFile.mk B) L = ch.map List.length ∧
    levelSizes (BlockFile.mk F0) (BlockFile.mk B) 0 = (cs0 ++ [last0]).map List.length ∧
    (∀ l, l < L → levelSizes (BlockFile.mk F0) (BlockFile.mk B) (l + 1) =
      sizesOf icap (levelSizes (BlockFile.mk F0) (BlockFile.mk B) l).length) ∧
    (∀ img ∈ createdImages (BlockFile.mk F0) (BlockFile.mk B),
      (img.kind = NodeKind.leaf ↔ img.level_ = 0) ∧ img.level_ ≤ L) := by
  induction h with
  | leaf h1 hcs hne hlen =>
    have e := levelSizes_append F0 F0 (levelBlocks NodeKind.leaf 0 F0.length cs0 last0)
    have e0 : ∀ l, levelSizes (BlockFile.mk F0) (BlockFile.mk F0) l = [] := by
      intro l; simp [levelSizes, createdImages]
    refine ⟨?_, ?_, ?_, ?_, ?_⟩
    · intro l hl
      rw [e l (Nat.le_refl _), e0, levelBlocks_sizes, if_neg (by omega)]
      rfl
    · rw [e 0 (Nat.le_refl _), e0, levelBlocks_sizes, if_pos rfl]
      rfl
    · rw [e 0 (Nat.le_refl _), e0, levelBlocks_sizes, if_pos rfl]
      rfl
    · intro l hl; omega
    · intro img himg
      rw [createdImages_append _ _ _ (Nat.le_refl _)] at himg
      have e1 : createdImages (BlockFile.mk F0) (BlockFile.mk F0) = [] := by
        simp [createdImages]
      rw [e1, List.nil_append] at himg
      obtain ⟨hk, hlv⟩ := levelBlocks_kinds _ _ _ _ _ img himg
      simp [hk, hlv]
  | @up L' base' ch' B' cs last hS h2 h1 hup hcs hne hlen ih =>
    obtain ⟨i1, i2, i3, i4, i5⟩ := ih
    have hle : F0.length ≤ B'.length := by
      have := hS.base_le
      have := hS.length_eq
      omega
    have e := fun l => levelSizes_append F0 B'
      (levelBlocks NodeKind.index (L' + 1) (base' + ch'.length) cs last) l hle
    have hsz := sizes_of_chunks hup hcs (upEntries_length base' ch' 0) hne hlen
    refine ⟨?_, ?_, ?_, ?_, ?_⟩
    · intro l hl
      rw [e, i1 l (by omega), levelBlocks_sizes, if_neg (by omega)]
      rfl
    · rw [e, i1 (L' + 1) (by omega), levelBlocks_sizes, if_pos rfl]
      rfl
    · rw [e, i3, levelBlocks_sizes, if_neg (by omega)]
      simp
    · intro l hl
      by_cases hl' : l = L'
      · subst hl'
        rw [e, i1 (l + 1) (by omega), levelBlocks_sizes, if_pos rfl, e l, i2, levelBlocks_sizes,
          if_neg (by omega), hsz]
        simp
      · rw [e, e l, levelBlocks_sizes, levelBlocks_sizes, if_neg (by omega), if_neg (by omega),
          List.append_nil, List.append_nil]
        exact i4 l (by omega)
    · intro img himg
      rw [createdImages_append _ _ _ hle, List.mem_append] at himg
      rcases himg with himg | himg
      · obtain ⟨a, b⟩ := i5 img himg
        exact ⟨a, by omega⟩
      · obtain ⟨hk, hlv⟩ := levelBlocks_kinds _ _ _ _ _ img himg
        simp [hk, hlv]

theorem sizesOf_length (cap m : Nat) (hcap : 1 ≤ cap) (hm : 1 ≤ m) :
    (sizesOf cap m).length = (m + cap - 1) / cap := by
  have h1 : 1 ≤ (m + cap - 1) / cap := by
    rw [Nat.le_div_iff_mul_le (by omega)]
    omega
  simp only [sizesOf, List.length_append, List.length_replicate, List.length_singleton]
  omega

theorem sizesOf_ne_nil (cap m : Nat) : sizesOf cap m ≠ [] := by
  simp [sizesOf]

/-- Claim C7. For a non-empty table of `n` records, leaf capacity `c >= 1` and
index capacity `d >= 2`: the leaves created hold `c, ..., c, n - (q - 1) * c`
entries with `q = ceil(n / c)` leaves in all; the created nodes of level 0 are
exactly the leaves; for every index level `l + 1` built, its nodes hold
`d, ..., d, m - (q' - 1) * d` entries, where `m` is the number of nodes of
level `l` and `q' = ceil(m / d)` is the number of nodes of level `l + 1`; and no
node is created at a level from `cur_level` on. -/
theorem C7_node_counts (lcap icap fuel : Nat) (t : BTree) (table : List Result)
    (hl : 1 ≤ lcap) (hi : 2 ≤ icap) (hne : table ≠ []) (hfuel : table.length ≤ fuel) :
    (bulkload lcap icap fuel t table.length table).ret = some 0 ∧
    levelSizes t.file_ (bulkload lcap icap fuel t table.length table).tree.file_ 0 =
      sizesOf lcap table.length ∧
    (levelSizes t.file_ (bulkload lcap icap fuel t table.length table).tree.file_ 0).length =
      (table.length + lcap - 1) / lcap ∧
    (∀ img ∈ createdImages t.file_ (bulkload lcap icap fuel t table.length table).tree.file_,
      (img.kind = NodeKind.leaf ↔ img.level_ = 0)) ∧
    (∀ l, l + 1 < (bulkload lcap icap fuel t table.length table).frame.cur_level →
      levelSizes t.file_ (bulkload lcap icap fuel t table.length table).tree.file_ (l + 1) =
        sizesOf icap
          (levelSizes t.file_
            (bulkload lcap icap fuel t table.length table).tree.file_ l).length ∧
      (levelSizes t.file_
          (bulkload lcap icap fuel t table.length table).tree.file_ (l + 1)).length =
        ((levelSizes t.file_
            (bulkload lcap icap fuel t table.length table).tree.file_ l).length + icap - 1) /
          icap) ∧
    (∀ l, (bulkload lcap icap fuel t table.length table).frame.cur_level ≤ l →
      levelSizes t.file_ (bulkload lcap icap fuel t table.length table).tree.file_ l = []) := by
  obtain ⟨cs0, last0, L, base, c, B, hx, hS, gB, -, -, gret, gl, -⟩ :=
    bulkload_stack lcap icap fuel hl hi t table hne hfuel
  obtain ⟨-, hcs, hlast, hlen⟩ := hS.leaf_facts
  have hn : (entriesOf table).length = table.length := by simp [entriesOf]
  have hsz := sizes_of_chunks hx hcs hn hlast hlen
  obtain ⟨i1, -, i3, i4, i5⟩ := hS.sizes
  rw [blockFile_eq_mk _ _ gB, blockFile_eq_mk t.file_ _ rfl, gl]
  have hpos : 1 ≤ table.length := List.length_pos.mpr hne
  have hnonempty : ∀ l, l ≤ L →
      1 ≤ (levelSizes (BlockFile.mk t.file_.blocks) (BlockFile.mk B) l).length := by
    intro l hl'
    cases l with
    | zero => rw [i3]; simp
    | succ l =>
      rw [i4 l (by omega)]
      exact List.length_pos.mpr (sizesOf_ne_nil _ _)
  refine ⟨gret, by rw [i3, hsz], by rw [i3, hsz, sizesOf_length _ _ hl hpos],
    fun img himg => (i5 img himg).1, ?_, fun l hl' => i1 l (by omega)⟩
  intro l hl'
  have h4 := i4 l (by omega)
  refine ⟨h4, ?_⟩
  rw [h4, sizesOf_length _ _ (by omega) (hnonempty l (by omega))]

/-- Witness for C7, the example scenario of the specification: ten records and
leaf capacity 4 give three leaves with 4, 4 and 2 entries; with index capacity
3 there is one index level, a single node with 3 children, and `root_` is its
address. -/
theorem C7_node_counts_witness :
    (1 ≤ 4 ∧ 2 ≤ 3 ∧ exampleTable ≠ [] ∧ exampleTable.length ≤ 10) ∧
    levelSizes exampleTree.file_
        (bulkload 4 3 10 exampleTree exampleTable.length exampleTable).tree.file_ 0 =
      sizesOf 4 exampleTable.length ∧
    sizesOf 4 exampleTable.length = [4, 4, 2] ∧
    levelSizes exampleTree.file_
        (bulkload 4 3 10 exampleTree exampleTable.length exampleTable).tree.file_ 1 = [3] ∧
    (bulkload 4 3 10 exampleTree exampleTable.length exampleTable).frame.cur_level = 2 ∧
    (bulkload 4 3 10 exampleTree exampleTable.length exampleTable).tree.root_ = 4 ∧
    ((bulkload 4 3 10 exampleTree exampleTable.length exampleTable).tree.file_.read_block 4).map
        (fun img => (img.level_, img.ptr_)) = some (1, [1, 2, 3]) :=
  ⟨by decide,
    (C7_node_counts 4 3 10 exampleTree exampleTable (by decide) (by decide) (by decide)
      (by decide)).2.1,
    by decide, by decide, by decide, by decide, by decide⟩

theorem read_append_left (B X : List (Option NodeImage)) (a : Nat) (h : a < B.length) :
    (BlockFile.mk (B ++ X)).read_block (a : Int) = (BlockFile.mk B).read_block (a : Int) := by
  simp only [read_block_natCast]
  rw [List.getElem?_append_left h]

theorem read_lt_length (B : List (Option NodeImage)) (a : Nat) (x : NodeImage)
    (h : (BlockFile.mk B).read_block (a : Int) = some x) : a < B.length := by
  by_contra hge
  simp only [read_block_natCast] at h
  rw [List.getElem?_eq_none (by omega)] at h
  simp at h

theorem read_levelBlocks (B0 : List (Option NodeImage)) (kind : NodeKind) (level : Nat)
    (cs : List (List Entry)) (last : List Entry) (a : Nat) (h1 : B0.length ≤ a)
    (h2 : a < B0.length + (cs.length + 1)) :
    ∃ c, (BlockFile.mk (B0 ++ levelBlocks kind level B0.length cs last)).read_block (a : Int) =
      some (nodeImage kind level B0.length (a - B0.length) c
        (if a + 1 = B0.length + (cs.length + 1) then -1 else (a : Int) + 1)) := by
  have hlt : a - B0.length < (cs ++ [last]).length := by simp; omega
  refine ⟨(cs ++ [last])[a - B0.length], ?_⟩
  simp only [read_block_natCast]
  rw [List.getElem?_append_right h1,
    levelBlocks_getElem? _ _ _ _ _ _ _ (List.getElem?_eq_getElem hlt)]
  have e : B0.length + (a - B0.length) = a := by omega
  rw [e]
  by_cases h : a + 1 = B0.length + (cs.length + 1)
  · rw [if_pos h, if_pos (by omega)]; rfl
  · rw [if_neg h, if_neg (by omega)]; rfl

theorem nodeImage_level (kind : NodeKind) (level base j : Nat) (c : List Entry) (r : Int) :
    (nodeImage kind level base j c r).level_ = level := rfl

theorem nodeImage_left (kind : NodeKind) (level base j : Nat) (c : List Entry) (r : Int) :
    (nodeImage kind level base j c r).left_sibling_ =
      if j = 0 then -1 else ((base + j : Nat) : Int) - 1 := rfl

/-- Appending a complete level on top of a segmented file keeps it segmented. -/
theorem segmented_push (n0 : Nat) (B : List (Option NodeImage)) (Lnew : Nat)
    (seg : Nat → Nat × Nat) (kind : NodeKind) (cs : List (List Entry)) (last : List Entry)
    (hB : n0 ≤ B.length)
    (h1 : ∀ a : Nat, n0 ≤ a → a < B.length →
      ∃ x, (BlockFile.mk B).read_block (a : Int) = some x)
    (h2 : ∀ (a : Nat) (x : NodeImage), n0 ≤ a → (BlockFile.mk B).read_block (a : Int) = some x →
      x.level_ < Lnew ∧ (seg x.level_).1 ≤ a ∧ a < (seg x.level_).1 + (seg x.level_).2 ∧
      x.left_sibling_ = (if a = (seg x.level_).1 then -1 else (a : Int) - 1) ∧
      x.right_sibling_ =
        (if a + 1 = (seg x.level_).1 + (seg x.level_).2 then -1 else (a : Int) + 1))
    (h3 : ∀ l, l < Lnew → n0 ≤ (seg l).1 ∧
      ∀ a : Nat, (seg l).1 ≤ a → a < (seg l).1 + (seg l).2 →
        ∃ x, (BlockFile.mk B).read_block (a : Int) = some x ∧ x.level_ = l) :
    Segmented n0 (B ++ levelBlocks kind Lnew B.length cs last) Lnew
      (fun l => if l = Lnew then (B.length, cs.length + 1) else seg l) := by
  refine ⟨?_, ?_, ?_⟩
  · intro a ha hlt
    by_cases hold : a < B.length
    · rw [read_append_left _ _ _ hold]
      exact h1 a ha hold
    · obtain ⟨c, hc⟩ := read_levelBlocks B kind Lnew cs last a (by omega)
        (by simpa [levelBlocks_length] using hlt)
      exact ⟨_, hc⟩
  · intro a x ha hx
    have hlt := read_lt_length _ _ _ hx
    by_cases hold : a < B.length
    · rw [read_append_left _ _ _ hold] at hx
      obtain ⟨g1, g2, g3, g4, g5⟩ := h2 a x ha hx
      have hne : ¬ x.level_ = Lnew := by omega
      simp only [hne, if_false]
      exact ⟨by omega, g2, g3, g4, g5⟩
    · obtain ⟨c, hc⟩ := read_levelBlocks B kind Lnew cs last a (by omega)
        (by simpa [levelBlocks_length] using hlt)
      rw [hc] at hx
      simp only [Option.some.injEq] at hx
      subst hx
      simp only [nodeImage_level, nodeImage_left, nodeImage_right, if_true]
      refine ⟨Nat.le_refl _, by omega, by simpa [levelBlocks_length] using hlt, ?_, trivial⟩
      by_cases h0 : a = B.length
      · rw [if_pos h0, if_pos (by omega)]
      · rw [if_neg h0, if_neg (by omega)]
        have e : B.length + (a - B.length) = a := by omega
        rw [e]
  · intro l hl
    by_cases hnew : l = Lnew
    · simp only [hnew, if_true]
      refine ⟨hB, ?_⟩
      intro a h1' h2'
      obtain ⟨c, hc⟩ := read_levelBlocks B kind Lnew cs last a h1' h2'
      exact ⟨_, hc, rfl⟩
    · simp only [hnew, if_false]
      obtain ⟨g1, g2⟩ := h3 l (by omega)
      refine ⟨g1, ?_⟩
      intro a h1' h2'
      obtain ⟨x, hx, hlv⟩ := g2 a h1' h2'
      have hlt := read_lt_length _ _ _ hx
      exact ⟨x, by rw [read_append_left _ _ _ hlt]; exact hx, hlv⟩

/-- The blocks of a stack are segmented by level. -/
theorem Stack.segmented {lcap icap : Nat} {F0 : List (Option NodeImage)}
    {cs0 : List (List Entry)} {last0 : List Entry} {L base : Nat} {ch : List (List Entry)}
    {B : List (Option NodeImage)} (h : Stack lcap icap F0 cs0 last0 L base ch B) :
    ∃ seg, Segmented F0.length B L seg := by
  induction h with
  | leaf h1 hcs hne hlen =>
    refine ⟨_, segmented_push F0.length F0 0 (fun _ => (0, 0)) NodeKind.leaf cs0 last0
      (Nat.le_refl _) ?_ ?_ ?_⟩
    · intro a h1 h2; omega
    · intro a x h1 h2
      have := read_lt_length _ _ _ h2
      omega
    · intro l hl; omega
  | @up L' base' ch' B' cs last hS h2 h1 hup hcs hne hlen ih =>
    obtain ⟨seg, s1, s2, s3⟩ := ih
    have hlenB := hS.length_eq
    have hbase := hS.base_le
    rw [← hlenB]
    refine ⟨_, segmented_push F0.length B' (L' + 1) seg NodeKind.index cs last (by omega) s1 ?_
      ?_⟩
    · intro a x ha hx
      obtain ⟨g1, g2⟩ := s2 a x ha hx
      exact ⟨by omega, g2⟩
    · intro l hl
      exact s3 l (by omega)

/-- Sibling links of a segmented file: symmetry inside a level, and "none" at
exactly the two ends of a level. -/
theorem segmented_links (n0 : Nat) (B : List (Option NodeImage)) (L : Nat)
    (seg : Nat → Nat × Nat) (h : Segmented n0 B L seg) :
    (∀ (a b : Nat) (x y : NodeImage), n0 ≤ a → n0 ≤ b →
      (BlockFile.mk B).read_block (a : Int) = some x →
      (BlockFile.mk B).read_block (b : Int) = some y → x.level_ = y.level_ →
      (x.right_sibling_ = (b : Int) ↔ y.left_sibling_ = (a : Int))) ∧
    (∀ (a : Nat) (x : NodeImage), n0 ≤ a → (BlockFile.mk B).read_block (a : Int) = some x →
      (x.left_sibling_ = -1 ↔
        ∀ (b : Nat) (y : NodeImage), n0 ≤ b → (BlockFile.mk B).read_block (b : Int) = some y →
          y.level_ = x.level_ → a ≤ b) ∧
      (x.right_sibling_ = -1 ↔
        ∀ (b : Nat) (y : NodeImage), n0 ≤ b → (BlockFile.mk B).read_block (b : Int) = some y →
          y.level_ = x.level_ → b ≤ a)) := by
  obtain ⟨-, s2, s3⟩ := h
  constructor
  · intro a b x y ha hb hx hy hlv
    obtain ⟨-, a1, a2, a3, a4⟩ := s2 a x ha hx
    obtain ⟨-, b1, b2, b3, b4⟩ := s2 b y hb hy
    rw [← hlv] at b1 b2 b3 b4
    rw [a4, b3]
    split_ifs <;> constructor <;> intro h <;> first | exact h.elim | omega
  · intro a x ha hx
    obtain ⟨a0, a1, a2, a3, a4⟩ := s2 a x ha hx
    obtain ⟨c1, c2⟩ := s3 x.level_ a0
    constructor
    · rw [a3]
      constructor
      · intro h b y hb hy hlv
        obtain ⟨-, b1, -⟩ := s2 b y hb hy
        rw [hlv] at b1
        split_ifs at h <;> omega
      · intro h
        obtain ⟨y, hy, hlv⟩ := c2 (seg x.level_).1 (Nat.le_refl _) (by omega)
        have := h _ y c1 hy hlv
        rw [if_pos (by omega)]
    · rw [a4]
      constructor
      · intro h b y hb hy hlv
        obtain ⟨-, -, b2, -⟩ := s2 b y hb hy
        rw [hlv] at b2
        split_ifs at h <;> omega
      · intro h
        obtain ⟨y, hy, hlv⟩ := c2 ((seg x.level_).1 + (seg x.level_).2 - 1) (by omega)
          (by omega)
        have := h _ y (by omega) hy hlv
        rw [if_pos (by omega)]

/-- Claim C2. After `bulkload`, every block allocated by it holds a node image
(the state persisted on release); for two created nodes of the same level,
`right_sibling` of the first is the address of the second exactly when
`left_sibling` of the second is the address of the first; and a created node
has `left_sibling = -1` exactly when it is the first node of its level, and
`right_sibling = -1` exactly when it is the last one. -/
theorem C2_sibling_links (lcap icap fuel : Nat) (t : BTree) (table : List Result)
    (hl : 1 ≤ lcap) (hi : 2 ≤ icap) (hfuel : table.length ≤ fuel) :
    (∀ a : Nat, t.file_.blocks.length ≤ a →
      a < (bulkload lcap icap fuel t table.length table).tree.file_.blocks.length →
      ∃ x, (bulkload lcap icap fuel t table.length table).tree.file_.read_block (a : Int) =
        some x) ∧
    (∀ (a b : Nat) (x y : NodeImage), t.file_.blocks.length ≤ a → t.file_.blocks.length ≤ b →
      (bulkload lcap icap fuel t table.length table).tree.file_.read_block (a : Int) = some x →
      (bulkload lcap icap fuel t table.length table).tree.file_.read_block (b : Int) = some y →
      x.level_ = y.level_ →
      (x.right_sibling_ = (b : Int) ↔ y.left_sibling_ = (a : Int))) ∧
    (∀ (a : Nat) (x : NodeImage), t.file_.blocks.length ≤ a →
      (bulkload lcap icap fuel t table.length table).tree.file_.read_block (a : Int) = some x →
      (x.left_sibling_ = -1 ↔
        ∀ (b : Nat) (y : NodeImage), t.file_.blocks.length ≤ b →
          (bulkload lcap icap fuel t table.length table).tree.file_.read_block (b : Int) =
            some y →
          y.level_ = x.level_ → a ≤ b) ∧
      (x.right_sibling_ = -1 ↔
        ∀ (b : Nat) (y : NodeImage), t.file_.blocks.length ≤ b →
          (bulkload lcap icap fuel t table.length table).tree.file_.read_block (b : Int) =
            some y →
          y.level_ = x.level_ → b ≤ a)) := by
  by_cases hne : table = []
  · subst hne
    simp only [List.length_nil, bulkload_nil]
    refine ⟨?_, ?_, ?_⟩
    · intro a h1 h2; omega
    · intro a b x y ha hb hx
      have := read_lt_length t.file_.blocks a x hx
      omega
    · intro a x ha hx
      have := read_lt_length t.file_.blocks a x hx
      omega
  · obtain ⟨cs0, last0, L, base, c, B, hx, hS, gB, -⟩ :=
      bulkload_stack lcap icap fuel hl hi t table hne hfuel
    obtain ⟨seg, hseg⟩ := hS.segmented
    obtain ⟨l1, l2⟩ := segmented_links _ _ _ _ hseg
    rw [blockFile_eq_mk _ _ gB]
    exact ⟨hseg.1, l1, l2⟩

/-- Witness for C2 on the example scenario: block 2, the second leaf, was
written, and the links between the first two leaves agree. -/
theorem C2_sibling_links_witness :
    (1 ≤ 4 ∧ 2 ≤ 3 ∧ exampleTable.length ≤ 10) ∧
    (∃ x, (bulkload 4 3 10 exampleTree exampleTable.length exampleTable).tree.file_.read_block
      ((2 : Nat) : Int) = some x) ∧
    ((bulkload 4 3 10 exampleTree exampleTable.length exampleTable).tree.file_.read_block
      ((1 : Nat) : Int)).map NodeImage.right_sibling_ = some 2 ∧
    ((bulkload 4 3 10 exampleTree exampleTable.length exampleTable).tree.file_.read_block
      ((2 : Nat) : Int)).map NodeImage.left_sibling_ = some 1 :=
  ⟨by decide,
    (C2_sibling_links 4 3 10 exampleTree exampleTable (by decide) (by decide) (by decide)).1 2
      (by decide) (by decide),
    by decide, by decide⟩

theorem liveAfter_snoc (tr : List Event) (e : Event) :
    liveAfter (tr ++ [e]) = liveStep (liveAfter tr) e := by
  simp [liveAfter, List.foldl_append]

theorem boundedTrace_snoc (tr : List Event) (e : Event) (h : BoundedTrace tr)
    (hb : LiveBound (liveStep (liveAfter tr) e)) : BoundedTrace (tr ++ [e]) := by
  intro k
  by_cases hk : k ≤ tr.length
  · rw [List.take_append_of_le_length hk]
    exact h k
  · rw [List.take_of_length_le (by simp; omega), liveAfter_snoc]
    exact hb

theorem boundedTrace_nil : BoundedTrace [] := by
  intro k
  simp [liveAfter, LiveBound]

theorem linv_fill (kind : NodeKind) (s : Frame) (k p : Int) (h : LInv s)
    (hf : s.fault = false) : LInv (fill kind s k p) := by
  obtain ⟨hG, hI⟩ := h
  obtain ⟨hc, hap, hfp, hlive⟩ := hI hf
  unfold fill
  cases ha : s.act_nd with
  | none => exact ⟨hG, by simp⟩
  | some act =>
    obtain ⟨hp, h1⟩ := hap (by simp [ha])
    have hlive' : liveAfter (s.trace ++
        [Event.add_new_child act.get_block act.num_entries_ act.capacity_]) = heldNodes s := by
      rw [liveAfter_snoc, hlive]; rfl
    have hG' : BoundedTrace (s.trace ++
        [Event.add_new_child act.get_block act.num_entries_ act.capacity_]) := by
      apply boundedTrace_snoc _ _ hG
      have := hG s.trace.length
      simpa [liveStep] using this
    simp only
    split
    · refine ⟨hG', fun _ => ⟨hc, by simp, by simp [h1], ?_⟩⟩
      rw [hlive']
      cases kind <;>
        simp [heldNodes, ha, hp, hc, BLeafNode.add_new_child, BIndexNode.add_new_child]
    · refine ⟨hG', fun _ => ⟨hc, fun _ => ⟨hp, h1⟩, fun _ => hp, ?_⟩⟩
      rw [hlive']
      cases kind <;>
        simp [heldNodes, ha, hp, hc, BLeafNode.add_new_child, BIndexNode.add_new_child]

theorem linv_attach (kind : NodeKind) (level cap : Nat) (s : Frame) (h : LInv s)
    (hf : s.fault = false) : LInv (attach kind level cap s) := by
  obtain ⟨hG, hI⟩ := h
  obtain ⟨hc, hap, hfp, hlive⟩ := hI hf
  unfold attach
  cases ha : s.act_nd with
  | some act => exact ⟨hG, fun _ => ⟨hc, hap, hfp, hlive⟩⟩
  | none =>
    simp only
    cases h1 : s.first_node with
    | true =>
      have hp := hfp h1
      have hl0 : liveAfter s.trace = [] := by rw [hlive]; simp [heldNodes, ha, hp, hc]
      simp only [if_true]
      refine ⟨?_, fun _ => ⟨hc, fun _ => ⟨hp, rfl⟩, by simp, ?_⟩⟩
      · apply boundedTrace_snoc _ _ hG
        rw [hl0]
        simp [liveStep, LiveBound]
      · rw [liveAfter_snoc, hl0]
        simp [liveStep, heldNodes, hp, hc, BNode.init, BNode.get_block]
    | false =>
      simp only [Bool.false_eq_true, if_false]
      cases hp : s.prev_nd with
      | none =>
        have hl0 : liveAfter s.trace = [] := by rw [hlive]; simp [heldNodes, ha, hp, hc]
        refine ⟨?_, by simp⟩
        apply boundedTrace_snoc _ _ hG
        rw [hl0]
        simp [liveStep, LiveBound]
      | some prev =>
        have hl0 : liveAfter s.trace = [(Role.built, prev.block_)] := by
          rw [hlive]; simp [heldNodes, ha, hp, hc]
        have hG1 : BoundedTrace (s.trace ++ [Event.acquire Role.built level
            (BNode.init kind level cap s.file_.blocks.length).get_block]) := by
          apply boundedTrace_snoc _ _ hG
          rw [hl0]
          simp [liveStep, LiveBound]
        refine ⟨?_, fun _ => ⟨hc, by simp, by simp, ?_⟩⟩
        · apply boundedTrace_snoc _ _ hG1
          rw [liveAfter_snoc, hl0]
          simp [liveStep, LiveBound, BNode.get_block]
        · rw [liveAfter_snoc, liveAfter_snoc, hl0]
          simp [liveStep, heldNodes, hc, BNode.get_block, BNode.set_left_sibling, BNode.init]

theorem linv_put (kind : NodeKind) (level cap : Nat) (s : Frame) (k p : Int) (h : LInv s) :
    LInv (put kind level cap s k p) := by
  unfold put
  cases hf : s.fault with
  | true => simpa using h
  | false =>
    simp only [Bool.false_eq_true, if_false]
    have h1 := linv_attach kind level cap s h hf
    cases hf1 : (attach kind level cap s).fault with
    | true => simpa using h1
    | false =>
      simp only [Bool.false_eq_true, if_false]
      exact linv_fill kind _ k p h1 hf1

theorem linv_cleanup (s : Frame) (h : LInv s) :
    LInv (cleanup s) ∧ ((cleanup s).fault = false →
      (cleanup s).prev_nd = none ∧ (cleanup s).act_nd = none) := by
  unfold cleanup
  cases hf : s.fault with
  | true => simpa [hf] using h
  | false =>
    obtain ⟨hG, hI⟩ := h
    obtain ⟨hc, hap, hfp, hlive⟩ := hI hf
    simp only [Bool.false_eq_true, if_false]
    cases hp : s.prev_nd with
    | none =>
      cases ha : s.act_nd with
      | none => exact ⟨⟨hG, fun _ => ⟨hc, hap, hfp, hlive⟩⟩, fun _ => ⟨hp, ha⟩⟩
      | some act =>
        have hl0 : liveAfter s.trace = [(Role.built, act.block_)] := by
          rw [hlive]; simp [heldNodes, ha, hp, hc]
        simp only
        refine ⟨⟨?_, fun _ => ⟨hc, by simp, fun _ => hp, ?_⟩⟩, fun _ => by simp [hp]⟩
        · apply boundedTrace_snoc _ _ hG
          rw [hl0]
          simp [liveStep, LiveBound, BNode.get_block]
        · rw [liveAfter_snoc, hl0]
          simp [liveStep, heldNodes, hp, hc, BNode.get_block]
    | some prev =>
      have ha : s.act_nd = none := by
        by_contra hne
        have := (hap hne).1
        rw [hp] at this
        simp at this
      have hl0 : liveAfter s.trace = [(Role.built, prev.block_)] := by
        rw [hlive]; simp [heldNodes, ha, hp, hc]
      simp only [ha]
      refine ⟨⟨?_, fun _ => ⟨hc, by simp [ha], fun _ => rfl, ?_⟩⟩, fun _ => by simp⟩
      · apply boundedTrace_snoc _ _ hG
        rw [hl0]
        simp [liveStep, LiveBound, BNode.get_block]
      · rw [liveAfter_snoc, hl0]
        simp [liveStep, heldNodes, ha, hc, BNode.get_block]

theorem list_append_pair {α : Type} (l : List α) (a b : α) : l ++ [a, b] = l ++ [a] ++ [b] := by
  simp

theorem boundedTrace_last (tr : List Event) (h : BoundedTrace tr) :
    LiveBound (liveAfter tr) := by
  have := h tr.length
  rwa [List.take_length] at this

theorem linv_levelBody (lcap icap : Nat) (s : Frame) (i : Int) (h : LInv s) :
    LInv (levelBody lcap icap s i) := by
  unfold levelBody
  cases hf : s.fault with
  | true => simpa using h
  | false =>
    simp only [Bool.false_eq_true, if_false]
    generalize (if s.cur_level = 1 then BNode.init_restore NodeKind.leaf lcap s.file_ i
      else BNode.init_restore NodeKind.index icap s.file_ i) = r
    obtain ⟨hG, hI⟩ := h
    obtain ⟨hc, hap, hfp, hlive⟩ := hI hf
    cases r with
    | none => exact ⟨hG, by simp⟩
    | some ch =>
      simp only
      have hheld : ∃ l, liveAfter s.trace = l ∧ l.length ≤ 1 ∧
          (∀ p ∈ l, p.1 = Role.built) ∧ heldNodes s = l := by
        refine ⟨_, hlive, ?_, ?_, rfl⟩
        · cases hp : s.prev_nd <;> cases ha : s.act_nd
          · simp [heldNodes, hp, ha, hc]
          · simp [heldNodes, hp, ha, hc]
          · simp [heldNodes, hp, ha, hc]
          · have := (hap (by simp [ha])).1
            rw [hp] at this
            simp at this
        · intro p hp
          simp only [heldNodes, hc, Option.toList, List.map_nil, List.append_nil,
            List.mem_append, List.mem_map] at hp
          rcases hp with ⟨nd, -, rfl⟩ | ⟨nd, -, rfl⟩ <;> rfl
      obtain ⟨l, hl, hlen, hbuilt, hheld'⟩ := hheld
      have hfr : l.filter (fun p => decide (p.1 = Role.read)) = [] := by
        rw [List.filter_eq_nil_iff]
        intro p hp
        simp [hbuilt p hp]
      have hG1 : BoundedTrace (s.trace ++ [Event.acquire Role.read ch.level_ ch.get_block]) := by
        apply boundedTrace_snoc _ _ hG
        rw [hl]
        refine ⟨?_, ?_, ?_⟩
        · exact Nat.le_trans (List.length_filter_le _ _) (by simp [liveStep]; omega)
        · simp [liveStep, List.filter_append, hfr]
        · simp [liveStep]; omega
      have hG2 : BoundedTrace (s.trace ++ [Event.acquire Role.read ch.level_ ch.get_block,
          Event.get_key_of_node ch.get_block ch.num_entries_]) := by
        rw [list_append_pair]
        apply boundedTrace_snoc _ _ hG1
        exact boundedTrace_last _ hG1
      cases hk : ch.get_key_of_node with
      | none => exact ⟨hG2, by simp⟩
      | some key =>
        simp only
        apply linv_put
        have herase : (l ++ [(Role.read, ch.get_block)]).erase (Role.read, ch.get_block) = l := by
          rw [List.erase_append_right _ (fun hmem => by
            have := hbuilt _ hmem
            simp at this)]
          simp
        have hlast : liveAfter (s.trace ++ [Event.acquire Role.read ch.level_ ch.get_block,
            Event.get_key_of_node ch.get_block ch.num_entries_] ++
            [Event.release Role.read ch.get_block]) = l := by
          rw [liveAfter_snoc, list_append_pair, liveAfter_snoc, liveAfter_snoc, hl]
          simpa [liveStep] using herase
        refine ⟨?_, fun _ => ⟨rfl, hap, hfp, ?_⟩⟩
        · apply boundedTrace_snoc _ _ hG2
          rw [← liveAfter_snoc, hlast]
          exact ⟨Nat.le_trans (List.length_filter_le _ _) (by omega),
            Nat.le_trans (List.length_filter_le _ _) hlen, by omega⟩
        · rw [hlast, ← hheld']
          simp [heldNodes, hc]

theorem linv_foldl_levelBody (lcap icap : Nat) (ys : List Int) (s : Frame) (h : LInv s) :
    LInv (List.foldl (levelBody lcap icap) s ys) := by
  induction ys generalizing s with
  | nil => exact h
  | cons y ys ih => exact ih _ (linv_levelBody lcap icap s y h)

theorem linv_foldl_leafBody (lcap : Nat) (ys : List Result) (s : Frame) (h : LInv s) :
    LInv (List.foldl (leafBody lcap) s ys) := by
  induction ys generalizing s with
  | nil => exact h
  | cons y ys ih => exact ih _ (linv_put _ _ _ s _ _ h)

theorem linv_levelPass (lcap icap : Nat) (s : Frame)
    (h : LInv s ∧ (s.fault = false → s.prev_nd = none ∧ s.act_nd = none)) :
    LInv (levelPass lcap icap s) ∧
      ((levelPass lcap icap s).fault = false →
        (levelPass lcap icap s).prev_nd = none ∧ (levelPass lcap icap s).act_nd = none) := by
  obtain ⟨⟨hG, hI⟩, hpa⟩ := h
  have h0 : LInv { s with first_node := true } := by
    refine ⟨hG, fun hf => ?_⟩
    obtain ⟨hc, hap, hfp, hlive⟩ := hI hf
    obtain ⟨hp, ha⟩ := hpa hf
    refine ⟨hc, fun hne => absurd ha hne, fun _ => hp, ?_⟩
    rw [hlive]
    rfl
  have h1 := linv_foldl_levelBody lcap icap (addrRange s.last_start_block s.last_end_block) _ h0
  obtain ⟨⟨gG, gI⟩, gpa⟩ := linv_cleanup _ h1
  unfold levelPass
  simp only
  split
  · exact ⟨⟨gG, gI⟩, gpa⟩
  · rename_i hf
    simp only [Bool.not_eq_true] at hf
    obtain ⟨hc, hap, hfp, hlive⟩ := gI hf
    exact ⟨⟨gG, fun _ => ⟨hc, hap, hfp, hlive⟩⟩, fun _ => gpa hf⟩

theorem linv_whileLoop (lcap icap : Nat) (fuel : Nat) :
    ∀ s : Frame, (LInv s ∧ (s.fault = false → s.prev_nd = none ∧ s.act_nd = none)) →
      LInv (whileLoop lcap icap fuel s) ∧
        ((whileLoop lcap icap fuel s).fault = false →
          (whileLoop lcap icap fuel s).prev_nd = none ∧
            (whileLoop lcap icap fuel s).act_nd = none) := by
  induction fuel with
  | zero =>
    intro s h
    unfold whileLoop
    split
    · exact h
    · split
      · exact h
      · obtain ⟨⟨hG, hI⟩, hpa⟩ := h
        exact ⟨⟨hG, hI⟩, hpa⟩
  | succ fuel ih =>
    intro s h
    rw [whileLoop]
    split
    · exact h
    · split
      · exact ih _ (linv_levelPass lcap icap s h)
      · obtain ⟨⟨hG, hI⟩, hpa⟩ := h
        exact ⟨⟨hG, hI⟩, hpa⟩

theorem linv_leafPass (lcap : Nat) (t : BTree) (n : Nat) (table : List Result) :
    LInv (leafPass lcap t n table) ∧
      ((leafPass lcap t n table).fault = false →
        (leafPass lcap t n table).prev_nd = none ∧ (leafPass lcap t n table).act_nd = none) := by
  have h0 : LInv
      { file_ := t.file_, child := none, prev_nd := none, act_nd := none,
        first_node := true, start_block := 0, end_block := 0, cur_level := 1,
        last_start_block := 0, last_end_block := 0, trace := [],
        fault := decide (table.length < n), done := false } :=
    ⟨boundedTrace_nil, fun _ => ⟨rfl, by simp, fun _ => rfl, rfl⟩⟩
  have h1 := linv_foldl_leafBody lcap (table.take n) _ h0
  obtain ⟨⟨gG, gI⟩, gpa⟩ := linv_cleanup _ h1
  unfold leafPass
  exact ⟨⟨gG, gI⟩, gpa⟩

/-- Claim C9. In every execution of `bulkload` (any capacities, any table, any
`n`, any number of passes executed), after every event of the execution at most
2 nodes acquired by `init` (level under construction) and at most 1 node
acquired by `init_restore` (level being read) are live, hence at most 3. -/
theorem C9_live_nodes_bounded (lcap icap fuel : Nat) (t : BTree) (n : Nat)
    (table : List Result) (k : Nat) :
    ((liveAfter ((bulkload lcap icap fuel t n table).frame.trace.take k)).filter
        (fun p => decide (p.1 = Role.built))).length ≤ 2 ∧
    ((liveAfter ((bulkload lcap icap fuel t n table).frame.trace.take k)).filter
        (fun p => decide (p.1 = Role.read))).length ≤ 1 ∧
    (liveAfter ((bulkload lcap icap fuel t n table).frame.trace.take k)).length ≤ 3 := by
  obtain ⟨⟨hG, hI⟩, hpa⟩ := linv_whileLoop lcap icap fuel _ (linv_leafPass lcap t n table)
  have e : (bulkload lcap icap fuel t n table).frame =
      whileLoop lcap icap fuel (leafPass lcap t n table) := by
    unfold bulkload
    simp only
    split
    · rename_i hd
      simp only [Bool.and_eq_true, Bool.not_eq_true'] at hd
      obtain ⟨hp, ha⟩ := hpa hd.2
      exact finalCleanup_eq _ hp ha (hI hd.2).1
    · rfl
  rw [e]
  exact hG k

/-- The accessors of `MinK_List` stay inside the populated range when the
capacity is at least 1, the count is at most the capacity, and the index
asked for is not negative; they return the sentinel for `i >= num_`. -/
theorem minK_access_inPopulated (s : MinK_List) (hk : 1 ≤ s.k_) (hn : s.num_ ≤ s.k_)
    (i : Int) (hi : 0 ≤ i) :
    s.inPopulated s.min_key_access ∧ s.inPopulated s.max_key_access ∧
    s.inPopulated (s.ith_key_access i) ∧ s.inPopulated (s.ith_id_access i) ∧
    (s.num_ ≤ i → s.ith_key i = some MAXREAL ∧ s.ith_id i = some MININT) ∧
    (s.num_ = 0 → s.min_key = some MAXREAL) ∧
    (s.num_ < s.k_ → s.max_key = some MAXREAL) := by
  refine ⟨?_, ?_, ?_, ?_, ?_, ?_, ?_⟩
  · unfold MinK_List.min_key_access
    split <;> simp [MinK_List.inPopulated]
    omega
  · unfold MinK_List.max_key_access
    split <;> simp [MinK_List.inPopulated]
    omega
  · unfold MinK_List.ith_key_access
    split <;> simp [MinK_List.inPopulated]
    omega
  · unfold MinK_List.ith_id_access
    split <;> simp [MinK_List.inPopulated]
    omega
  · intro h
    have : ¬ i < s.num_ := by omega
    simp [MinK_List.ith_key, MinK_List.ith_id, MinK_List.ith_key_access,
      MinK_List.ith_id_access, this, MinK_List.keyOf, MinK_List.idOf]
  · intro h
    simp [MinK_List.min_key, MinK_List.min_key_access, h, MinK_List.keyOf]
  · intro h
    have : ¬ s.num_ ≥ s.k_ := by omega
    simp [MinK_List.max_key, MinK_List.max_key_access, this, MinK_List.keyOf]

/-- Claim C10 (the code departs from it). On the list of capacity 3 with 2
records, `ith_key(-1)` and `ith_id(-1)` evaluate `list_[-1]`, outside the
populated range and outside the array, instead of returning the sentinel; on an
empty list of capacity 0, `max_key()` evaluates `list_[-1]` as well. -/
theorem C10_accessors_read_outside_populated_range :
    exampleList.ith_key_access (-1) = Access.slot (-1) ∧
    exampleList.ith_id_access (-1) = Access.slot (-1) ∧
    ¬ exampleList.inPopulated (exampleList.ith_key_access (-1)) ∧
    exampleList.ith_key (-1) = none ∧ exampleList.ith_id (-1) = none ∧
    exampleEmptyList.max_key_access = Access.slot (-1) ∧
    ¬ exampleEmptyList.inPopulated exampleEmptyList.max_key_access ∧
    exampleEmptyList.max_key = none := by
  refine ⟨by decide, by decide, ?_, by decide, by decide, by decide, ?_, by decide⟩
  · simp [exampleList, MinK_List.ith_key_access, MinK_List.inPopulated]
  · simp [exampleEmptyList, MinK_List.max_key_access, MinK_List.inPopulated]

theorem subtreeKeys_append (n0 : Nat) (B X : List (Option NodeImage))
    (hclosed : ∀ (a : Nat) (x : NodeImage), n0 ≤ a →
      (BlockFile.mk B).read_block (a : Int) = some x → x.kind = NodeKind.index →
      ∀ p ∈ x.ptr_, ∃ q : Nat, p = (q : Int) ∧ n0 ≤ q ∧ q < a) (fuel : Nat) :
    ∀ a : Nat, n0 ≤ a → a < B.length →
      subtreeKeys (BlockFile.mk (B ++ X)) fuel (a : Int) =
        subtreeKeys (BlockFile.mk B) fuel (a : Int) := by
  induction fuel with
  | zero => intro a _ _; rfl
  | succ fuel ih =>
    intro a ha hlt
    simp only [subtreeKeys]
    rw [read_append_left _ _ _ hlt]
    cases hr : (BlockFile.mk B).read_block (a : Int) with
    | none => rfl
    | some img =>
      simp only
      cases hk : img.kind with
      | leaf => rfl
      | index =>
        simp only
        rw [List.flatMap_def, List.flatMap_def]
        congr 1
        apply List.map_congr_left
        intro p hp
        obtain ⟨q, rfl, hq1, hq2⟩ := hclosed a img ha hr hk p hp
        exact ih q hq1 (by omega)

theorem upEntries_mem (base : Nat) (ch : List (List Entry)) (j0 : Nat) (e : Entry)
    (h : e ∈ upEntries base j0 ch) :
    ∃ j c, ch[j]? = some c ∧ e = (firstKey c, ((base + (j0 + j) : Nat) : Int)) := by
  obtain ⟨j, hj⟩ := List.getElem?_of_mem h
  have hlt : j < ch.length := by
    have := (List.getElem?_eq_some_iff.mp hj).1
    simpa [upEntries_length] using this
  have hc : ch[j]? = some ch[j] := List.getElem?_eq_getElem hlt
  rw [upEntries_getElem? base ch j0 j _ hc] at hj
  simp only [Option.some.injEq] at hj
  exact ⟨j, _, hc, hj.symm⟩

theorem upEntries_flatMap {β : Type} (base : Nat) (h : Entry → List β)
    (h' : List Entry → List β) (ch : List (List Entry)) :
    ∀ j0, (∀ j c, ch[j]? = some c →
        h (firstKey c, ((base + (j0 + j) : Nat) : Int)) = h' c) →
      (upEntries base j0 ch).flatMap h = ch.flatMap h' := by
  induction ch with
  | nil => intro j0 _; rfl
  | cons c ch ih =>
    intro j0 hh
    simp only [upEntries, List.flatMap_cons]
    have h0 := hh 0 c (by simp)
    simp only [Nat.add_zero] at h0
    rw [h0, ih (j0 + 1)]
    intro j c' hj
    have := hh (j + 1) c' (by simpa using hj)
    have e : j0 + (j + 1) = j0 + 1 + j := by omega
    rw [e] at this
    exact this

/-- Order facts of consecutive segments of a sorted list: `es` are entries,
`g e` is the segment of `e`, each segment starts with the key of its entry and
the segments, concatenated, are sorted. -/
theorem segments_order (es : List Entry) (g : Entry → List Int)
    (hhead : ∀ e ∈ es, (g e).head? = some e.1)
    (hsorted : (es.flatMap g).Pairwise (fun a b => a ≤ b)) :
    (es.map Prod.fst).Pairwise (fun a b => a ≤ b) ∧
    (∀ (i : Nat) (e : Entry), es[i]? = some e → ∀ k ∈ g e,
      e.1 ≤ k ∧ ∀ e' : Entry, es[i + 1]? = some e' → k ≤ e'.1) := by
  rw [List.flatMap_def, List.pairwise_flatten] at hsorted
  obtain ⟨h1, h2⟩ := hsorted
  have hmem : ∀ e ∈ es, e.1 ∈ g e := by
    intro e he
    have := hhead e he
    cases hg : g e with
    | nil => rw [hg] at this; simp at this
    | cons a l =>
      rw [hg] at this
      simp only [List.head?_cons, Option.some.injEq] at this
      rw [this]
      exact List.mem_cons_self _ _
  have h2' : es.Pairwise (fun e1 e2 => ∀ x ∈ g e1, ∀ y ∈ g e2, x ≤ y) := by
    rw [List.pairwise_map] at h2
    exact h2
  constructor
  · rw [List.pairwise_map]
    exact List.Pairwise.imp_of_mem (fun {a b} ha hb hab => hab _ (hmem a ha) _ (hmem b hb)) h2'
  · intro i e hi k hk
    have he : e ∈ es := List.getElem?_mem hi
    constructor
    · have hp := h1 (g e) (List.mem_map_of_mem g he)
      have hh := hhead e he
      cases hg : g e with
      | nil => rw [hg] at hk; simp at hk
      | cons a l =>
        rw [hg] at hh hp hk
        simp only [List.head?_cons, Option.some.injEq] at hh
        subst hh
        rw [List.pairwise_cons] at hp
        rcases List.mem_cons.mp hk with rfl | hk'
        · exact Int.le_refl _
        · exact hp.1 k hk'
    · intro e' hi'
      have he' : e' ∈ es := List.getElem?_mem hi'
      rw [List.pairwise_iff_getElem] at h2'
      obtain ⟨hlt, heq⟩ := List.getElem?_eq_some_iff.mp hi
      obtain ⟨hlt', heq'⟩ := List.getElem?_eq_some_iff.mp hi'
      have := h2' i (i + 1) hlt hlt' (by omega)
      rw [heq, heq'] at this
      exact this k hk e'.1 (hmem e' he')

theorem pairwise_flatMap_of_mem (L : List (List Entry)) (g : Entry → List Int)
    (c : List Entry) (hc : c ∈ L)
    (hsorted : (L.flatten.flatMap g).Pairwise (fun a b => a ≤ b)) :
    (c.flatMap g).Pairwise (fun a b => a ≤ b) := by
  obtain ⟨s, t, rfl⟩ := List.append_of_mem hc
  simp only [List.flatten_append, List.flatten_cons, List.flatMap_append] at hsorted
  rw [List.pairwise_append] at hsorted
  have := hsorted.2.1
  rw [List.pairwise_append] at this
  exact this.1

theorem head?_map_fst_of_ne_nil (c : List Entry) (h : c ≠ []) :
    (c.map Prod.fst).head? = some (firstKey c) := by
  obtain ⟨x, rest, rfl⟩ := List.exists_cons_of_ne_nil h
  simp [firstKey]

theorem subtreeKeys_leaf (f : BlockFile) (fuel : Nat) (a : Int) (x : NodeImage)
    (hr : f.read_block a = some x) (hk : x.kind = NodeKind.leaf) :
    subtreeKeys f (fuel + 1) a = x.key_ := by
  simp [subtreeKeys, hr, hk]

theorem subtreeKeys_index (f : BlockFile) (fuel : Nat) (a : Int) (x : NodeImage)
    (hr : f.read_block a = some x) (hk : x.kind = NodeKind.index) :
    subtreeKeys f (fuel + 1) a = x.ptr_.flatMap (fun p => subtreeKeys f fuel p) := by
  simp [subtreeKeys, hr, hk]

/-- The leaf level of a stack built from a sorted table is covered. -/
theorem covered_leaf {lcap icap : Nat} {F0 : List (Option NodeImage)}
    {cs0 : List (List Entry)} {last0 : List Entry} {B : List (Option NodeImage)}
    (hS : Stack lcap icap F0 cs0 last0 0 F0.length (cs0 ++ [last0]) B)
    (hsorted : ((cs0.flatten ++ last0).map Prod.fst).Pairwise (fun a b => a ≤ b)) :
    Covered F0.length B 0 F0.length (cs0 ++ [last0]) ((cs0.flatten ++ last0).map Prod.fst) := by
  have hkeys : ∀ j c, (cs0 ++ [last0])[j]? = some c →
      subtreeKeys (BlockFile.mk B) (0 + 1) ((F0.length + (0 + j) : Nat) : Int) =
        c.map Prod.fst := by
    intro j c hj
    obtain ⟨hr, -⟩ := hS.read_top j c hj
    simp only [Nat.zero_add]
    rw [subtreeKeys_leaf _ _ _ _ hr (by simp [nodeImage, childKind])]
    rfl
  obtain ⟨B0, cs, last, hch, hB0, hB, hne⟩ := hS.top
  refine ⟨?_, ?_, ?_⟩
  · rw [upEntries_flatMap F0.length _ (fun c => c.map Prod.fst) _ 0 hkeys]
    rw [List.flatMap_def, ← List.map_flatten]
    simp
  · intro e he
    obtain ⟨j, c, hj, rfl⟩ := upEntries_mem _ _ _ _ he
    rw [hkeys j c hj]
    exact head?_map_fst_of_ne_nil c (hne c (List.getElem?_mem hj))
  · intro a x ha hx
    have hlt := read_lt_length _ _ _ hx
    rw [hS.length_eq] at hlt
    have hj : (cs0 ++ [last0])[a - F0.length]? = some (cs0 ++ [last0])[a - F0.length] :=
      List.getElem?_eq_getElem (by omega)
    obtain ⟨hr, -⟩ := hS.read_top (a - F0.length) _ hj
    have e : F0.length + (a - F0.length) = a := by omega
    rw [e, hx] at hr
    simp only [Option.some.injEq] at hr
    subst hr
    refine ⟨⟨by simp [nodeImage], by simp [nodeImage], ?_, ?_⟩, Nat.le_refl _, ?_⟩
    · have h1 : ((cs0 ++ [last0]).flatten.map Prod.fst).Pairwise (fun a b => a ≤ b) := by
        simpa using hsorted
      rw [List.map_flatten, List.pairwise_flatten] at h1
      exact h1.1 _ (List.mem_map_of_mem _ (List.getElem?_mem hj))
    · intro hk
      simp [nodeImage, childKind] at hk
    · intro hk
      simp [nodeImage, childKind] at hk

theorem getElem?_map_fst (es : List Entry) (i : Nat) (k : Int)
    (h : (es.map Prod.fst)[i]? = some k) : ∃ e, es[i]? = some e ∧ e.1 = k := by
  rw [List.getElem?_map] at h
  cases hc : es[i]? with
  | none => rw [hc] at h; simp at h
  | some e =>
    rw [hc] at h
    simp only [Option.map_some', Option.some.injEq] at h
    exact ⟨e, rfl, h⟩

theorem getElem?_map_snd (es : List Entry) (i : Nat) (p : Int)
    (h : (es.map Prod.snd)[i]? = some p) : ∃ e, es[i]? = some e ∧ e.2 = p := by
  rw [List.getElem?_map] at h
  cases hc : es[i]? with
  | none => rw [hc] at h; simp at h
  | some e =>
    rw [hc] at h
    simp only [Option.map_some', Option.some.injEq] at h
    exact ⟨e, rfl, h⟩

/-- An index image whose entries head sorted consecutive segments satisfies
`NodeOK`. -/
theorem nodeOK_index (f : BlockFile) (level base j : Nat) (c : List Entry) (r : Int)
    (hhead : ∀ e ∈ c, (subtreeKeys f level e.2).head? = some e.1)
    (hsorted : (c.flatMap (fun e => subtreeKeys f level e.2)).Pairwise (fun a b => a ≤ b))
    (hread : ∀ e ∈ c, ∃ y, f.read_block e.2 = some y ∧ y.key_.head? = some e.1) :
    NodeOK f (nodeImage NodeKind.index level base j c r) := by
  obtain ⟨o1, o2⟩ := segments_order c (fun e => subtreeKeys f level e.2) hhead hsorted
  refine ⟨by simp [nodeImage], by simp [nodeImage], o1, fun _ => ⟨?_, ?_⟩⟩
  · intro i ki pi hki hpi
    obtain ⟨e, he, rfl⟩ := getElem?_map_fst c i ki hki
    obtain ⟨e', he', rfl⟩ := getElem?_map_snd c i pi hpi
    rw [he] at he'
    simp only [Option.some.injEq] at he'
    subst he'
    have hmem : e ∈ c := List.getElem?_mem he
    refine ⟨hread e hmem, ?_, fun k hk => (o2 i e he k hk).1⟩
    have := hhead e hmem
    simp only [nodeImage_level]
    cases hg : subtreeKeys f level e.2 with
    | nil => rw [hg] at this; simp at this
    | cons a l =>
      rw [hg] at this
      simp only [List.head?_cons, Option.some.injEq] at this
      rw [this]
      exact List.mem_cons_self _ _
  · intro i ki pi hki hpi k hk
    obtain ⟨e, he, rfl⟩ := getElem?_map_fst c i ki hki
    obtain ⟨e', he', rfl⟩ := getElem?_map_snd c i pi hpi
    rw [he] at he'
    simp only [Option.some.injEq] at he'
    subst he'
    obtain ⟨g1, g2⟩ := o2 i e he k hk
    refine ⟨g1, ?_⟩
    intro kn hkn
    obtain ⟨en, hen, rfl⟩ := getElem?_map_fst c (i + 1) kn hkn
    exact g2 en hen

/-- `NodeOK` of a created node survives the appending of further blocks. -/
theorem nodeOK_append (n0 : Nat) (B X : List (Option NodeImage))
    (hclosed : ∀ (a : Nat) (x : NodeImage), n0 ≤ a →
      (BlockFile.mk B).read_block (a : Int) = some x → x.kind = NodeKind.index →
      ∀ p ∈ x.ptr_, ∃ q : Nat, p = (q : Int) ∧ n0 ≤ q ∧ q < a)
    (a : Nat) (x : NodeImage) (ha : n0 ≤ a) (hx : (BlockFile.mk B).read_block (a : Int) = some x)
    (h : NodeOK (BlockFile.mk B) x) : NodeOK (BlockFile.mk (B ++ X)) x := by
  have hlt := read_lt_length _ _ _ hx
  obtain ⟨h1, h2, h3, h4⟩ := h
  refine ⟨h1, h2, h3, fun hk => ?_⟩
  obtain ⟨f1, f2⟩ := h4 hk
  have hsame : ∀ pi ∈ x.ptr_, subtreeKeys (BlockFile.mk (B ++ X)) x.level_ pi =
      subtreeKeys (BlockFile.mk B) x.level_ pi ∧
      (BlockFile.mk (B ++ X)).read_block pi = (BlockFile.mk B).read_block pi := by
    intro pi hpi
    obtain ⟨q, rfl, hq1, hq2⟩ := hclosed a x ha hx hk pi hpi
    exact ⟨subtreeKeys_append n0 B X hclosed _ q hq1 (by omega),
      read_append_left _ _ _ (by omega)⟩
  constructor
  · intro i ki pi hki hpi
    obtain ⟨e1, e2⟩ := hsame pi (List.getElem?_mem hpi)
    rw [e1, e2]
    exact f1 i ki pi hki hpi
  · intro i ki pi hki hpi
    obtain ⟨e1, -⟩ := hsame pi (List.getElem?_mem hpi)
    rw [e1]
    exact f2 i ki pi hki hpi

theorem flatMap_flatMap_flatten {β : Type} (Ls : List (List Entry)) (g : Entry → List β) :
    Ls.flatMap (fun es => es.flatMap g) = Ls.flatten.flatMap g := by
  induction Ls with
  | nil => rfl
  | cons l Ls ih => simp [List.flatMap_cons, ih]

theorem flatMap_congr_mem {β : Type} (es : List Entry) (g g' : Entry → List β)
    (h : ∀ e ∈ es, g' e = g e) : es.flatMap g' = es.flatMap g := by
  rw [List.flatMap_def, List.flatMap_def]
  congr 1
  exact List.map_congr_left h

/-- A level-building pass keeps the stack covered. -/
theorem covered_up {lcap icap : Nat} {F0 : List (Option NodeImage)}
    {cs0 : List (List Entry)} {last0 : List Entry} {L base : Nat} {ch : List (List Entry)}
    {B : List (Option NodeImage)} (hS : Stack lcap icap F0 cs0 last0 L base ch B)
    (cs : List (List Entry)) (last : List Entry) (h2 : 2 ≤ ch.length) (h1 : 1 ≤ icap)
    (hup : upEntries base 0 ch = cs.flatten ++ last) (hcs : ∀ es ∈ cs, es.length = icap)
    (hne : last ≠ []) (hlen : last.length ≤ icap) (keys : List Int)
    (hsorted : keys.Pairwise (fun a b => a ≤ b))
    (hC : Covered F0.length B L base ch keys) :
    Covered F0.length (B ++ levelBlocks NodeKind.index (L + 1) (base + ch.length) cs last)
      (L + 1) (base + ch.length) (cs ++ [last]) keys := by
  have hS' := Stack.up cs last hS h2 h1 hup hcs hne hlen
  obtain ⟨k1, k2, k3⟩ := hC
  have hclosed : ∀ (a : Nat) (x : NodeImage), F0.length ≤ a →
      (BlockFile.mk B).read_block (a : Int) = some x → x.kind = NodeKind.index →
      ∀ p ∈ x.ptr_, ∃ q : Nat, p = (q : Int) ∧ F0.length ≤ q ∧ q < a :=
    fun a x ha hx hk => (k3 a x ha hx).2.2 hk
  have hbase := hS.base_le
  have hlenB := hS.length_eq
  -- entries of the level below: address facts
  have hentry : ∀ e ∈ upEntries base 0 ch, ∃ q : Nat, e.2 = (q : Int) ∧ F0.length ≤ q ∧
      q < B.length ∧ ∃ y, (BlockFile.mk B).read_block (q : Int) = some y ∧
        y.key_.head? = some e.1 := by
    intro e he
    obtain ⟨j, es, hj, rfl⟩ := upEntries_mem _ _ _ _ he
    have hjlt : j < ch.length := (List.getElem?_eq_some_iff.mp hj).1
    obtain ⟨hr, hnes⟩ := hS.read_top j es hj
    refine ⟨base + (0 + j), rfl, by omega, by omega, _, by simpa using hr, ?_⟩
    simpa [nodeImage] using head?_map_fst_of_ne_nil es hnes
  have hg : ∀ e ∈ upEntries base 0 ch,
      subtreeKeys (BlockFile.mk (B ++
        levelBlocks NodeKind.index (L + 1) (base + ch.length) cs last)) (L + 1) e.2 =
      subtreeKeys (BlockFile.mk B) (L + 1) e.2 := by
    intro e he
    obtain ⟨q, hq, hq1, hq2, -⟩ := hentry e he
    rw [hq]
    exact subtreeKeys_append F0.length B _ hclosed _ q hq1 hq2
  have hsub : ∀ es ∈ cs ++ [last], ∀ e ∈ es, e ∈ upEntries base 0 ch := by
    intro es hes e he
    rw [hup]
    have : e ∈ (cs ++ [last]).flatten := List.mem_flatten.mpr ⟨es, hes, he⟩
    simpa using this
  have hflat : (cs ++ [last]).flatten = upEntries base 0 ch := by
    rw [hup]; simp
  have hnode : ∀ j es, (cs ++ [last])[j]? = some es →
      subtreeKeys (BlockFile.mk (B ++
        levelBlocks NodeKind.index (L + 1) (base + ch.length) cs last)) (L + 1 + 1)
        ((base + ch.length + (0 + j) : Nat) : Int) =
      es.flatMap (fun e => subtreeKeys (BlockFile.mk B) (L + 1) e.2) := by
    intro j es hj
    obtain ⟨hr, -⟩ := hS'.read_top j es hj
    simp only [Nat.zero_add]
    rw [subtreeKeys_index _ _ _ _ hr (by simp [nodeImage, childKind])]
    simp only [nodeImage, List.flatMap_def, List.map_map]
    congr 1
    apply List.map_congr_left
    intro e he
    exact hg e (hsub es (List.getElem?_mem hj) e he)
  refine ⟨?_, ?_, ?_⟩
  · rw [upEntries_flatMap (base + ch.length) _
      (fun es => es.flatMap (fun e => subtreeKeys (BlockFile.mk B) (L + 1) e.2)) _ 0 hnode,
      flatMap_flatMap_flatten, hflat]
    exact k1
  · intro e he
    obtain ⟨j, es, hj, rfl⟩ := upEntries_mem _ _ _ _ he
    rw [hnode j es hj]
    obtain ⟨-, -, -, -, -, -, hnonempty⟩ := hS'.top
    have hes : es ≠ [] := hnonempty es (List.getElem?_mem hj)
    obtain ⟨e0, rest, rfl⟩ := List.exists_cons_of_ne_nil hes
    have hmem0 : e0 ∈ upEntries base 0 ch :=
      hsub _ (List.getElem?_mem hj) e0 (List.mem_cons_self _ _)
    simp only [List.flatMap_cons, List.head?_append, k2 e0 hmem0, firstKey, List.map_cons,
      List.head?_cons, Option.getD_some]
    rfl
  · intro a x ha hx
    by_cases hold : a < B.length
    · rw [read_append_left _ _ _ hold] at hx
      obtain ⟨g1, g2, g3⟩ := k3 a x ha hx
      exact ⟨nodeOK_append F0.length B _ hclosed a x ha hx g1, by omega, g3⟩
    · have hlt := read_lt_length _ _ _ hx
      rw [hS'.length_eq] at hlt
      have hj : (cs ++ [last])[a - (base + ch.length)]? =
          some (cs ++ [last])[a - (base + ch.length)] :=
        List.getElem?_eq_getElem (by omega)
      obtain ⟨hr, -⟩ := hS'.read_top (a - (base + ch.length)) _ hj
      have e : base + ch.length + (a - (base + ch.length)) = a := by omega
      rw [e, hx] at hr
      simp only [Option.some.injEq] at hr
      have hkind : childKind (L + 1 + 1) = NodeKind.index := by simp [childKind]
      rw [hkind] at hr
      subst hr
      have hmem := List.getElem?_mem hj
      refine ⟨nodeOK_index _ _ _ _ _ _ ?_ ?_ ?_, Nat.le_refl _, fun _ => ?_⟩
      · intro e he
        rw [hg e (hsub _ hmem e he)]
        exact k2 e (hsub _ hmem e he)
      · rw [flatMap_congr_mem _ _ _ (fun e he => hg e (hsub _ hmem e he))]
        apply pairwise_flatMap_of_mem (cs ++ [last]) _ _ hmem
        rw [hflat, k1]
        exact hsorted
      · intro e he
        obtain ⟨q, hq, hq1, hq2, y, hy, hyk⟩ := hentry e (hsub _ hmem e he)
        refine ⟨y, ?_, hyk⟩
        rw [hq, read_append_left _ _ _ hq2]
        exact hy
      · intro p hp
        simp only [nodeImage, List.mem_map] at hp
        obtain ⟨e, he, rfl⟩ := hp
        obtain ⟨q, hq, hq1, hq2, -⟩ := hentry e (hsub _ hmem e he)
        exact ⟨q, hq, hq1, by omega⟩

/-- Every stack built from a sorted table is covered. -/
theorem Stack.covered {lcap icap : Nat} {F0 : List (Option NodeImage)}
    {cs0 : List (List Entry)} {last0 : List Entry} {L base : Nat} {ch : List (List Entry)}
    {B : List (Option NodeImage)} (h : Stack lcap icap F0 cs0 last0 L base ch B)
    (hsorted : ((cs0.flatten ++ last0).map Prod.fst).Pairwise (fun a b => a ≤ b)) :
    Covered F0.length B L base ch ((cs0.flatten ++ last0).map Prod.fst) := by
  induction h with
  | leaf h1 hcs hne hlen =>
    exact @covered_leaf lcap icap F0 cs0 last0 _ (Stack.leaf h1 hcs hne hlen) hsorted
  | @up L' base' ch' B' cs last hS h2 h1 hup hcs hne hlen ih =>
    exact covered_up hS cs last h2 h1 hup hcs hne hlen _ hsorted ih

theorem sorted_entries (table : List Result) (cs0 : List (List Entry)) (last0 : List Entry)
    (hx : entriesOf table = cs0.flatten ++ last0)
    (hs : (table.map Result.key_).Chain' (fun a b => a ≤ b)) :
    ((cs0.flatten ++ last0).map Prod.fst).Pairwise (fun a b => a ≤ b) ∧
    (cs0.flatten ++ last0).map Prod.fst = table.map Result.key_ := by
  have e : (cs0.flatten ++ last0).map Prod.fst = table.map Result.key_ := by
    rw [← hx]
    simp [entriesOf, Function.comp_def]
  rw [e]
  exact ⟨List.chain'_iff_pairwise.mp hs, rfl⟩

theorem sortedByKey_chain (table : List Result) (h : sortedByKey table = true) :
    (table.map Result.key_).Chain' (fun a b => a ≤ b) := by
  induction table with
  | nil => simp
  | cons a rest ih =>
    cases rest with
    | nil => simp
    | cons b rest =>
      simp only [sortedByKey, Bool.and_eq_true, decide_eq_true_eq] at h
      simp only [List.map_cons, List.chain'_cons]
      exact ⟨h.1, by simpa using ih h.2⟩

/-- Facts about the file after `bulkload` on a non-empty sorted table. -/
theorem bulkload_covered (lcap icap fuel : Nat) (hl : 1 ≤ lcap) (hi : 2 ≤ icap) (t : BTree)
    (table : List Result) (hne : table ≠ []) (hfuel : table.length ≤ fuel)
    (hs : (table.map Result.key_).Chain' (fun a b => a ≤ b)) :
    (∀ (a : Nat) (x : NodeImage), t.file_.blocks.length ≤ a →
      (bulkload lcap icap fuel t table.length table).tree.file_.read_block (a : Int) = some x →
      NodeOK (bulkload lcap icap fuel t table.length table).tree.file_ x) ∧
    subtreeKeys (bulkload lcap icap fuel t table.length table).tree.file_
        (bulkload lcap icap fuel t table.length table).frame.cur_level
        (bulkload lcap icap fuel t table.length table).tree.root_ =
      table.map Result.key_ := by
  obtain ⟨cs0, last0, L, base, c, B, hx, hS, gB, groot, -, -, gl, -⟩ :=
    bulkload_stack lcap icap fuel hl hi t table hne hfuel
  obtain ⟨hp, hk⟩ := sorted_entries table cs0 last0 hx hs
  obtain ⟨k1, -, k3⟩ := hS.covered hp
  rw [blockFile_eq_mk _ _ gB, groot, gl]
  refine ⟨fun a x ha hr => (k3 a x ha hr).1, ?_⟩
  rw [← hk, ← k1]
  simp [upEntries]

/-- Claim C3. After `bulkload` on a table sorted ascending by key, every index
node it built has as many keys and sons as entries, and for every entry `i`:
`key[i]` is the first key of the node stored at `son[i]`, it is among the keys
reachable through `son[i]`, and no key reachable through `son[i]` is smaller.
For a non-empty table the keys reachable from the root are the keys of the
table, in order. -/
theorem C3_index_keys_are_first_keys (lcap icap fuel : Nat) (t : BTree) (table : List Result)
    (hl : 1 ≤ lcap) (hi : 2 ≤ icap) (hfuel : table.length ≤ fuel)
    (hs : sortedByKey table = true) :
    (∀ (a : Nat) (x : NodeImage), t.file_.blocks.length ≤ a →
      (bulkload lcap icap fuel t table.length table).tree.file_.read_block (a : Int) = some x →
      x.kind = NodeKind.index →
      x.key_.length = x.num_entries_ ∧ x.ptr_.length = x.num_entries_ ∧
      FirstKeys (bulkload lcap icap fuel t table.length table).tree.file_ x) ∧
    (table ≠ [] →
      subtreeKeys (bulkload lcap icap fuel t table.length table).tree.file_
          (bulkload lcap icap fuel t table.length table).frame.cur_level
          (bulkload lcap icap fuel t table.length table).tree.root_ =
        table.map Result.key_) := by
  by_cases hne : table = []
  · subst hne
    simp only [List.length_nil, bulkload_nil]
    refine ⟨?_, fun h => absurd rfl h⟩
    intro a x ha hx
    have := read_lt_length t.file_.blocks a x hx
    omega
  · obtain ⟨h1, h2⟩ := bulkload_covered lcap icap fuel hl hi t table hne hfuel (sortedByKey_chain table hs)
    refine ⟨?_, fun _ => h2⟩
    intro a x ha hx hk
    obtain ⟨g1, g2, -, g4⟩ := h1 a x ha hx
    exact ⟨g1, g2, (g4 hk).1⟩

/-- Witness for C3 on the example scenario: the keys reachable from the root are
the keys 0..9 of the table. -/
theorem C3_index_keys_are_first_keys_witness :
    (1 ≤ 4 ∧ 2 ≤ 3 ∧ exampleTable.length ≤ 10 ∧
      sortedByKey exampleTable = true ∧ exampleTable ≠ []) ∧
    subtreeKeys (bulkload 4 3 10 exampleTree exampleTable.length exampleTable).tree.file_
        (bulkload 4 3 10 exampleTree exampleTable.length exampleTable).frame.cur_level
        (bulkload 4 3 10 exampleTree exampleTable.length exampleTable).tree.root_ =
      exampleTable.map Result.key_ :=
  ⟨by decide,
    (C3_index_keys_are_first_keys 4 3 10 exampleTree exampleTable (by decide) (by decide)
      (by decide) (by decide)).2 (by decide)⟩

/-- Claim C4 as stated fails: with leaf capacity 1 and index capacity 2, the
sorted table of two records with the same key 1 yields an index node with the
keys 1, 1; the key 1 reachable through its first son is not smaller than the
next separator 1, so the half-open interval `[key[0], key[1])` is violated. -/
theorem C4_half_open_counterexample :
    (1 ≤ 1 ∧ 2 ≤ 2 ∧ duplicateTable.length ≤ 2 ∧
      sortedByKey duplicateTable = true) ∧
    ¬ (∀ (a : Nat) (x : NodeImage), exampleTree.file_.blocks.length ≤ a →
      (bulkload 1 2 2 exampleTree duplicateTable.length duplicateTable).tree.file_.read_block
        (a : Int) = some x →
      x.kind = NodeKind.index →
      SeparatesHalfOpen
        (bulkload 1 2 2 exampleTree duplicateTable.length duplicateTable).tree.file_ x) := by
  refine ⟨by decide, ?_⟩
  intro h
  have hr : (bulkload 1 2 2 exampleTree duplicateTable.length duplicateTable).tree.file_.read_block
      ((3 : Nat) : Int) =
      some { kind := NodeKind.index, level_ := 1, num_entries_ := 2, left_sibling_ := -1,
             right_sibling_ := -1, key_ := [1, 1], ptr_ := [1, 2] } := by decide
  have h3 := h 3 _ (by decide) hr rfl 0 1 1 rfl rfl 1 (by decide)
  have := h3.2 1 rfl
  omega

/-- Claim C4, amended to a closed upper end. After `bulkload` on a table sorted
ascending by key (equal keys allowed), for every index node it built and every
entry `i`, every key reachable through `son[i]` is at least `key[i]` and, when
`i` is not the last entry, at most `key[i+1]`. -/
theorem C4_separators_closed (lcap icap fuel : Nat) (t : BTree) (table : List Result)
    (hl : 1 ≤ lcap) (hi : 2 ≤ icap) (hfuel : table.length ≤ fuel)
    (hs : sortedByKey table = true) :
    ∀ (a : Nat) (x : NodeImage), t.file_.blocks.length ≤ a →
      (bulkload lcap icap fuel t table.length table).tree.file_.read_block (a : Int) = some x →
      x.kind = NodeKind.index →
      SeparatesClosed (bulkload lcap icap fuel t table.length table).tree.file_ x := by
  by_cases hne : table = []
  · subst hne
    simp only [List.length_nil, bulkload_nil]
    intro a x ha hx
    have := read_lt_length t.file_.blocks a x hx
    omega
  · obtain ⟨h1, -⟩ := bulkload_covered lcap icap fuel hl hi t table hne hfuel (sortedByKey_chain table hs)
    intro a x ha hx hk
    obtain ⟨-, -, -, g4⟩ := h1 a x ha hx
    exact (g4 hk).2

/-- Witness for the amended C4 on the table with a duplicate key: the index
node at block 3 separates its sons with closed intervals. -/
theorem C4_separators_closed_witness :
    (1 ≤ 1 ∧ 2 ≤ 2 ∧ duplicateTable.length ≤ 2 ∧
      sortedByKey duplicateTable = true) ∧
    SeparatesClosed
      (bulkload 1 2 2 exampleTree duplicateTable.length duplicateTable).tree.file_
      { kind := NodeKind.index, level_ := 1, num_entries_ := 2, left_sibling_ := -1,
        right_sibling_ := -1, key_ := [1, 1], ptr_ := [1, 2] } :=
  ⟨by decide,
    C4_separators_closed 1 2 2 exampleTree duplicateTable (by decide) (by decide) (by decide)
      (by decide) 3 _ (by decide) (by decide) rfl⟩

theorem linkedFrom_keys (kind : NodeKind) (level base : Nat) (cs : List (List Entry))
    (j : Nat) :
    ((linkedFrom kind level base j cs).filterMap id).flatMap NodeImage.key_ =
      cs.flatten.map Prod.fst := by
  induction cs generalizing j with
  | nil => simp [linkedFrom]
  | cons es cs ih =>
    simp only [linkedFrom, List.filterMap_cons, id, List.flatMap_cons, ih, List.flatten_cons,
      List.map_append]
    rfl

theorem levelBlocks_keys (kind : NodeKind) (level base : Nat) (cs : List (List Entry))
    (last : List Entry) :
    ((levelBlocks kind level base cs last).filterMap id).flatMap NodeImage.key_ =
      (cs.flatten ++ last).map Prod.fst := by
  unfold levelBlocks
  rw [List.filterMap_append, List.flatMap_append, linkedFrom_keys]
  simp [nodeImage]

theorem pairwise_keysAscending (x : NodeImage) (h : x.key_.Pairwise (fun a b => a ≤ b)) :
    KeysAscending x := by
  intro i ka kb ha hb
  rw [List.pairwise_iff_getElem] at h
  obtain ⟨hlt, heq⟩ := List.getElem?_eq_some_iff.mp ha
  obtain ⟨hlt', heq'⟩ := List.getElem?_eq_some_iff.mp hb
  have := h i (i + 1) hlt hlt' (by omega)
  rw [heq, heq'] at this
  exact this

/-- Claim C5. After `bulkload` on a table sorted ascending by key, every node it
built (leaf or index node, at every level) holds as many keys as entries and
its keys ascend: `key[i] <= key[i+1]` for all valid `i`. Whatever the table,
sorted or not, the keys stored in the created leaves, read leaf after leaf and
slot after slot, are the keys of the table in input order: nothing is sorted
or reordered. -/
theorem C5_keys_ascending (lcap icap fuel : Nat) (t : BTree) (table : List Result)
    (hl : 1 ≤ lcap) (hi : 2 ≤ icap) (hfuel : table.length ≤ fuel) :
    (sortedByKey table = true →
      ∀ (a : Nat) (x : NodeImage), t.file_.blocks.length ≤ a →
        (bulkload lcap icap fuel t table.length table).tree.file_.read_block (a : Int) =
          some x →
        x.key_.length = x.num_entries_ ∧ KeysAscending x) ∧
    leafKeys t.file_ (bulkload lcap icap fuel t table.length table).tree.file_ =
      table.map Result.key_ := by
  by_cases hne : table = []
  · subst hne
    simp only [List.length_nil, bulkload_nil]
    refine ⟨?_, by simp [leafKeys, createdImages]⟩
    intro _ a x ha hx
    have := read_lt_length t.file_.blocks a x hx
    omega
  · constructor
    · intro hs a x ha hx
      obtain ⟨h1, -⟩ := bulkload_covered lcap icap fuel hl hi t table hne hfuel
        (sortedByKey_chain table hs)
      obtain ⟨g1, -, g3, -⟩ := h1 a x ha hx
      exact ⟨g1, pairwise_keysAscending x g3⟩
    · obtain ⟨cs0, last0, L, base, c, B, hx, hS, gB, -⟩ :=
        bulkload_stack lcap icap fuel hl hi t table hne hfuel
      obtain ⟨rest, hB, hrest⟩ := hS.leaf_segment
      rw [blockFile_eq_mk _ _ gB, blockFile_eq_mk t.file_ _ rfl, hB]
      simp only [leafKeys, createdImages, List.append_assoc, List.drop_left,
        List.filterMap_append, List.filter_append]
      have h1 : (List.filterMap id (levelBlocks NodeKind.leaf 0 t.file_.blocks.length cs0
          last0)).filter (fun img => decide (img.kind = NodeKind.leaf)) =
          List.filterMap id (levelBlocks NodeKind.leaf 0 t.file_.blocks.length cs0 last0) := by
        rw [List.filter_eq_self]
        intro img himg
        simp [(levelBlocks_kinds _ _ _ _ _ img himg).1]
      have h2 : (List.filterMap id rest).filter (fun img => decide (img.kind = NodeKind.leaf)) =
          [] := by
        rw [List.filter_eq_nil_iff]
        intro img himg
        rw [List.mem_filterMap] at himg
        obtain ⟨o, ho, hid⟩ := himg
        obtain ⟨img', rfl, hk⟩ := hrest o ho
        simp only [id, Option.some.injEq] at hid
        subst hid
        simp [hk]
      rw [h1, h2, List.append_nil, levelBlocks_keys, ← hx]
      simp [entriesOf, Function.comp_def]

/-- Witness for C5 on the example scenario: the index node at block 4 holds the
ascending keys 0, 4, 8, and the leaves hold the keys 0..9 in input order. -/
theorem C5_keys_ascending_witness :
    (1 ≤ 4 ∧ 2 ≤ 3 ∧ exampleTable.length ≤ 10 ∧ sortedByKey exampleTable = true) ∧
    KeysAscending { kind := NodeKind.index, level_ := 1, num_entries_ := 3,
                    left_sibling_ := -1, right_sibling_ := -1, key_ := [0, 4, 8],
                    ptr_ := [1, 2, 3] } ∧
    leafKeys exampleTree.file_
        (bulkload 4 3 10 exampleTree exampleTable.length exampleTable).tree.file_ =
      exampleTable.map Result.key_ :=
  ⟨by decide,
    ((C5_keys_ascending 4 3 10 exampleTree exampleTable (by decide) (by decide)
      (by decide)).1 (by decide) 4 _ (by decide) (by decide)).2,
    (C5_keys_ascending 4 3 10 exampleTree exampleTable (by decide) (by decide) (by decide)).2⟩

/-! ### Top-K list: extremes, reset, insertion -/

theorem sortedByKey_pairwise (l : List Result) (h : sortedByKey l = true) :
    (l.map Result.key_).Pairwise (fun a b => a ≤ b) := by
  have hc := sortedByKey_chain l h
  exact (List.chain'_iff_pairwise).1 hc

theorem storedKeys_length (s : MinK_List) (h : s.num_.toNat ≤ s.list_.length) :
    s.storedKeys.length = s.num_.toNat := by
  simp [MinK_List.storedKeys, MinK_List.stored, h]

theorem storedKeys_getElem? (s : MinK_List) (i : Nat) (h : i < s.num_.toNat) :
    s.storedKeys[i]? = (s.list_[i]?).map Result.key_ := by
  simp [MinK_List.storedKeys, MinK_List.stored, List.getElem?_take, h]

/-- Claim C11. For a Top-K list of capacity `k_ >= 1` with `num_ <= k_`, an array of at least `k_` slots and populated slots ascending by key:
`min_key()` is `MAXREAL` when `num_ = 0` and the smallest stored key when
`num_ > 0`; `max_key()` is `MAXREAL` whenever `num_ < k_` and the largest stored
key when `num_ = k_`. -/
theorem C11_min_key_max_key (s : MinK_List) (hk : 1 ≤ s.k_)
    (hn : s.num_ ≤ s.k_) (hlen : s.k_ ≤ (s.list_.length : Int))
    (hasc : sortedByKey s.stored = true) :
    (s.num_ = 0 → s.min_key = some MAXREAL) ∧
    (0 < s.num_ →
      ∃ m, s.min_key = some m ∧ m ∈ s.storedKeys ∧ ∀ x ∈ s.storedKeys, m ≤ x) ∧
    (s.num_ < s.k_ → s.max_key = some MAXREAL) ∧
    (s.num_ = s.k_ →
      ∃ M, s.max_key = some M ∧ M ∈ s.storedKeys ∧ ∀ x ∈ s.storedKeys, x ≤ M) := by
  have hp : s.storedKeys.Pairwise (fun a b => a ≤ b) := sortedByKey_pairwise _ hasc
  have hle : s.num_.toNat ≤ s.list_.length := by omega
  have hKl := storedKeys_length s hle
  rw [List.pairwise_iff_getElem] at hp
  refine ⟨?_, ?_, ?_, ?_⟩
  · intro h
    simp [MinK_List.min_key, MinK_List.min_key_access, h, MinK_List.keyOf]
  · intro hpos
    have h0lt : 0 < s.storedKeys.length := by omega
    refine ⟨s.storedKeys[0], ?_, List.getElem_mem _, ?_⟩
    · have e := storedKeys_getElem? s 0 (by omega)
      rw [List.getElem?_eq_getElem h0lt] at e
      simp [MinK_List.min_key, MinK_List.min_key_access, hpos, MinK_List.keyOf,
        MinK_List.read, ← e]
    · intro x hx
      obtain ⟨i, hi, rfl⟩ := List.getElem_of_mem hx
      rcases Nat.eq_zero_or_pos i with h | h
      · subst h; exact le_refl _
      · exact hp 0 i h0lt hi h
  · intro h
    have : ¬ s.num_ ≥ s.k_ := by omega
    simp [MinK_List.max_key, MinK_List.max_key_access, this, MinK_List.keyOf]
  · intro h
    have hlast : s.k_.toNat - 1 < s.storedKeys.length := by omega
    refine ⟨s.storedKeys[s.k_.toNat - 1], ?_, List.getElem_mem _, ?_⟩
    · have e := storedKeys_getElem? s (s.k_.toNat - 1) (by omega)
      rw [List.getElem?_eq_getElem hlast] at e
      have e2 : (s.k_ - 1).toNat = s.k_.toNat - 1 := by omega
      have e3 : 0 ≤ s.k_ - 1 := by omega
      simp [MinK_List.max_key, MinK_List.max_key_access, h, MinK_List.keyOf,
        MinK_List.read, e3, e2, ← e]
    · intro x hx
      obtain ⟨i, hi, rfl⟩ := List.getElem_of_mem hx
      rcases Nat.lt_or_ge i (s.k_.toNat - 1) with h1 | h1
      · exact hp i _ hi hlast h1
      · have : i = s.k_.toNat - 1 := by omega
        subst this; exact le_refl _

/-- Witness for C11: the lists of the example, keys 2, 5, 8 and keys 1, 2, 5 with
`k = 3`, have `max_key()` 8 and 5. -/
theorem C11_min_key_max_key_witness :
    exampleList258.max_key = some 8 ∧ exampleList125.max_key = some 5 ∧
    exampleList258.min_key = some 2 ∧ exampleList.max_key = some MAXREAL ∧
    (∃ M, exampleList258.max_key = some M ∧ M ∈ exampleList258.storedKeys ∧
      ∀ x ∈ exampleList258.storedKeys, x ≤ M) :=
  ⟨by decide, by decide, by decide, by decide,
    (C11_min_key_max_key exampleList258 (by decide) (by decide) (by decide)
      (by decide)).2.2.2 (by decide)⟩

/-- Claim C14. `reset()` sets `num_` to 0 and leaves `k_` and the array
unchanged; afterwards `size()` is 0, `min_key()` is `MAXREAL`, `ith_key(i)` is
`MAXREAL` and `ith_id(i)` is `MININT` for every `i >= 0`, and `isFull()` is
false when `k_ >= 1`. -/
theorem C14_reset_frame (s : MinK_List) :
    s.reset.num_ = 0 ∧ s.reset.k_ = s.k_ ∧ s.reset.list_ = s.list_ ∧
    s.reset.size = 0 ∧ s.reset.min_key = some MAXREAL ∧
    (∀ i : Int, 0 ≤ i → s.reset.ith_key i = some MAXREAL ∧ s.reset.ith_id i = some MININT) ∧
    (1 ≤ s.k_ → s.reset.isFull = false) := by
  refine ⟨rfl, rfl, rfl, rfl, ?_, ?_, ?_⟩
  · simp [MinK_List.reset, MinK_List.min_key, MinK_List.min_key_access, MinK_List.keyOf]
  · intro i hi
    have : ¬ i < 0 := by omega
    simp [MinK_List.reset, MinK_List.ith_key, MinK_List.ith_key_access, MinK_List.keyOf,
      MinK_List.ith_id, MinK_List.ith_id_access, MinK_List.idOf, this]
  · intro hk
    have : ¬ (0 : Int) ≥ s.k_ := by omega
    simp [MinK_List.reset, MinK_List.isFull, this]

/-- Witness for C14: the reset of the example list holding two records. -/
theorem C14_reset_frame_witness :
    exampleList.reset.list_ = exampleList.list_ ∧
    exampleList.reset.ith_key 0 = some MAXREAL ∧ exampleList.reset.ith_id 1 = some MININT ∧
    exampleList.reset.isFull = false :=
  ⟨(C14_reset_frame exampleList).2.2.1,
    ((C14_reset_frame exampleList).2.2.2.2.2.1 0 (by decide)).1,
    ((C14_reset_frame exampleList).2.2.2.2.2.1 1 (by decide)).2,
    (C14_reset_frame exampleList).2.2.2.2.2.2 (by decide)⟩
theorem insertSorted_perm (r : Result) (l : List Result) :
    (insertSorted r l).Perm (r :: l) := by
  induction l with
  | nil => simp [insertSorted]
  | cons x xs ih =>
    simp only [insertSorted]
    split_ifs
    · exact (List.Perm.cons x ih).trans (List.Perm.swap r x xs)
    · exact List.Perm.refl _

theorem insertSorted_length (r : Result) (l : List Result) :
    (insertSorted r l).length = l.length + 1 := by
  simpa using (insertSorted_perm r l).length_eq

theorem mem_insertSorted (r x : Result) (l : List Result) :
    x ∈ insertSorted r l ↔ x = r ∨ x ∈ l := by
  simpa using (insertSorted_perm r l).mem_iff

theorem insertSorted_pairwise (r : Result) (l : List Result)
    (h : l.Pairwise (fun a b => a.key_ ≤ b.key_)) :
    (insertSorted r l).Pairwise (fun a b => a.key_ ≤ b.key_) := by
  induction l with
  | nil => simp [insertSorted]
  | cons x xs ih =>
    simp only [insertSorted]
    rw [List.pairwise_cons] at h
    split_ifs with hlt
    · rw [List.pairwise_cons]
      refine ⟨?_, ih h.2⟩
      intro y hy
      rcases (mem_insertSorted r y xs).1 hy with rfl | hy
      · omega
      · exact h.1 y hy
    · rw [List.pairwise_cons, List.pairwise_cons]
      refine ⟨?_, h⟩
      intro y hy
      rcases List.mem_cons.1 hy with rfl | hy
      · omega
      · have := h.1 y hy; omega

theorem stored_mk (k n : Int) (st tl : List Result) (h : n = (st.length : Int)) :
    MinK_List.stored { k_ := k, num_ := n, list_ := st ++ tl } = st := by
  simp [MinK_List.stored, h]

theorem holdsSmallest_empty (k : Nat) (arr : List Result) :
    HoldsSmallest k (MinK_List.empty (k : Int) arr) [] := by
  refine ⟨rfl, by simp [MinK_List.empty], by simp [MinK_List.empty, MinK_List.stored],
    by simp [MinK_List.empty, MinK_List.stored, MinK_List.storedKeys], [], ?_, ?_⟩
  · simp [MinK_List.empty, MinK_List.stored]
  · simp [MinK_List.empty, MinK_List.stored]

theorem holdsSmallest_insert (k : Nat) (hk : 1 ≤ k) (s : MinK_List) (ins : List Result)
    (r : Result) (h : HoldsSmallest k s ins) :
    HoldsSmallest k (s.insert r.key_ r.id_) (ins ++ [r]) := by
  obtain ⟨hK, hnum, hlen, hsort, rest, hperm, hbound⟩ := h
  have hsort' : s.stored.Pairwise (fun a b => a.key_ ≤ b.key_) := by
    simpa [MinK_List.storedKeys, List.pairwise_map] using hsort
  have hr : (⟨r.key_, r.id_⟩ : Result) = r := rfl
  have hcount : s.stored.length + rest.length = ins.length := by
    simpa using hperm.length_eq
  unfold MinK_List.insert
  rw [hr]
  by_cases hfull : s.num_ < s.k_
  · rw [if_pos hfull]
    have hlt : ins.length < k := by
      rw [hK, hnum] at hfull
      have : min k ins.length < k := by exact_mod_cast hfull
      omega
    have hmin : min k ins.length = ins.length := by omega
    have hrest : rest = [] := by
      apply List.eq_nil_of_length_eq_zero; omega
    subst hrest
    have hst : MinK_List.stored
        { k_ := s.k_, num_ := s.num_ + 1,
          list_ := insertSorted r s.stored ++ s.list_.drop (insertSorted r s.stored).length }
          = insertSorted r s.stored := by
      apply stored_mk
      rw [insertSorted_length, hnum, hmin, hlen, hmin]; push_cast; rfl
    refine ⟨hK, ?_, ?_, ?_, [], ?_, ?_⟩
    · show s.num_ + 1 = _
      rw [hnum, hmin]
      have : min k (ins ++ [r]).length = ins.length + 1 := by simp; omega
      rw [this]; push_cast; rfl
    · show (MinK_List.stored _).length = _
      rw [hst, insertSorted_length, hlen, hmin]; simp; omega
    · show ((MinK_List.stored _).map Result.key_).Pairwise _
      rw [hst, List.pairwise_map]
      exact insertSorted_pairwise r _ hsort'
    · show (MinK_List.stored _ ++ []).Perm _
      rw [hst]
      simp only [List.append_nil] at hperm ⊢
      exact (insertSorted_perm r _).trans
        ((List.Perm.cons r hperm).trans (List.perm_append_singleton r ins).symm)
    · intro x _ y hy; simp at hy
  · rw [if_neg hfull]
    have hge : k ≤ ins.length := by
      rw [hK, hnum] at hfull
      have : ¬ min k ins.length < k := by exact_mod_cast hfull
      omega
    have hmin : min k ins.length = k := by omega
    have hmin' : min k (ins ++ [r]).length = k := by simp; omega
    have hne : s.stored ≠ [] := by
      intro h0; rw [h0] at hlen; simp at hlen; omega
    obtain ⟨init, mx, hsplit⟩ : ∃ init mx, s.stored = init ++ [mx] :=
      ⟨s.stored.dropLast, s.stored.getLast hne, (List.dropLast_append_getLast hne).symm⟩
    have hlast : s.stored.getLast? = some mx := by rw [hsplit]; simp
    have hdrop : s.stored.dropLast = init := by rw [hsplit]; simp
    rw [hlast]
    simp only
    rw [hsplit] at hsort' hperm hbound hlen
    rw [List.pairwise_append] at hsort'
    by_cases hkey : r.key_ < mx.key_
    · rw [if_pos hkey, hdrop]
      have hst : MinK_List.stored
          { k_ := s.k_, num_ := s.num_,
            list_ := insertSorted r init ++ s.list_.drop (insertSorted r init).length }
            = insertSorted r init := by
        apply stored_mk
        rw [insertSorted_length, hnum, hmin]
        simp at hlen; omega
      refine ⟨hK, ?_, ?_, ?_, mx :: rest, ?_, ?_⟩
      · show s.num_ = _
        rw [hnum, hmin, hmin']
      · show (MinK_List.stored _).length = _
        rw [hst, insertSorted_length, hmin']; simp at hlen; omega
      · show ((MinK_List.stored _).map Result.key_).Pairwise _
        rw [hst, List.pairwise_map]
        exact insertSorted_pairwise r _ hsort'.1
      · show (MinK_List.stored _ ++ mx :: rest).Perm _
        rw [hst]
        have h1 : (insertSorted r init ++ mx :: rest).Perm (r :: (init ++ mx :: rest)) :=
          List.Perm.append_right _ (insertSorted_perm r init)
        have h2 : (init ++ mx :: rest).Perm ins := by simpa using hperm
        exact h1.trans ((List.Perm.cons r h2).trans (List.perm_append_singleton r ins).symm)
      · show ∀ x ∈ MinK_List.stored _, _
        rw [hst]
        intro x hx y hy
        have hmxy : ∀ y ∈ rest, mx.key_ ≤ y.key_ := fun y hy =>
          hbound mx (by simp) y hy
        have hxmx : ∀ x ∈ init, x.key_ ≤ mx.key_ := fun x hx =>
          hsort'.2.2 x hx mx (by simp)
        rcases (mem_insertSorted r x init).1 hx with rfl | hx
        · rcases List.mem_cons.1 hy with rfl | hy
          · omega
          · have := hmxy y hy; omega
        · rcases List.mem_cons.1 hy with rfl | hy
          · exact hxmx x hx
          · exact hbound x (by simp [hx]) y hy
    · rw [if_neg hkey]
      refine ⟨hK, ?_, ?_, hsort, rest ++ [r], ?_, ?_⟩
      · rw [hnum, hmin, hmin']
      · rw [hsplit, hlen, hmin, hmin']
      · rw [hsplit, ← List.append_assoc]
        exact List.Perm.append_right _ hperm
      · rw [hsplit]
        intro x hx y hy
        rcases List.mem_append.1 hy with hy | hy
        · exact hbound x hx y hy
        · simp at hy; subst hy
          have : x.key_ ≤ mx.key_ := by
            rcases List.mem_append.1 hx with hx | hx
            · exact hsort'.2.2 x hx mx (by simp)
            · simp at hx; subst hx; exact le_refl _
          omega

theorem holdsSmallest_insertAll (k : Nat) (hk : 1 ≤ k) (rs : List Result) :
    ∀ (s : MinK_List) (ins : List Result), HoldsSmallest k s ins →
      HoldsSmallest k (s.insertAll rs) (ins ++ rs) := by
  induction rs with
  | nil => intro s ins h; simpa [MinK_List.insertAll] using h
  | cons r rs ih =>
    intro s ins h
    have h1 := ih _ _ (holdsSmallest_insert k hk s ins r h)
    simpa [MinK_List.insertAll] using h1

theorem getElem?_of_take {α : Type} (l : List α) (n i : Nat) (x : α)
    (h : (l.take n)[i]? = some x) : l[i]? = some x := by
  rw [List.getElem?_take] at h
  split_ifs at h
  exact h

theorem insert_noop (s : MinK_List) (key id M : Int)
    (hnum : s.num_ = (s.stored.length : Int)) (hk : s.num_ = s.k_)
    (hmax : s.max_key = some M) (hle : M ≤ key) : s.insert key id = s := by
  have hge : ¬ s.num_ < s.k_ := by omega
  unfold MinK_List.insert
  rw [if_neg hge]
  cases hl : s.stored.getLast? with
  | none => rfl
  | some mx =>
    simp only
    have hM : M = mx.key_ := by
      have hne : s.stored ≠ [] := by intro h0; simp [h0] at hl
      have hpos : 0 < s.stored.length := List.length_pos.2 hne
      have h1 : s.list_[s.stored.length - 1]? = some mx := by
        have : s.stored[s.stored.length - 1]? = some mx := by
          rw [← hl, List.getLast?_eq_getElem?]
        exact getElem?_of_take _ _ _ _ this
      have e1 : (s.k_ - 1).toNat = s.stored.length - 1 := by omega
      have e2 : 0 ≤ s.k_ - 1 := by omega
      have e3 : s.num_ ≥ s.k_ := by omega
      simp only [MinK_List.max_key, MinK_List.max_key_access, if_pos e3, MinK_List.keyOf,
        MinK_List.read, if_pos e2, e1, h1] at hmax
      simpa using hmax.symm
    have : ¬ key < mx.key_ := by omega
    rw [if_neg this]

/-- Claim C12. For `k >= 1` and any sequence `ins` of insertions into an
initially empty Top-K list (the model of `insert` follows spec 4.6): afterwards
the list holds `min(k, count)` records, ascending by key, and they are the
`min(k, count)` smallest-key records of the sequence (the inserted records split
into the stored ones and the others, and no other record has a key smaller than
a stored one); and inserting into the full list a key that is at least its
current maximum leaves the list unchanged. -/
theorem C12_insert_keeps_k_smallest (k : Nat) (hk : 1 ≤ k) (arr ins : List Result) :
    HoldsSmallest k ((MinK_List.empty (k : Int) arr).insertAll ins) ins ∧
    ∀ key id M : Int, ((MinK_List.empty (k : Int) arr).insertAll ins).isFull = true →
      ((MinK_List.empty (k : Int) arr).insertAll ins).max_key = some M → M ≤ key →
      ((MinK_List.empty (k : Int) arr).insertAll ins).insert key id =
        (MinK_List.empty (k : Int) arr).insertAll ins := by
  have h := holdsSmallest_insertAll k hk ins _ [] (holdsSmallest_empty k arr)
  simp only [List.nil_append] at h
  refine ⟨h, ?_⟩
  intro key id M hfull hmax hle
  obtain ⟨hK, hnum, hlen, -, -⟩ := h
  have hfull' : ((MinK_List.empty (k : Int) arr).insertAll ins).num_ ≥
      ((MinK_List.empty (k : Int) arr).insertAll ins).k_ := by
    simpa [MinK_List.isFull] using hfull
  refine insert_noop _ key id M ?_ ?_ hmax hle
  · rw [hnum, hlen]
  · rw [hK, hnum] at hfull' ⊢
    have : (k : Int) ≤ ((min k ins.length : Nat) : Int) := hfull'
    have : k ≤ min k ins.length := by exact_mod_cast this
    have : min k ins.length = k := by omega
    rw [this]

/-- Witness for C12: `k = 3` and the insertions (5,a), (2,b), (8,c), (1,d),
(9,e) end with the records (1,d), (2,b), (5,a); the maximum after the third
insertion is 8 and after the fourth 5; inserting the key 9 changes nothing. -/
theorem C12_insert_keeps_k_smallest_witness :
    ((MinK_List.empty 3 []).insertAll exampleInserts).stored = [⟨1, 3⟩, ⟨2, 1⟩, ⟨5, 0⟩] ∧
    ((MinK_List.empty 3 []).insertAll (exampleInserts.take 3)).max_key = some 8 ∧
    ((MinK_List.empty 3 []).insertAll (exampleInserts.take 4)).max_key = some 5 ∧
    HoldsSmallest 3 ((MinK_List.empty ((3 : Nat) : Int) []).insertAll exampleInserts)
      exampleInserts ∧
    ((MinK_List.empty ((3 : Nat) : Int) []).insertAll exampleInserts).insert 9 4 =
      (MinK_List.empty ((3 : Nat) : Int) []).insertAll exampleInserts :=
  ⟨by decide, by decide, by decide,
    (C12_insert_keeps_k_smallest 3 (by decide) [] exampleInserts).1,
    (C12_insert_keeps_k_smallest 3 (by decide) [] exampleInserts).2 9 4 5 (by decide)
      (by decide) (by decide)⟩

/-! ### Events appended by the steps of a pass -/

theorem attach_trace (kind : NodeKind) (level cap : Nat) (s : Frame) :
    ∃ ev, (attach kind level cap s).trace = s.trace ++ ev ∧ ∀ e ∈ ev, e.isBuild = true := by
  unfold attach
  cases ha : s.act_nd with
  | some a => exact ⟨[], by simp, by simp⟩
  | none =>
    simp only
    cases hf : s.first_node with
    | true =>
      exact ⟨[Event.acquire Role.built level
        (BNode.init kind level cap s.file_.blocks.length).get_block], by simp,
        by simp [Event.isBuild]⟩
    | false =>
      simp only [Bool.false_eq_true, if_false]
      cases hp : s.prev_nd with
      | none =>
        exact ⟨[Event.acquire Role.built level
          (BNode.init kind level cap s.file_.blocks.length).get_block], by simp,
          by simp [Event.isBuild]⟩
      | some prev =>
        exact ⟨[Event.acquire Role.built level
          (BNode.init kind level cap s.file_.blocks.length).get_block,
          Event.release Role.built prev.get_block], by simp, by simp [Event.isBuild]⟩

theorem fill_trace (kind : NodeKind) (s : Frame) (k p : Int) :
    ∃ ev, (fill kind s k p).trace = s.trace ++ ev ∧ ∀ e ∈ ev, e.isBuild = true := by
  unfold fill
  cases ha : s.act_nd with
  | none => exact ⟨[], by simp, by simp⟩
  | some a =>
    simp only
    split
    · exact ⟨[Event.add_new_child a.get_block a.num_entries_ a.capacity_], by simp,
        by simp [Event.isBuild]⟩
    · exact ⟨[Event.add_new_child a.get_block a.num_entries_ a.capacity_], by simp,
        by simp [Event.isBuild]⟩

theorem put_trace (kind : NodeKind) (level cap : Nat) (s : Frame) (k p : Int) :
    ∃ ev, (put kind level cap s k p).trace = s.trace ++ ev ∧ ∀ e ∈ ev, e.isBuild = true := by
  unfold put
  split
  · exact ⟨[], by simp, by simp⟩
  · obtain ⟨ev1, h1, g1⟩ := attach_trace kind level cap s
    simp only
    split
    · exact ⟨ev1, h1, g1⟩
    · obtain ⟨ev2, h2, g2⟩ := fill_trace kind (attach kind level cap s) k p
      refine ⟨ev1 ++ ev2, by rw [h2, h1, List.append_assoc], ?_⟩
      intro e he
      rcases List.mem_append.1 he with he | he
      · exact g1 e he
      · exact g2 e he

theorem cleanup_trace (s : Frame) :
    ∃ ev, (cleanup s).trace = s.trace ++ ev ∧ ∀ e ∈ ev, e.isBuild = true := by
  unfold cleanup
  split
  · exact ⟨[], by simp, by simp⟩
  · cases hp : s.prev_nd with
    | none =>
      cases ha : s.act_nd with
      | none => exact ⟨[], by simp [ha], by simp⟩
      | some a =>
        exact ⟨[Event.release Role.built a.get_block], by simp [ha], by simp [Event.isBuild]⟩
    | some prev =>
      cases ha : s.act_nd with
      | none =>
        exact ⟨[Event.release Role.built prev.get_block], by simp [ha],
          by simp [Event.isBuild]⟩
      | some a =>
        exact ⟨[Event.release Role.built prev.get_block, Event.release Role.built a.get_block],
          by simp [ha], by simp [Event.isBuild]⟩

theorem restoresOf_build (tr ev : List Event) (h : ∀ e ∈ ev, e.isBuild = true) :
    restoresOf (tr ++ ev) = restoresOf tr := by
  unfold restoresOf
  rw [List.filterMap_append]
  have : List.filterMap (fun e =>
      match e with
      | Event.acquire Role.read l b => some (l, b)
      | _ => none) ev = [] := by
    rw [List.filterMap_eq_nil_iff]
    intro e he
    have := h e he
    cases e with
    | acquire r l b => cases r <;> simp [Event.isBuild] at this ⊢
    | release r b => rfl
    | add_new_child b n c => rfl
    | get_key_of_node b n => rfl
  rw [this, List.append_nil]

theorem keyReadsPopulated_build (tr ev : List Event) (h : ∀ e ∈ ev, e.isBuild = true)
    (h0 : KeyReadsPopulated tr) : KeyReadsPopulated (tr ++ ev) := by
  intro b ne hmem
  rcases List.mem_append.1 hmem with hmem | hmem
  · exact h0 b ne hmem
  · have := h _ hmem
    simp [Event.isBuild] at this

theorem levelBody_foldl_trace (lcap icap : Nat) (hcap : 1 ≤ icap) (s0 : Frame) (lv : Nat)
    (ys : List Int)
    (hys : ∀ i ∈ ys, ∃ img, s0.file_.read_block i = some img ∧
      img.kind = childKind s0.cur_level ∧ img.key_ ≠ [] ∧ img.level_ = lv ∧
      1 ≤ img.num_entries_)
    (s : Frame) (xs : List Entry) (h : PassInv NodeKind.index s0.cur_level icap s0 s xs) :
    restoresOf (List.foldl (levelBody lcap icap) s ys).trace =
        restoresOf s.trace ++ ys.map (fun i => (lv, i)) ∧
      (KeyReadsPopulated s.trace →
        KeyReadsPopulated (List.foldl (levelBody lcap icap) s ys).trace) := by
  induction ys generalizing s xs with
  | nil => simp
  | cons y ys ih =>
    obtain ⟨img, hr, hk, hne, hlv, hpos⟩ := hys y (by simp)
    have e := levelBody_eq lcap icap s0 s xs h y img hr hk hne
    have h' := passInv_put NodeKind.index s0.cur_level icap hcap s0 _ xs
      (entryOf s0.file_ y).1 (entryOf s0.file_ y).2
      (passInv_untraced _ _ _ _ _ _ h (s.trace ++ [Event.acquire Role.read img.level_ y,
          Event.get_key_of_node y img.num_entries_, Event.release Role.read y]))
    obtain ⟨ev, hev, hbuild⟩ := put_trace NodeKind.index s0.cur_level icap
      { s with child := none,
               trace := s.trace ++ [Event.acquire Role.read img.level_ y,
                 Event.get_key_of_node y img.num_entries_, Event.release Role.read y] }
      (entryOf s0.file_ y).1 (entryOf s0.file_ y).2
    rw [← e] at h' hev
    obtain ⟨ih1, ih2⟩ := ih (fun i hi => hys i (by simp [hi])) _ _ h'
    simp only [List.foldl_cons]
    constructor
    · rw [ih1, hev, restoresOf_build _ _ hbuild]
      simp [restoresOf, List.filterMap_append, hlv]
    · intro h0
      apply ih2
      rw [hev]
      apply keyReadsPopulated_build _ _ hbuild
      intro b ne hmem
      rcases List.mem_append.1 hmem with hmem | hmem
      · exact h0 b ne hmem
      · simp at hmem
        obtain ⟨-, rfl⟩ := hmem
        exact hpos

theorem levelPass_trace_eq (lcap icap : Nat) (s : Frame) :
    (levelPass lcap icap s).trace =
      (cleanup (List.foldl (levelBody lcap icap) { s with first_node := true }
        (addrRange s.last_start_block s.last_end_block))).trace := by
  unfold levelPass
  simp only
  split <;> rfl

/-- Restorations of one level-building pass on top of a stack: the nodes of the
topmost level, each once, in address order. -/
theorem levelPass_trace {lcap icap : Nat} {F0 : List (Option NodeImage)}
    {cs0 : List (List Entry)} {last0 : List Entry} {L base : Nat} {ch : List (List Entry)}
    {B : List (Option NodeImage)} (hS : Stack lcap icap F0 cs0 last0 L base ch B) (s : Frame)
    (hs : AtLevel s L base ch.length B) (hcap : 1 ≤ icap) :
    restoresOf (levelPass lcap icap s).trace =
        restoresOf s.trace ++
          (addrRange s.last_start_block s.last_end_block).map (fun i => (L, i)) ∧
      (KeyReadsPopulated s.trace → KeyReadsPopulated (levelPass lcap icap s).trace) := by
  obtain ⟨hB, hls, hle, hl, hf, hd, hc, hp, ha⟩ := hs
  have hfile : s.file_ = BlockFile.mk B := by cases hs' : s.file_; simp [hs'] at hB; simp [hB]
  obtain ⟨s0, hs0⟩ : ∃ s0 : Frame, s0 = { s with first_node := true } := ⟨_, rfl⟩
  have hl0 : s0.cur_level = L + 1 := by rw [hs0]; exact hl
  have hfile0 : s0.file_ = BlockFile.mk B := by rw [hs0]; exact hfile
  have h0 : PassInv NodeKind.index s0.cur_level icap s0 s0 [] :=
    passInv_start _ _ _ _ (by rw [hs0]; exact hf) (by rw [hs0]; exact hc) (by rw [hs0]; exact hp)
      (by rw [hs0]; exact ha) (by rw [hs0])
  have hys : ∀ i ∈ addrRange s.last_start_block s.last_end_block,
      ∃ img, s0.file_.read_block i = some img ∧ img.kind = childKind s0.cur_level ∧
        img.key_ ≠ [] ∧ img.level_ = L ∧ 1 ≤ img.num_entries_ := by
    intro i hi
    rw [hls, hle, addrRange_eq] at hi
    simp only [List.mem_map, List.mem_range] at hi
    obtain ⟨j, hj, rfl⟩ := hi
    obtain ⟨hr, hne⟩ := hS.read_top j _ (List.getElem?_eq_getElem hj)
    refine ⟨_, by rw [hfile0]; exact hr, by rw [hl0]; rfl, ?_, rfl, ?_⟩
    · simpa [nodeImage] using hne
    · exact List.length_pos.2 hne
  obtain ⟨g1, g2⟩ := levelBody_foldl_trace lcap icap hcap s0 L
    (addrRange s.last_start_block s.last_end_block) hys s0 [] h0
  obtain ⟨ev, hev, hbuild⟩ := cleanup_trace (List.foldl (levelBody lcap icap) s0
    (addrRange s.last_start_block s.last_end_block))
  rw [levelPass_trace_eq, ← hs0, hev]
  have ht : s0.trace = s.trace := by rw [hs0]
  constructor
  · rw [restoresOf_build _ _ hbuild, g1, ht]
  · intro hk
    exact keyReadsPopulated_build _ _ hbuild (g2 (by rw [ht]; exact hk))

/-- The `while` loop started on a stack, whatever the fuel: the frame reached
stands on a stack again; the loop was left exactly when the topmost level is a
single node; and every `get_key_of_node` call was made on a populated node. -/
theorem whileLoop_onLevel {lcap icap : Nat} (hcap : 1 ≤ icap) {F0 : List (Option NodeImage)}
    {cs0 : List (List Entry)} {last0 : List Entry} (fuel : Nat) :
    ∀ {L base : Nat} {ch : List (List Entry)} {B : List (Option NodeImage)} (s : Frame),
      Stack lcap icap F0 cs0 last0 L base ch B → AtLevel s L base ch.length B →
      KeyReadsPopulated s.trace →
      ∃ L' base' ch' B', Stack lcap icap F0 cs0 last0 L' base' ch' B' ∧
        OnLevel (whileLoop lcap icap fuel s) L' base' ch'.length B' ∧
        ((whileLoop lcap icap fuel s).done = false → 2 ≤ ch'.length) ∧
        ((whileLoop lcap icap fuel s).done = true → ch'.length = 1) ∧
        KeyReadsPopulated (whileLoop lcap icap fuel s).trace := by
  have hstop : ∀ {L base : Nat} {ch : List (List Entry)} {B : List (Option NodeImage)}
      (s : Frame) (k : Nat), Stack lcap icap F0 cs0 last0 L base ch B →
      AtLevel s L base ch.length B → KeyReadsPopulated s.trace → ¬ 2 ≤ ch.length →
      ∃ L' base' ch' B', Stack lcap icap F0 cs0 last0 L' base' ch' B' ∧
        OnLevel (whileLoop lcap icap k s) L' base' ch'.length B' ∧
        ((whileLoop lcap icap k s).done = false → 2 ≤ ch'.length) ∧
        ((whileLoop lcap icap k s).done = true → ch'.length = 1) ∧
        KeyReadsPopulated (whileLoop lcap icap k s).trace := by
    intro L base ch B s k hS hs hk h2
    obtain ⟨B0, cs, last, hch, -, -, -⟩ := hS.top
    have h1 : ch.length = 1 := by
      rw [hch] at h2 ⊢
      simp at h2 ⊢
      exact h2
    obtain ⟨hB, hls, hle, hl, hf, hd, hc, hp, ha⟩ := hs
    have hcond : ¬ (s.last_end_block > s.last_start_block) := by
      rw [hls, hle, h1]; push_cast; omega
    have e : whileLoop lcap icap k s = { s with done := true } := by
      cases k <;> (unfold whileLoop; simp only [hf, Bool.false_eq_true, if_false, hcond])
    rw [e]
    exact ⟨L, base, ch, B, hS, ⟨hB, hls, hle, hl, hf, hc, hp, ha⟩, by simp, fun _ => h1, hk⟩
  induction fuel with
  | zero =>
    intro L base ch B s hS hs hk
    by_cases h2 : 2 ≤ ch.length
    · obtain ⟨hB, hls, hle, hl, hf, hd, hc, hp, ha⟩ := hs
      have hcond : s.last_end_block > s.last_start_block := by
        rw [hls, hle]; push_cast; omega
      have e : whileLoop lcap icap 0 s = s := by
        unfold whileLoop
        simp only [hf, Bool.false_eq_true, if_false, hcond, if_true]
      rw [e]
      exact ⟨L, base, ch, B, hS, ⟨hB, hls, hle, hl, hf, hc, hp, ha⟩, fun _ => h2,
        fun h => by rw [hd] at h; simp at h, hk⟩
    · exact hstop s 0 hS hs hk h2
  | succ fuel ih =>
    intro L base ch B s hS hs hk
    by_cases h2 : 2 ≤ ch.length
    · obtain ⟨cs, last, hx, hcs, hne, hlen, hA⟩ := levelPass_stack hS s hs h2 hcap
      have hS' := Stack.up cs last hS h2 hcap hx hcs hne hlen
      have hk' := (levelPass_trace hS s hs hcap).2 hk
      obtain ⟨hB, hls, hle, hl, hf, hd, hc, hp, ha⟩ := hs
      have hcond : s.last_end_block > s.last_start_block := by
        rw [hls, hle]; push_cast; omega
      have e : whileLoop lcap icap (fuel + 1) s =
          whileLoop lcap icap fuel (levelPass lcap icap s) := by
        rw [whileLoop]
        simp only [hf, Bool.false_eq_true, if_false, hcond, if_true]
      rw [e]
      exact ih _ hS' (by simpa using hA) hk'
    · exact hstop s (fuel + 1) hS hs hk h2

theorem mem_createdImages (f g : BlockFile) (img : NodeImage) :
    img ∈ createdImages f g ↔
      ∃ a : Nat, f.blocks.length ≤ a ∧ g.read_block (a : Int) = some img := by
  unfold createdImages
  rw [List.mem_filterMap]
  constructor
  · rintro ⟨x, hx, hid⟩
    simp only [id] at hid
    subst hid
    obtain ⟨j, hj⟩ := List.getElem?_of_mem hx
    rw [List.getElem?_drop] at hj
    exact ⟨f.blocks.length + j, by omega, by rw [read_block_natCast, hj]; rfl⟩
  · rintro ⟨a, ha, hr⟩
    rw [read_block_natCast] at hr
    refine ⟨some img, ?_, rfl⟩
    have h1 : g.blocks[a]? = some (some img) := by
      cases h : g.blocks[a]? with
      | none => rw [h] at hr; simp at hr
      | some o =>
        rw [h] at hr
        simp only [Option.join, Option.some_bind, id] at hr
        rw [hr]
    have h2 : (g.blocks.drop f.blocks.length)[a - f.blocks.length]? = some (some img) := by
      rw [List.getElem?_drop]
      have e : f.blocks.length + (a - f.blocks.length) = a := by omega
      rw [e, h1]
    exact List.getElem?_mem h2

/-- Entry counts of the nodes of a stack: every node holds at least one entry
and at most the capacity of its kind, and as many keys as entries. -/
theorem Stack.entry_bounds {lcap icap : Nat} {F0 : List (Option NodeImage)}
    {cs0 : List (List Entry)} {last0 : List Entry} {L base : Nat} {ch : List (List Entry)}
    {B : List (Option NodeImage)} (h : Stack lcap icap F0 cs0 last0 L base ch B) :
    ∀ (a : Nat) (x : NodeImage), F0.length ≤ a → (BlockFile.mk B).read_block (a : Int) = some x →
      1 ≤ x.num_entries_ ∧ x.key_.length = x.num_entries_ ∧
      (x.kind = NodeKind.leaf → x.num_entries_ ≤ lcap) ∧
      (x.kind = NodeKind.index → x.num_entries_ ≤ icap) ∧
      (x.kind = NodeKind.leaf ↔ x.level_ = 0) := by
  induction h with
  | leaf h1 hcs hne hlen =>
    intro a x ha hx
    have hS : Stack lcap icap F0 cs0 last0 0 F0.length (cs0 ++ [last0])
        (F0 ++ levelBlocks NodeKind.leaf 0 F0.length cs0 last0) := Stack.leaf h1 hcs hne hlen
    have hlt := read_lt_length _ _ _ hx
    rw [hS.length_eq] at hlt
    have hj : (cs0 ++ [last0])[a - F0.length]? = some (cs0 ++ [last0])[a - F0.length] :=
      List.getElem?_eq_getElem (by omega)
    obtain ⟨hr, hcne⟩ := hS.read_top (a - F0.length) _ hj
    have e : F0.length + (a - F0.length) = a := by omega
    rw [e, hx] at hr
    simp only [Option.some.injEq] at hr
    subst hr
    have hmem := List.getElem?_mem hj
    have hb : ((cs0 ++ [last0])[a - F0.length]).length ≤ lcap := by
      rcases List.mem_append.1 hmem with hm | hm
      · exact Nat.le_of_eq (hcs _ hm)
      · simp at hm; rw [hm]; exact hlen
    refine ⟨List.length_pos.2 hcne, by simp [nodeImage], fun _ => hb, ?_, ?_⟩
    · intro hk; simp [nodeImage, childKind] at hk
    · simp [nodeImage, childKind]
  | @up L' base' ch' B' cs last hS h2 h1 hup hcs hne hlen ih =>
    intro a x ha hx
    by_cases hold : a < B'.length
    · rw [read_append_left _ _ _ hold] at hx
      exact ih a x ha hx
    · have hS2 := Stack.up cs last hS h2 h1 hup hcs hne hlen
      have hlt := read_lt_length _ _ _ hx
      rw [hS2.length_eq] at hlt
      have hB := hS.length_eq
      have hj : (cs ++ [last])[a - (base' + ch'.length)]? =
          some (cs ++ [last])[a - (base' + ch'.length)] :=
        List.getElem?_eq_getElem (by omega)
      obtain ⟨hr, hcne⟩ := hS2.read_top (a - (base' + ch'.length)) _ hj
      have e : base' + ch'.length + (a - (base' + ch'.length)) = a := by omega
      rw [e, hx] at hr
      simp only [Option.some.injEq] at hr
      subst hr
      have hmem := List.getElem?_mem hj
      have hb : ((cs ++ [last])[a - (base' + ch'.length)]).length ≤ icap := by
        rcases List.mem_append.1 hmem with hm | hm
        · exact Nat.le_of_eq (hcs _ hm)
        · simp at hm; rw [hm]; exact hlen
      refine ⟨List.length_pos.2 hcne, by simp [nodeImage], ?_, fun _ => hb, ?_⟩
      · intro hk; simp [nodeImage, childKind] at hk
      · simp [nodeImage, childKind]

/-- The topmost level of a stack is an address range: among the created blocks
the nodes of level `L` are exactly those from `base` on. -/
theorem Stack.level_range {lcap icap : Nat} {F0 : List (Option NodeImage)}
    {cs0 : List (List Entry)} {last0 : List Entry} {L base : Nat} {ch : List (List Entry)}
    {B : List (Option NodeImage)} (h : Stack lcap icap F0 cs0 last0 L base ch B) :
    ∀ (a : Nat) (x : NodeImage), F0.length ≤ a → (BlockFile.mk B).read_block (a : Int) = some x →
      (x.level_ = L ↔ base ≤ a) := by
  intro a x ha hx
  have hlt := read_lt_length _ _ _ hx
  rw [h.length_eq] at hlt
  by_cases hge : base ≤ a
  · have hj : ch[a - base]? = some ch[a - base] := List.getElem?_eq_getElem (by omega)
    obtain ⟨hr, -⟩ := h.read_top (a - base) _ hj
    have e : base + (a - base) = a := by omega
    rw [e, hx] at hr
    simp only [Option.some.injEq] at hr
    subst hr
    simp [nodeImage, hge]
  · cases h with
    | leaf h1 hcs hne hlen => omega
    | @up L' base' ch' B' cs last hS h2 h1 hup hcs hne hlen =>
      have hB := hS.length_eq
      rw [read_append_left _ _ _ (by omega)] at hx
      obtain ⟨seg, -, s2, -⟩ := hS.segmented
      have := (s2 a x ha hx).1
      constructor
      · intro h; omega
      · intro h; omega

theorem foldl_leafBody_trace (lcap : Nat) (ys : List Result) (s : Frame) :
    ∃ ev, (List.foldl (leafBody lcap) s ys).trace = s.trace ++ ev ∧
      ∀ e ∈ ev, e.isBuild = true := by
  induction ys generalizing s with
  | nil => exact ⟨[], by simp, by simp⟩
  | cons y ys ih =>
    obtain ⟨ev1, h1, g1⟩ := put_trace NodeKind.leaf 0 lcap s y.key_ y.id_
    obtain ⟨ev2, h2, g2⟩ := ih (leafBody lcap s y)
    refine ⟨ev1 ++ ev2, ?_, ?_⟩
    · simp only [List.foldl_cons]
      rw [h2]
      unfold leafBody
      rw [h1, List.append_assoc]
    · intro e he
      rcases List.mem_append.1 he with he | he
      · exact g1 e he
      · exact g2 e he

theorem leafPass_trace (lcap : Nat) (t : BTree) (n : Nat) (table : List Result) :
    ∀ e ∈ (leafPass lcap t n table).trace, e.isBuild = true := by
  obtain ⟨ev1, h1, g1⟩ := foldl_leafBody_trace lcap (table.take n)
    { file_ := t.file_, child := none, prev_nd := none, act_nd := none,
      first_node := true, start_block := 0, end_block := 0, cur_level := 1,
      last_start_block := 0, last_end_block := 0, trace := [],
      fault := decide (table.length < n), done := false }
  obtain ⟨ev2, h2, g2⟩ := cleanup_trace (List.foldl (leafBody lcap)
    { file_ := t.file_, child := none, prev_nd := none, act_nd := none,
      first_node := true, start_block := 0, end_block := 0, cur_level := 1,
      last_start_block := 0, last_end_block := 0, trace := [],
      fault := decide (table.length < n), done := false } (table.take n))
  intro e he
  have : (leafPass lcap t n table).trace = ev1 ++ ev2 := by
    unfold leafPass
    simp only
    rw [h2, h1]
    simp
  rw [this] at he
  rcases List.mem_append.1 he with he | he
  · exact g1 e he
  · exact g2 e he

/-- What `bulkload` returns in terms of the frame the loop reaches: the frame
itself (the final deletes find no node), its file, and 0 exactly when the loop
was left without a fault. -/
theorem bulkload_frame (lcap icap fuel : Nat) (t : BTree) (n : Nat) (table : List Result) :
    (bulkload lcap icap fuel t n table).frame =
        whileLoop lcap icap fuel (leafPass lcap t n table) ∧
      (bulkload lcap icap fuel t n table).tree.file_ =
        (whileLoop lcap icap fuel (leafPass lcap t n table)).file_ ∧
      (bulkload lcap icap fuel t n table).tree.root_ptr_ = t.root_ptr_ ∧
      ((bulkload lcap icap fuel t n table).ret = some 0 ↔
        ((whileLoop lcap icap fuel (leafPass lcap t n table)).done = true ∧
          (whileLoop lcap icap fuel (leafPass lcap t n table)).fault = false)) ∧
      ((bulkload lcap icap fuel t n table).ret = some 0 →
        (bulkload lcap icap fuel t n table).tree.root_ =
          (whileLoop lcap icap fuel (leafPass lcap t n table)).last_start_block) := by
  obtain ⟨⟨hG, hI⟩, hpa⟩ := linv_whileLoop lcap icap fuel _ (linv_leafPass lcap t n table)
  unfold bulkload
  simp only
  split
  · rename_i hd
    simp only [Bool.and_eq_true, Bool.not_eq_true'] at hd
    obtain ⟨hp, ha⟩ := hpa hd.2
    have e := finalCleanup_eq _ hp ha (hI hd.2).1
    rw [e]
    exact ⟨rfl, rfl, rfl, by simp [hd.1, hd.2], fun _ => rfl⟩
  · rename_i hd
    refine ⟨rfl, rfl, rfl, ?_, ?_⟩
    · simp only [Bool.and_eq_true, Bool.not_eq_true'] at hd
      simp only [false_iff, reduceCtorEq]
      exact hd
    · intro h; simp at h

/-- Structure of every execution of `bulkload` on a non-empty table with
capacities at least 1, whatever the fuel: the frame reached stands on a stack. -/
theorem bulkload_levels (lcap icap fuel : Nat) (hl : 1 ≤ lcap) (hi : 1 ≤ icap) (t : BTree)
    (table : List Result) (hne : table ≠ []) :
    ∃ cs0 last0 L base ch B, entriesOf table = cs0.flatten ++ last0 ∧
      Stack lcap icap t.file_.blocks cs0 last0 L base ch B ∧
      OnLevel (whileLoop lcap icap fuel (leafPass lcap t table.length table)) L base ch.length B ∧
      ((whileLoop lcap icap fuel (leafPass lcap t table.length table)).done = false →
        2 ≤ ch.length) ∧
      ((whileLoop lcap icap fuel (leafPass lcap t table.length table)).done = true →
        ch.length = 1) ∧
      KeyReadsPopulated (whileLoop lcap icap fuel (leafPass lcap t table.length table)).trace := by
  obtain ⟨cs0, last0, hx, hcs, hlast, hlen, hA⟩ := leafPass_stack lcap hl t table hne
  have hS : Stack lcap icap t.file_.blocks cs0 last0 0 t.file_.blocks.length (cs0 ++ [last0])
      (t.file_.blocks ++ levelBlocks NodeKind.leaf 0 t.file_.blocks.length cs0 last0) :=
    Stack.leaf hl hcs hlast hlen
  have hk : KeyReadsPopulated (leafPass lcap t table.length table).trace := by
    intro b ne hmem
    have := leafPass_trace lcap t table.length table _ hmem
    simp [Event.isBuild] at this
  obtain ⟨L, base, ch, B, hS', hO, h1, h2, h3⟩ :=
    whileLoop_onLevel hi fuel (leafPass lcap t table.length table) hS (by simpa using hA) hk
  exact ⟨cs0, last0, L, base, ch, B, hx, hS', hO, h1, h2, h3⟩

/-! ### Tree Controller: root lifecycle -/

theorem init_eq_exampleTree (icap : Nat) : BTree.init icap = exampleTree := by
  simp [BTree.init, BTree.delete_root, BNode.init, BNode.release, BNode.get_block,
    BlockFile.append_block, BlockFile.write_block, BNode.write_to_buffer, exampleTree]

/-- Claim C13 (counterexample). The node that `init` creates is an index node of
level 0: in the tree state right after `init`, the created nodes do not have
levels matching their variants. -/
theorem C13_init_root_counterexample :
    createdImages (BlockFile.mk []) (BTree.init 3).file_ =
      [{ kind := NodeKind.index, level_ := 0, num_entries_ := 0, left_sibling_ := -1,
         right_sibling_ := -1, key_ := [], ptr_ := [] }] ∧
    ¬ LevelsMatchKinds (createdImages (BlockFile.mk []) (BTree.init 3).file_) := by
  have e : createdImages (BlockFile.mk []) (BTree.init 3).file_ =
      [{ kind := NodeKind.index, level_ := 0, num_entries_ := 0, left_sibling_ := -1,
         right_sibling_ := -1, key_ := [], ptr_ := [] }] := by decide
  refine ⟨e, ?_⟩
  intro h
  rw [e] at h
  have := (h _ (List.mem_singleton.2 rfl)).2 rfl
  simp at this

/-- Claim C15. `load_root` is idempotent: a second call changes nothing and
reads nothing. With a cached root present the call reads no block and returns
the tree unchanged; with none present it reads the block `root_` and caches the
index node restored from it, leaving `root_` and the file unchanged; when that
block holds an index node, the cached root has its content. -/
theorem C15_load_root_idempotent (icap : Nat) (misread : Option NodeImage → NodeImage)
    (t : BTree) :
    (BTree.load_root icap misread (BTree.load_root icap misread t).1).1 =
        (BTree.load_root icap misread t).1 ∧
    (BTree.load_root icap misread (BTree.load_root icap misread t).1).2 = [] ∧
    (t.root_ptr_ ≠ none → BTree.load_root icap misread t = (t, [])) ∧
    (t.root_ptr_ = none →
      (BTree.load_root icap misread t).2 = [t.root_] ∧
      (BTree.load_root icap misread t).1.root_ = t.root_ ∧
      (BTree.load_root icap misread t).1.file_ = t.file_ ∧
      (BTree.load_root icap misread t).1.root_ptr_ =
        some (BIndexNode.init_restore icap misread t.file_ t.root_) ∧
      (BIndexNode.init_restore icap misread t.file_ t.root_).block_ = t.root_ ∧
      (BIndexNode.init_restore icap misread t.file_ t.root_).kind = NodeKind.index ∧
      (BIndexNode.init_restore icap misread t.file_ t.root_).dirty_ = false ∧
      ∀ x, t.file_.read_block t.root_ = some x → x.kind = NodeKind.index →
        (BIndexNode.init_restore icap misread t.file_ t.root_).write_to_buffer = x) := by
  cases hp : t.root_ptr_ with
  | some nd =>
    simp [BTree.load_root, hp]
  | none =>
    refine ⟨by simp [BTree.load_root, hp], by simp [BTree.load_root, hp], by simp, ?_⟩
    intro _
    refine ⟨by simp [BTree.load_root, hp], by simp [BTree.load_root, hp],
      by simp [BTree.load_root, hp], by simp [BTree.load_root, hp], rfl, rfl, rfl, ?_⟩
    intro x hx hk
    cases x with
    | mk kind level ne ls rs key ptr =>
      simp only at hk
      subst hk
      simp [BIndexNode.init_restore, hx, BNode.write_to_buffer]

/-- Witness for C15: the tree right after `init` (no cached root) and the same
tree after one `load_root` (cached root present). -/
theorem C15_load_root_idempotent_witness :
    (BTree.load_root 3 blankMisread exampleTree).2 = [exampleTree.root_] ∧
    BTree.load_root 3 blankMisread (BTree.load_root 3 blankMisread exampleTree).1 =
      ((BTree.load_root 3 blankMisread exampleTree).1, []) :=
  ⟨((C15_load_root_idempotent 3 blankMisread exampleTree).2.2.2 (by decide)).1,
    (C15_load_root_idempotent 3 blankMisread
      (BTree.load_root 3 blankMisread exampleTree).1).2.2.1 (by decide)⟩

theorem records_entriesOf (kind : NodeKind) (level base j : Nat) (table : List Result)
    (r : Int) : (nodeImage kind level base j (entriesOf table) r).records = table := by
  rw [records_nodeImage]
  unfold entriesOf
  induction table with
  | nil => rfl
  | cons x rest ih =>
    simp only [List.map_cons]
    rw [ih]

/-- Claim C20. For a table of `n` records with `1 <= n <= leaf capacity` (any
index capacity, any fuel): `bulkload` returns 0; the loop is left at its first
test, so no pass runs, `cur_level` stays 1 and no node is restored; exactly one
node is created, a leaf of level 0 without siblings holding the `n` records in
order; `root_` is its address; and `load_root` on the resulting tree, when no
root is cached, caches a node of the index variant for that leaf block. -/
theorem C20_single_leaf_root (lcap icap fuel : Nat) (t : BTree) (table : List Result)
    (hne : table ≠ []) (hle : table.length ≤ lcap) :
    (bulkload lcap icap fuel t table.length table).ret = some 0 ∧
    whileLoop lcap icap fuel (leafPass lcap t table.length table) =
      { leafPass lcap t table.length table with done := true } ∧
    (bulkload lcap icap fuel t table.length table).frame.cur_level = 1 ∧
    restoresOf (bulkload lcap icap fuel t table.length table).frame.trace = [] ∧
    (bulkload lcap icap fuel t table.length table).tree.root_ = (t.file_.blocks.length : Int) ∧
    (∃ img,
      createdImages t.file_ (bulkload lcap icap fuel t table.length table).tree.file_ = [img] ∧
      (bulkload lcap icap fuel t table.length table).tree.file_.read_block
        (bulkload lcap icap fuel t table.length table).tree.root_ = some img ∧
      img.kind = NodeKind.leaf ∧ img.level_ = 0 ∧ img.num_entries_ = table.length ∧
      img.records = table ∧ img.left_sibling_ = -1 ∧ img.right_sibling_ = -1) ∧
    ∀ misread : Option NodeImage → NodeImage, t.root_ptr_ = none →
      ∃ nd,
        (BTree.load_root icap misread
          (bulkload lcap icap fuel t table.length table).tree).1.root_ptr_ = some nd ∧
        nd.kind = NodeKind.index ∧
        nd.block_ = (bulkload lcap icap fuel t table.length table).tree.root_ ∧
        nd.level_ = 0 ∧ nd.num_entries_ = table.length := by
  have hpos : 0 < table.length := List.length_pos.2 hne
  have hl : 1 ≤ lcap := by omega
  obtain ⟨cs0, last0, hx, hcs, hlast, hlen, hA⟩ := leafPass_stack lcap hl t table hne
  have hcs0 : cs0 = [] := by
    have h1 : (entriesOf table).length = table.length := by simp [entriesOf]
    have h2 := flatten_length_of_forall cs0 hcs
    rw [hx, List.length_append, h2] at h1
    have h3 : 0 < last0.length := List.length_pos.mpr hlast
    cases cs0 with
    | nil => rfl
    | cons c cs =>
      exfalso
      simp only [List.length_cons] at h1
      have : (cs.length + 1) * lcap = cs.length * lcap + lcap := by ring
      omega
  subst hcs0
  simp only [List.flatten_nil, List.nil_append] at hx
  subst hx
  simp only [List.length_nil, Nat.zero_add] at hA
  obtain ⟨hB, hls, hle', hlv, hf, hd, hc, hp, ha⟩ := hA
  have hcond : ¬ ((leafPass lcap t table.length table).last_end_block >
      (leafPass lcap t table.length table).last_start_block) := by
    rw [hls, hle']; push_cast; omega
  have e : whileLoop lcap icap fuel (leafPass lcap t table.length table) =
      { leafPass lcap t table.length table with done := true } := by
    cases fuel <;> (unfold whileLoop; simp only [hf, Bool.false_eq_true, if_false, hcond])
  obtain ⟨g1, g2, g3, g4, g5⟩ := bulkload_frame lcap icap fuel t table.length table
  have hret : (bulkload lcap icap fuel t table.length table).ret = some 0 := by
    rw [g4, e]
    exact ⟨rfl, hf⟩
  have hroot := g5 hret
  rw [e] at g1 g2 hroot
  simp only at g2 hroot
  have hblocks : (bulkload lcap icap fuel t table.length table).tree.file_.blocks =
      t.file_.blocks ++ [some (nodeImage NodeKind.leaf 0 t.file_.blocks.length 0
        (entriesOf table) (-1))] := by
    rw [g2, hB]
    simp [levelBlocks, linkedFrom]
  refine ⟨hret, e, ?_, ?_, ?_, ?_, ?_⟩
  · rw [g1]; exact hlv
  · rw [g1]
    show restoresOf (leafPass lcap t table.length table).trace = []
    have := restoresOf_build [] _ (leafPass_trace lcap t table.length table)
    simpa [restoresOf] using this
  · rw [hroot, hls]
  · refine ⟨nodeImage NodeKind.leaf 0 t.file_.blocks.length 0 (entriesOf table) (-1),
      ?_, ?_, rfl, rfl, by simp [nodeImage, entriesOf], records_entriesOf _ _ _ _ _ _, rfl, rfl⟩
    · simp [createdImages, hblocks]
    · rw [hroot, hls, read_block_natCast, hblocks]
      simp
  · intro misread hnone
    refine ⟨BIndexNode.init_restore icap misread
      (bulkload lcap icap fuel t table.length table).tree.file_
      (bulkload lcap icap fuel t table.length table).tree.root_, ?_, rfl, rfl, ?_, ?_⟩
    · simp [BTree.load_root, g3, hnone]
    · simp [BIndexNode.init_restore, hroot, hls, read_block_natCast, hblocks, nodeImage]
    · simp [BIndexNode.init_restore, hroot, hls, read_block_natCast, hblocks, nodeImage,
        entriesOf]

/-- Witness for C20: three records, leaf capacity 4, on the tree right after
`init`. -/
theorem C20_single_leaf_root_witness :
    (bulkload 4 3 0 exampleTree 3 (exampleTable.take 3)).ret = some 0 ∧
    (bulkload 4 3 0 exampleTree 3 (exampleTable.take 3)).tree.root_ = 1 ∧
    (bulkload 4 3 0 exampleTree 3 (exampleTable.take 3)).frame.cur_level = 1 :=
  ⟨(C20_single_leaf_root 4 3 0 exampleTree (exampleTable.take 3) (by decide) (by decide)).1,
    (C20_single_leaf_root 4 3 0 exampleTree (exampleTable.take 3) (by decide)
      (by decide)).2.2.2.2.1,
    (C20_single_leaf_root 4 3 0 exampleTree (exampleTable.take 3) (by decide)
      (by decide)).2.2.1⟩

/-! ### Invariants that hold in every execution -/

theorem leafPass_eq (lcap : Nat) (t : BTree) (n : Nat) (table : List Result) :
    leafPass lcap t n table =
      { cleanup (List.foldl (leafBody lcap) (startFrame t n table) (table.take n)) with
        last_start_block :=
          (cleanup (List.foldl (leafBody lcap) (startFrame t n table) (table.take n))).start_block,
        last_end_block :=
          (cleanup (List.foldl (leafBody lcap) (startFrame t n table) (table.take n))).end_block } :=
  rfl

theorem cleanup_released (s : Frame) (h : (cleanup s).fault = false) :
    (cleanup s).prev_nd = none ∧ (cleanup s).act_nd = none := by
  unfold cleanup at h ⊢
  cases hf : s.fault with
  | true => rw [hf] at h; simp at h; rw [hf] at h; simp at h
  | false =>
    simp only [Bool.false_eq_true, if_false]
    cases hp : s.prev_nd <;> cases ha : s.act_nd <;> simp [hp, ha]

/-- Induction over the frames of `bulkload`: a property of frames that holds
initially and is kept by the loop bodies, by the releases after a pass and by
the assignments between passes holds for the frame reached with any fuel. -/
theorem frame_invariant (I : Frame → Prop) (lcap icap : Nat)
    (hleaf : ∀ s (r : Result), I s → I (leafBody lcap s r))
    (hbody : ∀ s (i : Int), I s → I (levelBody lcap icap s i))
    (hclean : ∀ s, I s → I (cleanup s))
    (hfirst : ∀ s, I s → (s.fault = false → s.prev_nd = none ∧ s.act_nd = none) →
      I { s with first_node := true })
    (hnext : ∀ s (a b : Int) (c : Nat), I s →
      I { s with last_start_block := a, last_end_block := b, cur_level := c })
    (hdone : ∀ s, I s → I { s with done := true })
    (t : BTree) (n : Nat) (table : List Result) (h0 : I (startFrame t n table)) (fuel : Nat) :
    I (whileLoop lcap icap fuel (leafPass lcap t n table)) := by
  have hfoldLeaf : ∀ (ys : List Result) s, I s → I (List.foldl (leafBody lcap) s ys) := by
    intro ys
    induction ys with
    | nil => intro s h; exact h
    | cons y ys ih => intro s h; exact ih _ (hleaf s y h)
  have hfoldBody : ∀ (ys : List Int) s, I s → I (List.foldl (levelBody lcap icap) s ys) := by
    intro ys
    induction ys with
    | nil => intro s h; exact h
    | cons y ys ih => intro s h; exact ih _ (hbody s y h)
  have hJ : ∀ s c, (cleanup s).fault = false →
      ({ cleanup s with last_start_block := (cleanup s).start_block,
                        last_end_block := (cleanup s).end_block,
                        cur_level := c } : Frame).prev_nd = none ∧
      ({ cleanup s with last_start_block := (cleanup s).start_block,
                        last_end_block := (cleanup s).end_block,
                        cur_level := c } : Frame).act_nd = none :=
    fun s _ h => cleanup_released s h
  have hpass : ∀ s, I s → (s.fault = false → s.prev_nd = none ∧ s.act_nd = none) →
      I (levelPass lcap icap s) ∧
        ((levelPass lcap icap s).fault = false →
          (levelPass lcap icap s).prev_nd = none ∧ (levelPass lcap icap s).act_nd = none) := by
    intro s h hj
    have h1 := hclean _ (hfoldBody (addrRange s.last_start_block s.last_end_block) _
      (hfirst s h hj))
    unfold levelPass
    simp only
    split
    · rename_i hf
      exact ⟨h1, fun h => by rw [hf] at h; simp at h⟩
    · rename_i hf
      simp only [Bool.not_eq_true] at hf
      exact ⟨hnext _ _ _ _ h1, fun _ => cleanup_released _ hf⟩
  have hloop : ∀ fuel s, I s → (s.fault = false → s.prev_nd = none ∧ s.act_nd = none) →
      I (whileLoop lcap icap fuel s) := by
    intro fuel
    induction fuel with
    | zero =>
      intro s h hj
      unfold whileLoop
      split
      · exact h
      · split
        · exact h
        · exact hdone s h
    | succ fuel ih =>
      intro s h hj
      rw [whileLoop]
      split
      · exact h
      · split
        · obtain ⟨g1, g2⟩ := hpass s h hj
          exact ih _ g1 g2
        · exact hdone s h
  apply hloop
  · rw [leafPass_eq]
    have h1 := hclean _ (hfoldLeaf (table.take n) _ h0)
    exact hnext _ _ _ _ h1
  · intro hf
    rw [leafPass_eq] at hf ⊢
    exact cleanup_released _ hf

theorem capInv_append (lcap icap : Nat) (s s' : Frame) (ev : List Event)
    (htr : s'.trace = s.trace ++ ev)
    (hev : ∀ b ne cap, Event.add_new_child b ne cap ∈ ev →
      ne < cap ∧ (cap = lcap ∨ cap = icap))
    (hact : s'.fault = false → ∀ a, s'.act_nd = some a →
      a.num_entries_ < a.capacity_ ∧ (a.capacity_ = lcap ∨ a.capacity_ = icap))
    (h : CapInv lcap icap s) : CapInv lcap icap s' := by
  refine ⟨?_, hact⟩
  intro b ne cap hmem
  rw [htr] at hmem
  rcases List.mem_append.1 hmem with hmem | hmem
  · exact h.1 b ne cap hmem
  · exact hev b ne cap hmem

theorem capInv_attach (lcap icap : Nat) (kind : NodeKind) (level cap : Nat) (hcap : 1 ≤ cap)
    (hc : cap = lcap ∨ cap = icap) (s : Frame) (h : CapInv lcap icap s) :
    CapInv lcap icap (attach kind level cap s) := by
  unfold attach
  cases ha : s.act_nd with
  | some a => simpa [ha] using h
  | none =>
    simp only
    cases hf : s.first_node with
    | true =>
      simp only [if_true]
      refine capInv_append lcap icap s _ [Event.acquire Role.built level _] rfl
        (by intro b ne c hm; simp at hm) ?_ h
      intro _ a hsome
      simp only [Option.some.injEq] at hsome
      subst hsome
      exact ⟨by simpa [BNode.init] using hcap, by simpa [BNode.init] using hc⟩
    | false =>
      simp only [Bool.false_eq_true, if_false]
      cases hp : s.prev_nd with
      | none =>
        refine capInv_append lcap icap s _ [Event.acquire Role.built level _] rfl
          (by intro b ne c hm; simp at hm) ?_ h
        intro hfl
        simp at hfl
      | some prev =>
        refine capInv_append lcap icap s _ [Event.acquire Role.built level
          (BNode.init kind level cap s.file_.blocks.length).get_block,
          Event.release Role.built prev.get_block] (by simp)
          (by intro b ne c hm; simp at hm) ?_ h
        intro _ a hsome
        simp only [Option.some.injEq] at hsome
        subst hsome
        exact ⟨by simpa [BNode.init, BNode.set_left_sibling] using hcap,
          by simpa [BNode.init, BNode.set_left_sibling] using hc⟩

theorem capInv_fill (lcap icap : Nat) (kind : NodeKind) (s : Frame) (k p : Int)
    (hf : s.fault = false) (h : CapInv lcap icap s) : CapInv lcap icap (fill kind s k p) := by
  unfold fill
  cases ha : s.act_nd with
  | none =>
    exact ⟨h.1, fun hfl => by simp at hfl⟩
  | some a =>
    obtain ⟨hlt, hc⟩ := h.2 hf a ha
    cases kind <;>
    · simp only
      split
      · refine capInv_append lcap icap s _
          [Event.add_new_child a.get_block a.num_entries_ a.capacity_] rfl ?_ ?_ h
        · intro b ne c hm
          simp only [List.mem_singleton, Event.add_new_child.injEq] at hm
          obtain ⟨-, rfl, rfl⟩ := hm
          exact ⟨hlt, hc⟩
        · intro _ a' hsome
          simp at hsome
      · rename_i hfull
        refine capInv_append lcap icap s _
          [Event.add_new_child a.get_block a.num_entries_ a.capacity_] rfl ?_ ?_ h
        · intro b ne c hm
          simp only [List.mem_singleton, Event.add_new_child.injEq] at hm
          obtain ⟨-, rfl, rfl⟩ := hm
          exact ⟨hlt, hc⟩
        · intro _ a' hsome
          simp only [Option.some.injEq] at hsome
          subst hsome
          simp only [BNode.isFull, decide_eq_true_eq, ge_iff_le, not_le] at hfull
          exact ⟨hfull, hc⟩

theorem capInv_put (lcap icap : Nat) (kind : NodeKind) (level cap : Nat) (hcap : 1 ≤ cap)
    (hc : cap = lcap ∨ cap = icap) (s : Frame) (k p : Int) (h : CapInv lcap icap s) :
    CapInv lcap icap (put kind level cap s k p) := by
  unfold put
  split
  · exact h
  · simp only
    have h1 := capInv_attach lcap icap kind level cap hcap hc s h
    split
    · exact h1
    · rename_i hf1
      simp only [Bool.not_eq_true] at hf1
      exact capInv_fill lcap icap kind _ k p hf1 h1

theorem capInv_cleanup (lcap icap : Nat) (s : Frame) (h : CapInv lcap icap s) :
    CapInv lcap icap (cleanup s) := by
  unfold cleanup
  cases hf : s.fault with
  | true => simpa using h
  | false =>
    simp only [Bool.false_eq_true, if_false]
    cases hp : s.prev_nd with
    | none =>
      cases ha : s.act_nd with
      | none => simpa [ha] using h
      | some a =>
        simp only [ha]
        exact capInv_append lcap icap s _ [Event.release Role.built a.get_block] rfl
          (by intro b ne c hm; simp at hm) (by intro _ a' hsome; simp at hsome) h
    | some prev =>
      cases ha : s.act_nd with
      | none =>
        simp only [ha]
        exact capInv_append lcap icap s _ [Event.release Role.built prev.get_block] rfl
          (by intro b ne c hm; simp at hm) (by intro _ a' hsome; simp [ha] at hsome) h
      | some a =>
        simp only [ha]
        exact capInv_append lcap icap s _
          [Event.release Role.built prev.get_block, Event.release Role.built a.get_block]
          (by simp) (by intro b ne c hm; simp at hm) (by intro _ a' hsome; simp at hsome) h

theorem capInv_levelBody (lcap icap : Nat) (hi : 1 ≤ icap) (s : Frame) (i : Int)
    (h : CapInv lcap icap s) : CapInv lcap icap (levelBody lcap icap s i) := by
  unfold levelBody
  split
  · exact h
  · generalize (if s.cur_level = 1 then BNode.init_restore NodeKind.leaf lcap s.file_ i
      else BNode.init_restore NodeKind.index icap s.file_ i) = r
    cases r with
    | none => exact ⟨h.1, fun hfl => by simp at hfl⟩
    | some ch =>
      simp only
      cases hk : ch.get_key_of_node with
      | none =>
        simp only
        refine ⟨?_, fun hfl => by simp at hfl⟩
        intro b ne cap hmem
        simp only [List.mem_append, List.mem_cons, List.mem_singleton, reduceCtorEq,
          List.not_mem_nil, or_false, or_self] at hmem
        exact h.1 b ne cap hmem
      | some key =>
        simp only
        apply capInv_put lcap icap NodeKind.index s.cur_level icap hi (Or.inr rfl)
        rename_i hf
        simp only [Bool.not_eq_true] at hf
        refine ⟨?_, fun _ a hsome => h.2 hf a hsome⟩
        intro b ne cap hmem
        simp only [List.mem_append, List.mem_cons, List.mem_singleton, reduceCtorEq,
          List.not_mem_nil, or_false, or_self] at hmem
        exact h.1 b ne cap hmem

theorem capInv_bulkload (lcap icap fuel : Nat) (hl : 1 ≤ lcap) (hi : 1 ≤ icap) (t : BTree)
    (n : Nat) (table : List Result) :
    CapInv lcap icap (whileLoop lcap icap fuel (leafPass lcap t n table)) := by
  apply frame_invariant (CapInv lcap icap) lcap icap
  · intro s r h
    exact capInv_put lcap icap NodeKind.leaf 0 lcap hl (Or.inl rfl) s _ _ h
  · exact fun s i h => capInv_levelBody lcap icap hi s i h
  · exact fun s h => capInv_cleanup lcap icap s h
  · exact fun s h _ => h
  · exact fun s a b c h => h
  · exact fun s h => h
  · exact ⟨by intro b ne cap hmem; simp [startFrame] at hmem,
      by intro _ a hsome; simp [startFrame] at hsome⟩

theorem foldl_leafBody_fault (lcap : Nat) (ys : List Result) (s : Frame) (h : s.fault = true) :
    List.foldl (leafBody lcap) s ys = s := by
  induction ys with
  | nil => rfl
  | cons y ys ih =>
    simp only [List.foldl_cons]
    have : leafBody lcap s y = s := by simp [leafBody, put, h]
    rw [this, ih]

/-- With a table shorter than `n` the execution stops at once: nothing is
created, nothing is recorded, and `bulkload` does not return. -/
theorem bulkload_short (lcap icap fuel : Nat) (t : BTree) (n : Nat) (table : List Result)
    (h : table.length < n) :
    (bulkload lcap icap fuel t n table).frame.trace = [] ∧
    (bulkload lcap icap fuel t n table).tree.file_ = t.file_ ∧
    (bulkload lcap icap fuel t n table).ret = none := by
  have hs : (startFrame t n table).fault = true := by simp [startFrame, h]
  have e1 : leafPass lcap t n table =
      { startFrame t n table with last_start_block := 0, last_end_block := 0 } := by
    rw [leafPass_eq, foldl_leafBody_fault lcap _ _ hs]
    have : cleanup (startFrame t n table) = startFrame t n table := by
      unfold cleanup
      rw [if_pos hs]
    rw [this]
    rfl
  have e2 : whileLoop lcap icap fuel (leafPass lcap t n table) = leafPass lcap t n table := by
    have hf : (leafPass lcap t n table).fault = true := by rw [e1]; exact hs
    cases fuel <;> (unfold whileLoop; rw [if_pos hf])
  obtain ⟨g1, g2, -, g4, -⟩ := bulkload_frame lcap icap fuel t n table
  rw [e2] at g1 g2 g4
  refine ⟨by rw [g1, e1]; rfl, by rw [g2, e1]; rfl, ?_⟩
  cases hr : (bulkload lcap icap fuel t n table).ret with
  | none => rfl
  | some v =>
    exfalso
    have hv : v = 0 := by
      unfold bulkload at hr
      simp only at hr
      split at hr
      · simp at hr; exact hr.symm
      · simp at hr
    subst hv
    have := (g4.1 hr).2
    rw [e1] at this
    have h2 : (startFrame t n table).fault = false := this
    rw [hs] at h2
    simp at h2

/-- Only the first `n` records of the table are read. -/
theorem bulkload_take (lcap icap fuel : Nat) (t : BTree) (n : Nat) (table : List Result)
    (h : n ≤ table.length) :
    bulkload lcap icap fuel t n table =
      bulkload lcap icap fuel t (table.take n).length (table.take n) := by
  have hlen : (table.take n).length = n := by simp [h]
  have e : leafPass lcap t n table = leafPass lcap t (table.take n).length (table.take n) := by
    rw [hlen]
    unfold leafPass
    have h1 : decide (table.length < n) = decide ((table.take n).length < n) := by
      rw [hlen]; simp; omega
    simp only [List.take_take, Nat.min_self, h1]
  unfold bulkload
  rw [e]

/-- Claim C16. For leaf and index capacities at least 1, in every execution of
`bulkload` (any tree, any `n`, any table, any number of passes executed): every
`add_new_child` call is made on a node whose entry count is below its capacity
(so `isFull()` is false), that capacity being the leaf capacity or the index
capacity; and every node written to a created block holds at most as many
entries as the capacity of its variant. -/
theorem C16_add_new_child_on_non_full_node (lcap icap fuel : Nat) (hl : 1 ≤ lcap)
    (hi : 1 ≤ icap) (t : BTree) (n : Nat) (table : List Result) :
    (∀ b ne cap,
      Event.add_new_child b ne cap ∈ (bulkload lcap icap fuel t n table).frame.trace →
        ne < cap ∧ (cap = lcap ∨ cap = icap)) ∧
    (∀ img ∈ createdImages t.file_ (bulkload lcap icap fuel t n table).tree.file_,
      (img.kind = NodeKind.leaf → img.num_entries_ ≤ lcap) ∧
      (img.kind = NodeKind.index → img.num_entries_ ≤ icap)) := by
  constructor
  · rw [(bulkload_frame lcap icap fuel t n table).1]
    exact (capInv_bulkload lcap icap fuel hl hi t n table).1
  · rcases Nat.lt_or_ge table.length n with hshort | hge
    · rw [(bulkload_short lcap icap fuel t n table hshort).2.1]
      intro img himg
      simp [createdImages] at himg
    · rw [bulkload_take lcap icap fuel t n table hge]
      by_cases hne : table.take n = []
      · rw [hne]
        simp only [List.length_nil, bulkload_nil]
        intro img himg
        simp [createdImages] at himg
      · obtain ⟨cs0, last0, L, base, ch, B, -, hS, hO, -, -, -⟩ :=
          bulkload_levels lcap icap fuel hl hi t (table.take n) hne
        obtain ⟨-, hfile, -⟩ :=
          bulkload_frame lcap icap fuel t (table.take n).length (table.take n)
        intro img himg
        rw [hfile, mem_createdImages] at himg
        obtain ⟨a, ha, hr⟩ := himg
        rw [blockFile_eq_mk _ _ hO.1] at hr
        obtain ⟨-, -, h1, h2, -⟩ := hS.entry_bounds a img ha hr
        exact ⟨h1, h2⟩

/-- Witness for C16: the example scenario, leaf capacity 4, index capacity 3;
the first entry of the first leaf (block 1) and the third entry of the root
(block 4) are appended to nodes that are not full. -/
theorem C16_add_new_child_on_non_full_node_witness :
    Event.add_new_child 1 0 4 ∈ (bulkload 4 3 10 exampleTree 10 exampleTable).frame.trace ∧
    Event.add_new_child 4 2 3 ∈ (bulkload 4 3 10 exampleTree 10 exampleTable).frame.trace ∧
    ((0 : Nat) < 4 ∧ ((4 : Nat) = 4 ∨ (4 : Nat) = 3)) ∧
    ((2 : Nat) < 3 ∧ ((3 : Nat) = 4 ∨ (3 : Nat) = 3)) :=
  ⟨by decide, by decide,
    (C16_add_new_child_on_non_full_node 4 3 10 (by decide) (by decide) exampleTree 10
      exampleTable).1 1 0 4 (by decide),
    (C16_add_new_child_on_non_full_node 4 3 10 (by decide) (by decide) exampleTree 10
      exampleTable).1 4 2 3 (by decide)⟩

/-- Claim C19. For leaf and index capacities at least 1, in every execution of
`bulkload` (any tree, any `n`, any table, any number of passes executed): every
node written to a created block holds at least one entry, with as many keys as
entries; every `get_key_of_node()` call is made on a restored node with at least
one entry; and, when the table holds the `n` records, no fault occurs, so that
no call read an unpopulated `key_[0]`. -/
theorem C19_nodes_never_empty (lcap icap fuel : Nat) (hl : 1 ≤ lcap) (hi : 1 ≤ icap)
    (t : BTree) (n : Nat) (table : List Result) :
    (∀ img ∈ createdImages t.file_ (bulkload lcap icap fuel t n table).tree.file_,
      1 ≤ img.num_entries_ ∧ img.key_.length = img.num_entries_) ∧
    KeyReadsPopulated (bulkload lcap icap fuel t n table).frame.trace ∧
    (n ≤ table.length → (bulkload lcap icap fuel t n table).frame.fault = false) := by
  rcases Nat.lt_or_ge table.length n with hshort | hge
  · obtain ⟨h1, h2, -⟩ := bulkload_short lcap icap fuel t n table hshort
    rw [h1, h2]
    refine ⟨?_, ?_, fun h => by omega⟩
    · intro img himg
      simp [createdImages] at himg
    · intro b ne hmem
      simp at hmem
  · rw [bulkload_take lcap icap fuel t n table hge]
    by_cases hne : table.take n = []
    · rw [hne]
      simp only [List.length_nil, bulkload_nil]
      refine ⟨?_, ?_, fun _ => trivial⟩
      · intro img himg
        simp [createdImages] at himg
      · intro b ne hmem
        simp at hmem
    · obtain ⟨cs0, last0, L, base, ch, B, -, hS, hO, -, -, hK⟩ :=
        bulkload_levels lcap icap fuel hl hi t (table.take n) hne
      obtain ⟨hframe, hfile, -⟩ :=
        bulkload_frame lcap icap fuel t (table.take n).length (table.take n)
      rw [hframe, hfile]
      refine ⟨?_, hK, fun _ => hO.2.2.2.2.1⟩
      intro img himg
      rw [mem_createdImages] at himg
      obtain ⟨a, ha, hr⟩ := himg
      rw [blockFile_eq_mk _ _ hO.1] at hr
      obtain ⟨h1, h2, -⟩ := hS.entry_bounds a img ha hr
      exact ⟨h1, h2⟩

/-- Witness for C19: the example scenario, leaf capacity 4, index capacity 3. -/
theorem C19_nodes_never_empty_witness :
    KeyReadsPopulated (bulkload 4 3 10 exampleTree 10 exampleTable).frame.trace ∧
    (bulkload 4 3 10 exampleTree 10 exampleTable).frame.fault = false :=
  ⟨(C19_nodes_never_empty 4 3 10 (by decide) (by decide) exampleTree 10 exampleTable).2.1,
    (C19_nodes_never_empty 4 3 10 (by decide) (by decide) exampleTree 10 exampleTable).2.2
      (by decide)⟩

/-! ### Releases act on live nodes -/

theorem releasesLive_snoc (tr : List Event) (e : Event) (h : ReleasesLive tr)
    (he : ∀ r b, e = Event.release r b → (r, b) ∈ liveAfter tr) : ReleasesLive (tr ++ [e]) := by
  intro k r b hk
  by_cases hlt : k < tr.length
  · rw [List.getElem?_append_left hlt] at hk
    rw [List.take_append_of_le_length (Nat.le_of_lt hlt)]
    exact h k r b hk
  · by_cases heq : k = tr.length
    · subst heq
      rw [List.getElem?_append_right (Nat.le_refl _)] at hk
      simp only [Nat.sub_self, List.getElem?_cons_zero, Option.some.injEq] at hk
      rw [List.take_append_of_le_length (Nat.le_refl _), List.take_length]
      exact he r b hk
    · rw [List.getElem?_eq_none (by simp; omega)] at hk
      simp at hk

theorem releasesLive_prefix (tr : List Event) (e : Event) (h : ReleasesLive (tr ++ [e])) :
    ReleasesLive tr ∧ ∀ r b, e = Event.release r b → (r, b) ∈ liveAfter tr := by
  constructor
  · intro k r b hk
    have hlt : k < tr.length := (List.getElem?_eq_some_iff.mp hk).1
    have := h k r b (by rw [List.getElem?_append_left hlt]; exact hk)
    rwa [List.take_append_of_le_length (Nat.le_of_lt hlt)] at this
  · intro r b he
    have := h tr.length r b (by
      rw [List.getElem?_append_right (Nat.le_refl _)]
      simp [he])
    rwa [List.take_append_of_le_length (Nat.le_refl _), List.take_length] at this

/-- When every release acts on a live node, the acquisitions are the releases
together with the nodes still live. -/
theorem acquired_perm (tr : List Event) (h : ReleasesLive tr) :
    (acquiredOf tr).Perm (releasedOf tr ++ liveAfter tr) := by
  induction tr using List.reverseRecOn with
  | nil => simp [acquiredOf, releasedOf, liveAfter]
  | append_singleton l e ih =>
    obtain ⟨hl, he⟩ := releasesLive_prefix l e h
    have ih' := ih hl
    rw [liveAfter_snoc]
    unfold acquiredOf releasedOf at ih' ⊢
    rw [List.filterMap_append, List.filterMap_append]
    cases e with
    | acquire r lv b =>
      simp only [List.filterMap_cons, List.filterMap_nil, List.append_nil, liveStep]
      rw [← List.append_assoc]
      exact List.Perm.append_right _ ih'
    | release r b =>
      simp only [List.filterMap_cons, List.filterMap_nil, List.append_nil, liveStep]
      have hmem := he r b rfl
      refine ih'.trans ?_
      rw [List.append_assoc]
      apply List.Perm.append_left
      obtain ⟨l1, l2, -, e1, e2⟩ := List.exists_erase_eq hmem
      rw [e2, e1]
      exact List.perm_middle
    | add_new_child b ne c =>
      simpa [liveStep] using ih'
    | get_key_of_node b ne =>
      simpa [liveStep] using ih'

theorem mem_held_prev (s : Frame) (prev : BNode) (hp : s.prev_nd = some prev) :
    (Role.built, prev.get_block) ∈ heldNodes s := by
  simp [heldNodes, hp, BNode.get_block]

theorem mem_held_act (s : Frame) (act : BNode) (ha : s.act_nd = some act) :
    (Role.built, act.get_block) ∈ heldNodes s := by
  simp [heldNodes, ha, BNode.get_block]

theorem releasesLive_attach (kind : NodeKind) (level cap : Nat) (s : Frame) (h : LInv s)
    (hf : s.fault = false) (hr : ReleasesLive s.trace) :
    ReleasesLive (attach kind level cap s).trace := by
  obtain ⟨hG, hI⟩ := h
  obtain ⟨hc, hap, hfp, hlive⟩ := hI hf
  unfold attach
  cases ha : s.act_nd with
  | some act => exact hr
  | none =>
    simp only
    have h1 : ReleasesLive (s.trace ++ [Event.acquire Role.built level
        (BNode.init kind level cap s.file_.blocks.length).get_block]) :=
      releasesLive_snoc _ _ hr (by intro r b he; simp at he)
    cases hfn : s.first_node with
    | true => simpa using h1
    | false =>
      simp only [Bool.false_eq_true, if_false]
      cases hp : s.prev_nd with
      | none => exact h1
      | some prev =>
        simp only
        apply releasesLive_snoc _ _ h1
        intro r b he
        simp only [Event.release.injEq] at he
        obtain ⟨rfl, rfl⟩ := he
        rw [liveAfter_snoc, hlive]
        simp only [liveStep, List.mem_append]
        exact Or.inl (mem_held_prev s prev hp)

theorem releasesLive_fill (kind : NodeKind) (s : Frame) (k p : Int)
    (hr : ReleasesLive s.trace) : ReleasesLive (fill kind s k p).trace := by
  unfold fill
  cases ha : s.act_nd with
  | none => exact hr
  | some act =>
    simp only
    split <;> exact releasesLive_snoc _ _ hr (by intro r b he; simp at he)

theorem releasesLive_put (kind : NodeKind) (level cap : Nat) (s : Frame) (k p : Int)
    (h : LInv s) (hr : ReleasesLive s.trace) :
    ReleasesLive (put kind level cap s k p).trace := by
  unfold put
  cases hf : s.fault with
  | true => simpa using hr
  | false =>
    simp only [Bool.false_eq_true, if_false]
    have h1 := releasesLive_attach kind level cap s h hf hr
    split
    · exact h1
    · exact releasesLive_fill kind _ k p h1

theorem releasesLive_cleanup (s : Frame) (h : LInv s) (hr : ReleasesLive s.trace) :
    ReleasesLive (cleanup s).trace := by
  unfold cleanup
  cases hf : s.fault with
  | true => simpa using hr
  | false =>
    obtain ⟨hG, hI⟩ := h
    obtain ⟨hc, hap, hfp, hlive⟩ := hI hf
    simp only [Bool.false_eq_true, if_false]
    cases hp : s.prev_nd with
    | none =>
      cases ha : s.act_nd with
      | none => simpa [ha] using hr
      | some act =>
        simp only [ha]
        apply releasesLive_snoc _ _ hr
        intro r b he
        simp only [Event.release.injEq] at he
        obtain ⟨rfl, rfl⟩ := he
        rw [hlive]
        exact mem_held_act s act ha
    | some prev =>
      have ha : s.act_nd = none := by
        by_contra hne
        have := (hap hne).1
        rw [hp] at this
        simp at this
      simp only [ha]
      apply releasesLive_snoc _ _ hr
      intro r b he
      simp only [Event.release.injEq] at he
      obtain ⟨rfl, rfl⟩ := he
      rw [hlive]
      exact mem_held_prev s prev hp

theorem linv_after_restore (s : Frame) (f : BlockFile) (ch : BNode) (h : LInv s)
    (hf : s.fault = false) :
    LInv { s with file_ := f, child := none,
                  trace := s.trace ++ [Event.acquire Role.read ch.level_ ch.get_block,
                    Event.get_key_of_node ch.get_block ch.num_entries_] ++
                    [Event.release Role.read ch.get_block] } := by
  obtain ⟨hG, hI⟩ := h
  obtain ⟨hc, hap, hfp, hlive⟩ := hI hf
  have hheld : ∃ l, liveAfter s.trace = l ∧ l.length ≤ 1 ∧
      (∀ p ∈ l, p.1 = Role.built) ∧ heldNodes s = l := by
    refine ⟨_, hlive, ?_, ?_, rfl⟩
    · cases hp : s.prev_nd <;> cases ha : s.act_nd
      · simp [heldNodes, hp, ha, hc]
      · simp [heldNodes, hp, ha, hc]
      · simp [heldNodes, hp, ha, hc]
      · have := (hap (by simp [ha])).1
        rw [hp] at this
        simp at this
    · intro p hp
      simp only [heldNodes, hc, Option.toList, List.map_nil, List.append_nil,
        List.mem_append, List.mem_map] at hp
      rcases hp with ⟨nd, -, rfl⟩ | ⟨nd, -, rfl⟩ <;> rfl
  obtain ⟨l, hl, hlen, hbuilt, hheld'⟩ := hheld
  have hfr : l.filter (fun p => decide (p.1 = Role.read)) = [] := by
    rw [List.filter_eq_nil_iff]
    intro p hp
    simp [hbuilt p hp]
  have hG1 : BoundedTrace (s.trace ++ [Event.acquire Role.read ch.level_ ch.get_block]) := by
    apply boundedTrace_snoc _ _ hG
    rw [hl]
    refine ⟨?_, ?_, ?_⟩
    · exact Nat.le_trans (List.length_filter_le _ _) (by simp [liveStep]; omega)
    · simp [liveStep, List.filter_append, hfr]
    · simp [liveStep]; omega
  have hG2 : BoundedTrace (s.trace ++ [Event.acquire Role.read ch.level_ ch.get_block,
      Event.get_key_of_node ch.get_block ch.num_entries_]) := by
    rw [list_append_pair]
    apply boundedTrace_snoc _ _ hG1
    exact boundedTrace_last _ hG1
  have herase : (l ++ [(Role.read, ch.get_block)]).erase (Role.read, ch.get_block) = l := by
    rw [List.erase_append_right _ (fun hmem => by
      have := hbuilt _ hmem
      simp at this)]
    simp
  have hlast : liveAfter (s.trace ++ [Event.acquire Role.read ch.level_ ch.get_block,
      Event.get_key_of_node ch.get_block ch.num_entries_] ++
      [Event.release Role.read ch.get_block]) = l := by
    rw [liveAfter_snoc, list_append_pair, liveAfter_snoc, liveAfter_snoc, hl]
    simpa [liveStep] using herase
  refine ⟨?_, fun _ => ⟨rfl, hap, hfp, ?_⟩⟩
  · apply boundedTrace_snoc _ _ hG2
    rw [← liveAfter_snoc, hlast]
    exact ⟨Nat.le_trans (List.length_filter_le _ _) (by omega),
      Nat.le_trans (List.length_filter_le _ _) hlen, by omega⟩
  · rw [hlast, ← hheld']
    simp [heldNodes, hc]

theorem releasesLive_levelBody (lcap icap : Nat) (s : Frame) (i : Int) (h : LInv s)
    (hr : ReleasesLive s.trace) : ReleasesLive (levelBody lcap icap s i).trace := by
  unfold levelBody
  split
  · exact hr
  · rename_i hf0
    have hf : s.fault = false := by simpa using hf0
    generalize (if s.cur_level = 1 then BNode.init_restore NodeKind.leaf lcap s.file_ i
      else BNode.init_restore NodeKind.index icap s.file_ i) = r
    cases r with
    | none => exact hr
    | some ch =>
      simp only
      have h2 : ReleasesLive (s.trace ++ [Event.acquire Role.read ch.level_ ch.get_block,
          Event.get_key_of_node ch.get_block ch.num_entries_]) := by
        rw [list_append_pair]
        exact releasesLive_snoc _ _ (releasesLive_snoc _ _ hr (by intro r b he; simp at he))
          (by intro r b he; simp at he)
      cases hk : ch.get_key_of_node with
      | none => exact h2
      | some key =>
        simp only
        apply releasesLive_put _ _ _ _ _ _ (linv_after_restore s _ ch h hf)
        apply releasesLive_snoc _ _ h2
        intro r b he
        simp only [Event.release.injEq] at he
        obtain ⟨rfl, rfl⟩ := he
        rw [list_append_pair, liveAfter_snoc, liveAfter_snoc]
        simp [liveStep]

theorem releasesLive_bulkload (lcap icap fuel : Nat) (t : BTree) (n : Nat)
    (table : List Result) :
    LInv (whileLoop lcap icap fuel (leafPass lcap t n table)) ∧
      ReleasesLive (whileLoop lcap icap fuel (leafPass lcap t n table)).trace := by
  apply frame_invariant (fun s => LInv s ∧ ReleasesLive s.trace) lcap icap
  · intro s r h
    exact ⟨linv_put _ _ _ s _ _ h.1, releasesLive_put _ _ _ s _ _ h.1 h.2⟩
  · intro s i h
    exact ⟨linv_levelBody lcap icap s i h.1, releasesLive_levelBody lcap icap s i h.1 h.2⟩
  · intro s h
    exact ⟨(linv_cleanup s h.1).1, releasesLive_cleanup s h.1 h.2⟩
  · intro s h hpa
    refine ⟨?_, h.2⟩
    obtain ⟨hG, hI⟩ := h.1
    refine ⟨hG, fun hf => ?_⟩
    obtain ⟨hc, hap, hfp, hlive⟩ := hI hf
    obtain ⟨hp, ha⟩ := hpa hf
    refine ⟨hc, fun hne => absurd ha hne, fun _ => hp, ?_⟩
    rw [hlive]
    rfl
  · intro s a b c h
    refine ⟨?_, h.2⟩
    obtain ⟨hG, hI⟩ := h.1
    exact ⟨hG, fun hf => hI hf⟩
  · intro s h
    refine ⟨?_, h.2⟩
    obtain ⟨hG, hI⟩ := h.1
    exact ⟨hG, fun hf => hI hf⟩
  · refine ⟨⟨boundedTrace_nil, fun _ => ⟨rfl, by simp [startFrame], fun _ => rfl, rfl⟩⟩, ?_⟩
    intro k r b hk
    simp [startFrame] at hk

/-- Claim C17. In every execution of `bulkload` that returns (any capacities,
tree, `n`, table and fuel): when the loop is left the node pointers of the frame
are all `NULL`, so the final deletes release nothing and the frame is unchanged
by them; no node is live on return; every release of the execution acted on a
node that was live at that point (none is released twice); and the acquisitions
are, up to order, exactly the releases (none is leaked). -/
theorem C17_every_node_released_once (lcap icap fuel : Nat) (t : BTree) (n : Nat)
    (table : List Result) (hret : (bulkload lcap icap fuel t n table).ret = some 0) :
    (whileLoop lcap icap fuel (leafPass lcap t n table)).child = none ∧
    (whileLoop lcap icap fuel (leafPass lcap t n table)).prev_nd = none ∧
    (whileLoop lcap icap fuel (leafPass lcap t n table)).act_nd = none ∧
    finalCleanup (whileLoop lcap icap fuel (leafPass lcap t n table)) =
      whileLoop lcap icap fuel (leafPass lcap t n table) ∧
    (bulkload lcap icap fuel t n table).frame =
      whileLoop lcap icap fuel (leafPass lcap t n table) ∧
    liveAfter (bulkload lcap icap fuel t n table).frame.trace = [] ∧
    ReleasesLive (bulkload lcap icap fuel t n table).frame.trace ∧
    (acquiredOf (bulkload lcap icap fuel t n table).frame.trace).Perm
      (releasedOf (bulkload lcap icap fuel t n table).frame.trace) := by
  obtain ⟨g1, -, -, g4, -⟩ := bulkload_frame lcap icap fuel t n table
  obtain ⟨hd, hf⟩ := g4.1 hret
  obtain ⟨⟨hG, hI⟩, hR⟩ := releasesLive_bulkload lcap icap fuel t n table
  obtain ⟨-, hpa⟩ := linv_whileLoop lcap icap fuel _ (linv_leafPass lcap t n table)
  obtain ⟨hc, -, -, hlive⟩ := hI hf
  obtain ⟨hp, ha⟩ := hpa hf
  have hlive0 : liveAfter (whileLoop lcap icap fuel (leafPass lcap t n table)).trace = [] := by
    rw [hlive]
    simp [heldNodes, hc, hp, ha]
  have hperm := acquired_perm _ hR
  rw [hlive0, List.append_nil] at hperm
  rw [g1]
  exact ⟨hc, hp, ha, finalCleanup_eq _ hp ha hc, rfl, hlive0, hR, hperm⟩

/-- Witness for C17: the example scenario, ten records, leaf capacity 4, index
capacity 3. -/
theorem C17_every_node_released_once_witness :
    (bulkload 4 3 10 exampleTree 10 exampleTable).ret = some 0 ∧
    liveAfter (bulkload 4 3 10 exampleTree 10 exampleTable).frame.trace = [] ∧
    ReleasesLive (bulkload 4 3 10 exampleTree 10 exampleTable).frame.trace :=
  ⟨by decide,
    (C17_every_node_released_once 4 3 10 exampleTree 10 exampleTable (by decide)).2.2.2.2.2.1,
    (C17_every_node_released_once 4 3 10 exampleTree 10 exampleTable (by decide)).2.2.2.2.2.2.1⟩

/-! ### Creation order and address ranges of the levels -/

theorem release_length (f : BlockFile) (nd : BNode) :
    (BNode.release f nd).blocks.length = f.blocks.length := by
  unfold BNode.release BlockFile.write_block
  split
  · split
    · simp
    · rfl
  · rfl

theorem builtOf_append (tr ev : List Event) : builtOf (tr ++ ev) = builtOf tr ++ builtOf ev := by
  simp [builtOf, List.filterMap_append]

theorem builtOf_build_free (tr ev : List Event)
    (h : ∀ e ∈ ev, ∀ l b, e ≠ Event.acquire Role.built l b) :
    builtOf (tr ++ ev) = builtOf tr := by
  have : builtOf ev = [] := by
    unfold builtOf
    rw [List.filterMap_eq_nil_iff]
    intro e he
    have := h e he
    cases e with
    | acquire r l b =>
      cases r with
      | built => exact absurd rfl (this l b)
      | read => rfl
    | release r b => rfl
    | add_new_child b n c => rfl
    | get_key_of_node b n => rfl
  rw [builtOf_append, this, List.append_nil]

theorem builtInv_same (m0 : Nat) (s s' : Frame) (ev : List Event)
    (htr : s'.trace = s.trace ++ ev)
    (hev : ∀ e ∈ ev, ∀ l b, e ≠ Event.acquire Role.built l b)
    (hlen : s'.file_.blocks.length = s.file_.blocks.length) (h : BuiltInv m0 s) :
    BuiltInv m0 s' := by
  obtain ⟨h1, h2⟩ := h
  refine ⟨by omega, ?_⟩
  rw [htr, builtOf_build_free _ _ hev, hlen]
  exact h2

theorem builtInv_grow (m0 : Nat) (s s' : Frame) (lv : Nat) (ev : List Event)
    (htr : s'.trace =
      s.trace ++ [Event.acquire Role.built lv (s.file_.blocks.length : Int)] ++ ev)
    (hev : ∀ e ∈ ev, ∀ l b, e ≠ Event.acquire Role.built l b)
    (hlen : s'.file_.blocks.length = s.file_.blocks.length + 1) (h : BuiltInv m0 s) :
    BuiltInv m0 s' := by
  obtain ⟨h1, h2⟩ := h
  refine ⟨by omega, ?_⟩
  rw [htr, builtOf_build_free _ _ hev, hlen]
  have e : s.file_.blocks.length + 1 - m0 = (s.file_.blocks.length - m0) + 1 := by omega
  rw [e, List.range_succ, List.map_append]
  have e2 : builtOf (s.trace ++ [Event.acquire Role.built lv (s.file_.blocks.length : Int)]) =
      builtOf s.trace ++ [(s.file_.blocks.length : Int)] := by
    simp [builtOf, List.filterMap_append]
  rw [e2, h2]
  simp only [List.map_cons, List.map_nil, List.append_cancel_left_eq, List.cons.injEq,
    Nat.cast_inj, and_true]
  omega

theorem builtInv_attach (m0 : Nat) (kind : NodeKind) (level cap : Nat) (s : Frame)
    (h : BuiltInv m0 s) : BuiltInv m0 (attach kind level cap s) := by
  unfold attach
  cases ha : s.act_nd with
  | some a => simpa [ha] using h
  | none =>
    simp only
    cases hf : s.first_node with
    | true =>
      simp only [if_true]
      exact builtInv_grow m0 s _ level [] (by simp [BNode.get_block, BNode.init])
        (by simp) (by simp [BlockFile.append_block]) h
    | false =>
      simp only [Bool.false_eq_true, if_false]
      cases hp : s.prev_nd with
      | none =>
        exact builtInv_grow m0 s _ level [] (by simp [BNode.get_block, BNode.init])
          (by simp) (by simp [BlockFile.append_block]) h
      | some prev =>
        exact builtInv_grow m0 s _ level [Event.release Role.built prev.get_block]
          (by simp [BNode.get_block, BNode.init])
          (by intro e he l b; simp at he; subst he; simp)
          (by simp [release_length, BlockFile.append_block]) h

theorem builtInv_fill (m0 : Nat) (kind : NodeKind) (s : Frame) (k p : Int)
    (h : BuiltInv m0 s) : BuiltInv m0 (fill kind s k p) := by
  unfold fill
  cases ha : s.act_nd with
  | none => exact h
  | some a =>
    simp only
    split
    · exact builtInv_same m0 s _ [Event.add_new_child a.get_block a.num_entries_ a.capacity_]
        rfl (by intro e he l b; simp at he; subst he; simp) rfl h
    · exact builtInv_same m0 s _ [Event.add_new_child a.get_block a.num_entries_ a.capacity_]
        rfl (by intro e he l b; simp at he; subst he; simp) rfl h

theorem builtInv_put (m0 : Nat) (kind : NodeKind) (level cap : Nat) (s : Frame) (k p : Int)
    (h : BuiltInv m0 s) : BuiltInv m0 (put kind level cap s k p) := by
  unfold put
  split
  · exact h
  · simp only
    split
    · exact builtInv_attach m0 kind level cap s h
    · exact builtInv_fill m0 kind _ k p (builtInv_attach m0 kind level cap s h)

theorem builtInv_cleanup (m0 : Nat) (s : Frame) (h : BuiltInv m0 s) :
    BuiltInv m0 (cleanup s) := by
  unfold cleanup
  split
  · exact h
  · cases hp : s.prev_nd with
    | none =>
      cases ha : s.act_nd with
      | none => simpa [ha] using h
      | some a =>
        simp only [ha]
        exact builtInv_same m0 s _ [Event.release Role.built a.get_block] rfl
          (by intro e he l b; simp at he; subst he; simp) (release_length _ _) h
    | some prev =>
      cases ha : s.act_nd with
      | none =>
        simp only [ha]
        exact builtInv_same m0 s _ [Event.release Role.built prev.get_block] rfl
          (by intro e he l b; simp at he; subst he; simp) (release_length _ _) h
      | some a =>
        simp only [ha]
        exact builtInv_same m0 s _
          [Event.release Role.built prev.get_block, Event.release Role.built a.get_block]
          (by simp)
          (by intro e he l b; simp at he; rcases he with rfl | rfl <;> simp)
          (by simp [release_length]) h

theorem builtInv_levelBody (m0 lcap icap : Nat) (s : Frame) (i : Int) (h : BuiltInv m0 s) :
    BuiltInv m0 (levelBody lcap icap s i) := by
  unfold levelBody
  split
  · exact h
  · generalize (if s.cur_level = 1 then BNode.init_restore NodeKind.leaf lcap s.file_ i
      else BNode.init_restore NodeKind.index icap s.file_ i) = r
    cases r with
    | none => exact h
    | some ch =>
      simp only
      cases hk : ch.get_key_of_node with
      | none =>
        exact builtInv_same m0 s _ [Event.acquire Role.read ch.level_ ch.get_block,
          Event.get_key_of_node ch.get_block ch.num_entries_] rfl
          (by intro e he l b; simp at he; rcases he with rfl | rfl <;> simp) rfl h
      | some key =>
        simp only
        apply builtInv_put
        exact builtInv_same m0 s _ [Event.acquire Role.read ch.level_ ch.get_block,
          Event.get_key_of_node ch.get_block ch.num_entries_,
          Event.release Role.read ch.get_block] (by simp)
          (by intro e he l b; simp at he; rcases he with rfl | rfl | rfl <;> simp)
          (release_length _ _) h

theorem builtInv_bulkload (lcap icap fuel : Nat) (t : BTree) (n : Nat) (table : List Result) :
    BuiltInv t.file_.blocks.length (whileLoop lcap icap fuel (leafPass lcap t n table)) := by
  apply frame_invariant (BuiltInv t.file_.blocks.length) lcap icap
  · exact fun s r h => builtInv_put _ NodeKind.leaf 0 lcap s _ _ h
  · exact fun s i h => builtInv_levelBody _ lcap icap s i h
  · exact fun s h => builtInv_cleanup _ s h
  · exact fun s h _ => h
  · exact fun s a b c h => h
  · exact fun s h => h
  · exact ⟨Nat.le_refl _, by simp [startFrame, builtOf]⟩

theorem leafPass_take (lcap : Nat) (t : BTree) (n : Nat) (table : List Result)
    (h : n ≤ table.length) :
    leafPass lcap t n table = leafPass lcap t (table.take n).length (table.take n) := by
  have hlen : (table.take n).length = n := by simp [h]
  rw [hlen]
  unfold leafPass
  have h1 : decide (table.length < n) = decide ((table.take n).length < n) := by
    rw [hlen]; simp; omega
  simp only [List.take_take, Nat.min_self, h1]

/-- The two models of `init_restore` agree on a block written by an index node:
the restoration used by `bulkload` succeeds with the node `load_root` caches. -/
theorem init_restore_agree (icap : Nat) (misread : Option NodeImage → NodeImage)
    (f : BlockFile) (block : Int) (x : NodeImage) (hx : f.read_block block = some x)
    (hk : x.kind = NodeKind.index) :
    BNode.init_restore NodeKind.index icap f block =
      some (BIndexNode.init_restore icap misread f block) := by
  simp [BNode.init_restore, BIndexNode.init_restore, hx, hk]

/-! ### The cached root and `root_` -/

theorem rootCached_of_none (t : BTree) (h : t.root_ptr_ = none) : RootCached t := by
  intro nd hnd
  rw [h] at hnd
  simp at hnd

theorem rootCached_load_root (icap : Nat) (misread : Option NodeImage → NodeImage) (t : BTree)
    (h : RootCached t) : RootCached (BTree.load_root icap misread t).1 := by
  unfold BTree.load_root
  cases hp : t.root_ptr_ with
  | some nd => simpa [hp] using h
  | none =>
    intro nd hnd
    simp only [Option.some.injEq] at hnd
    subst hnd
    rfl

theorem delete_root_none (t : BTree) : (BTree.delete_root t).root_ptr_ = none := by
  unfold BTree.delete_root
  cases hp : t.root_ptr_ <;> simp [hp]

theorem init_none (icap : Nat) : (BTree.init icap).root_ptr_ = none := by
  unfold BTree.init
  exact delete_root_none _

theorem rootCached_apply (lcap icap : Nat) (misread : Option NodeImage → NodeImage) (t : BTree)
    (op : TreeOp) (h : RootCached t)
    (hb : ∀ fuel n table, op = TreeOp.bulkload fuel n table → t.root_ptr_ = none) :
    RootCached (TreeOp.apply lcap icap misread t op) := by
  cases op with
  | init => exact rootCached_of_none _ (init_none icap)
  | init_restore f root => exact rootCached_of_none _ rfl
  | load_root => exact rootCached_load_root icap misread t h
  | delete_root => exact rootCached_of_none _ (delete_root_none t)
  | bulkload fuel n table =>
    apply rootCached_of_none
    show (bulkload lcap icap fuel t n table).tree.root_ptr_ = none
    rw [(bulkload_frame lcap icap fuel t n table).2.2.1]
    exact hb fuel n table rfl

theorem rootCached_runOps (lcap icap : Nat) (misread : Option NodeImage → NodeImage)
    (ops : List TreeOp) :
    ∀ t : BTree, RootCached t → bulkloadsUncached lcap icap misread t ops = true →
      RootCached (runOps lcap icap misread t ops) := by
  induction ops with
  | nil => intro t h _; exact h
  | cons op ops ih =>
    intro t h hb
    simp only [bulkloadsUncached, Bool.and_eq_true] at hb
    obtain ⟨h1, h2⟩ := hb
    have hstep := rootCached_apply lcap icap misread t op h (by
      intro fuel n table hop
      subst hop
      simpa using h1)
    exact ih _ hstep h2

/-- Claim C21 (counterexample). After `init`, `load_root` and a `bulkload` of
three records (leaf capacity 4, index capacity 3), a root is cached for block 0
while `root_` is 1: the cached root is not the node stored at `root_`. -/
theorem C21_stale_cached_root_counterexample :
    (runOps 4 3 blankMisread BTree.new
      [TreeOp.init, TreeOp.load_root, TreeOp.bulkload 10 3 (exampleTable.take 3)]).root_ = 1 ∧
    (runOps 4 3 blankMisread BTree.new
      [TreeOp.init, TreeOp.load_root,
        TreeOp.bulkload 10 3 (exampleTable.take 3)]).root_ptr_.map BNode.block_ = some 0 ∧
    ¬ RootCached (runOps 4 3 blankMisread BTree.new
      [TreeOp.init, TreeOp.load_root, TreeOp.bulkload 10 3 (exampleTable.take 3)]) := by
  have h1 : (runOps 4 3 blankMisread BTree.new
      [TreeOp.init, TreeOp.load_root, TreeOp.bulkload 10 3 (exampleTable.take 3)]).root_ = 1 := by
    decide
  have h2 : (runOps 4 3 blankMisread BTree.new
      [TreeOp.init, TreeOp.load_root,
        TreeOp.bulkload 10 3 (exampleTable.take 3)]).root_ptr_.map BNode.block_ = some 0 := by
    decide
  refine ⟨h1, h2, ?_⟩
  intro h
  cases hp : (runOps 4 3 blankMisread BTree.new
      [TreeOp.init, TreeOp.load_root, TreeOp.bulkload 10 3 (exampleTable.take 3)]).root_ptr_ with
  | none => rw [hp] at h2; simp at h2
  | some nd =>
    have h3 := h nd hp
    rw [hp] at h2
    simp only [Option.map_some', Option.some.injEq] at h2
    rw [h2, h1] at h3
    exact absurd h3 (by decide)

/-- Claim C21 (amended). The cached root, when present, is the node of the block
`root_`: this holds after `init` and after `init_restore` (no root is cached),
it is kept by `load_root` and established by `delete_root`, `bulkload` leaves
`root_ptr_` as it is, and the invariant holds after every sequence of calls
starting from a constructed tree in which each `bulkload` call is made while no
root is cached. -/
theorem C21_cached_root_is_root_block (lcap icap : Nat)
    (misread : Option NodeImage → NodeImage) :
    (RootCached (BTree.init icap) ∧ ∀ f root, RootCached (BTree.init_restore f root)) ∧
    (∀ t, RootCached t → RootCached (BTree.load_root icap misread t).1) ∧
    (∀ t, RootCached (BTree.delete_root t)) ∧
    (∀ fuel t n table, (bulkload lcap icap fuel t n table).tree.root_ptr_ = t.root_ptr_) ∧
    (∀ fuel t n table, t.root_ptr_ = none →
      RootCached (bulkload lcap icap fuel t n table).tree) ∧
    (∀ ops, bulkloadsUncached lcap icap misread BTree.new ops = true →
      RootCached (runOps lcap icap misread BTree.new ops)) := by
  refine ⟨⟨rootCached_of_none _ (init_none icap), fun f root => rootCached_of_none _ rfl⟩,
    fun t h => rootCached_load_root icap misread t h,
    fun t => rootCached_of_none _ (delete_root_none t),
    fun fuel t n table => (bulkload_frame lcap icap fuel t n table).2.2.1, ?_, ?_⟩
  · intro fuel t n table h
    apply rootCached_of_none
    rw [(bulkload_frame lcap icap fuel t n table).2.2.1]
    exact h
  · intro ops h
    exact rootCached_runOps lcap icap misread ops BTree.new (rootCached_of_none _ rfl) h

/-- Witness for C21 (amended): `init`, a `bulkload` of the ten example records,
`load_root`, `delete_root`, a second `bulkload` of three records and `load_root`
again; the root cached at the end is the node of block `root_`. -/
theorem C21_cached_root_is_root_block_witness :
    bulkloadsUncached 4 3 blankMisread BTree.new
      [TreeOp.init, TreeOp.bulkload 10 10 exampleTable, TreeOp.load_root, TreeOp.delete_root,
        TreeOp.bulkload 10 3 (exampleTable.take 3), TreeOp.load_root] = true ∧
    RootCached (runOps 4 3 blankMisread BTree.new
      [TreeOp.init, TreeOp.bulkload 10 10 exampleTable, TreeOp.load_root, TreeOp.delete_root,
        TreeOp.bulkload 10 3 (exampleTable.take 3), TreeOp.load_root]) :=
  ⟨by decide,
    (C21_cached_root_is_root_block 4 3 blankMisread).2.2.2.2.2
      [TreeOp.init, TreeOp.bulkload 10 10 exampleTable, TreeOp.load_root, TreeOp.delete_root,
        TreeOp.bulkload 10 3 (exampleTable.take 3), TreeOp.load_root] (by decide)⟩

/-- Claim C22. For `n = 0`, whatever the table, the tree, the capacities and the
fuel: `bulkload` returns 0, leaves the block file as it is (no block allocated,
no block written), creates no node and records no step, leaves `root_ptr_` as it
is, and sets `root_` to 0; the new `root_` equals the previous one exactly when
that was 0. -/
theorem C22_bulkload_of_nothing (lcap icap fuel : Nat) (t : BTree) (table : List Result) :
    (bulkload lcap icap fuel t 0 table).ret = some 0 ∧
    (bulkload lcap icap fuel t 0 table).tree.file_ = t.file_ ∧
    createdImages t.file_ (bulkload lcap icap fuel t 0 table).tree.file_ = [] ∧
    (bulkload lcap icap fuel t 0 table).frame.trace = [] ∧
    (bulkload lcap icap fuel t 0 table).tree.root_ptr_ = t.root_ptr_ ∧
    (bulkload lcap icap fuel t 0 table).tree.root_ = 0 ∧
    ((bulkload lcap icap fuel t 0 table).tree.root_ = t.root_ ↔ t.root_ = 0) := by
  have e : bulkload lcap icap fuel t 0 table = bulkload lcap icap fuel t 0 [] := by
    have := bulkload_take lcap icap fuel t 0 table (Nat.zero_le _)
    simpa using this
  rw [e, bulkload_nil]
  refine ⟨rfl, rfl, by simp [createdImages], rfl, rfl, rfl, ?_⟩
  constructor
  · intro h; exact h.symm
  · intro h; exact h.symm

/-! ### Levels stay within the level field -/

theorem whileLoop_short (lcap icap k : Nat) (t : BTree) (n : Nat) (table : List Result)
    (h : table.length < n) :
    (whileLoop lcap icap k (leafPass lcap t n table)).file_ = t.file_ ∧
    (whileLoop lcap icap k (leafPass lcap t n table)).cur_level = 1 := by
  have hs : (startFrame t n table).fault = true := by simp [startFrame, h]
  have e1 : leafPass lcap t n table =
      { startFrame t n table with last_start_block := 0, last_end_block := 0 } := by
    rw [leafPass_eq, foldl_leafBody_fault lcap _ _ hs]
    have : cleanup (startFrame t n table) = startFrame t n table := by
      unfold cleanup
      rw [if_pos hs]
    rw [this]
    rfl
  have e2 : whileLoop lcap icap k (leafPass lcap t n table) = leafPass lcap t n table := by
    have hf : (leafPass lcap t n table).fault = true := by rw [e1]; exact hs
    cases k <;> (unfold whileLoop; rw [if_pos hf])
  rw [e2, e1]
  exact ⟨rfl, rfl⟩

theorem whileLoop_nil (lcap icap k : Nat) (t : BTree) :
    (whileLoop lcap icap k (leafPass lcap t 0 [])).file_ = t.file_ ∧
    (whileLoop lcap icap k (leafPass lcap t 0 [])).cur_level = 1 := by
  obtain ⟨g1, -⟩ := bulkload_frame lcap icap k t 0 []
  rw [← g1, bulkload_nil]
  exact ⟨rfl, rfl⟩

/-- Every node written to a created block has a level below `cur_level`. -/
theorem frame_levels_below (lcap icap k : Nat) (hl : 1 ≤ lcap) (hi : 1 ≤ icap) (t : BTree)
    (n : Nat) (table : List Result) (a : Nat) (x : NodeImage)
    (ha : t.file_.blocks.length ≤ a)
    (hx : (whileLoop lcap icap k (leafPass lcap t n table)).file_.read_block (a : Int) =
      some x) :
    x.level_ + 1 ≤ (whileLoop lcap icap k (leafPass lcap t n table)).cur_level := by
  have hold : ∀ f : BlockFile, f = t.file_ → f.read_block (a : Int) = some x → False := by
    intro f hf hr
    subst hf
    rw [read_block_natCast, List.getElem?_eq_none ha] at hr
    simp at hr
  rcases Nat.lt_or_ge table.length n with hshort | hge
  · exact absurd hx (fun h => hold _ (whileLoop_short lcap icap k t n table hshort).1 h)
  · rw [leafPass_take lcap t n table hge] at hx ⊢
    by_cases hne : table.take n = []
    · rw [hne] at hx
      simp only [List.length_nil] at hx
      exact absurd hx (fun h => hold _ (whileLoop_nil lcap icap k t).1 h)
    · obtain ⟨cs0, last0, L, base, ch, B, -, hS, hO, -, -, -⟩ :=
        bulkload_levels lcap icap k hl hi t (table.take n) hne
      obtain ⟨gB, -, -, gl, -⟩ := hO
      rw [blockFile_eq_mk _ _ gB] at hx
      obtain ⟨seg, -, s2, -⟩ := hS.segmented
      have := (s2 a x ha hx).1
      rw [gl]
      omega

/-- With index capacity at least 2 and `n` below `2 ^ 31` (an `int`), the level
counter never exceeds 32, whatever the number of passes executed. -/
theorem cur_level_bound (lcap icap k : Nat) (hl : 1 ≤ lcap) (hi : 2 ≤ icap) (t : BTree)
    (n : Nat) (table : List Result) (hn : n < 2 ^ 31) :
    (whileLoop lcap icap k (leafPass lcap t n table)).cur_level ≤ 32 := by
  rcases Nat.lt_or_ge table.length n with hshort | hge
  · rw [(whileLoop_short lcap icap k t n table hshort).2]
    omega
  · rw [leafPass_take lcap t n table hge]
    by_cases hne : table.take n = []
    · rw [hne]
      simp only [List.length_nil]
      rw [(whileLoop_nil lcap icap k t).2]
      omega
    · obtain ⟨cs0, last0, L, base, ch, B, hx, hS, hO, -, -, -⟩ :=
        bulkload_levels lcap icap k hl (by omega) t (table.take n) hne
      obtain ⟨-, -, -, gl, -⟩ := hO
      obtain ⟨-, hcs, hlast, -⟩ := hS.leaf_facts
      have hcount : cs0.length + 1 ≤ n := by
        have h1 : (entriesOf (table.take n)).length = n := by simp [entriesOf, hge]
        have h2 := flatten_length_of_forall cs0 hcs
        rw [hx, List.length_append, h2] at h1
        have h3 : 0 < last0.length := List.length_pos.mpr hlast
        have h4 : cs0.length * 1 ≤ cs0.length * lcap := Nat.mul_le_mul_left _ hl
        omega
      have hclog := hS.clog_eq hi
      have h1 : Nat.clog icap (cs0.length + 1) ≤ Nat.clog 2 (cs0.length + 1) :=
        Nat.clog_anti_left (by omega) hi
      have h2 : Nat.clog 2 (cs0.length + 1) ≤ 31 :=
        (Nat.le_pow_iff_clog_le (by omega)).1 (by omega)
      rw [gl]
      omega

/-- The bound of `cur_level_bound` for the frame `bulkload` ends in. -/
theorem bulkload_cur_level_bound (lcap icap fuel : Nat) (hl : 1 ≤ lcap) (hi : 2 ≤ icap)
    (t : BTree) (n : Nat) (table : List Result) (hn : n < 2 ^ 31) :
    (bulkload lcap icap fuel t n table).frame.cur_level ≤ maxLevel + 1 := by
  rw [(bulkload_frame lcap icap fuel t n table).1]
  have := cur_level_bound lcap icap fuel hl hi t n table hn
  unfold maxLevel
  omega

/-- Claim C13 (amended). For leaf and index capacities at least 1, whatever the
tree state `bulkload` starts from, `n`, the table and the number of passes
executed, as long as the level counter has not exceeded `maxLevel + 1 = 128`
(so that every level stored fits the one-byte field `char level_`; with index
capacity at least 2 and `n < 2 ^ 31` the counter never exceeds 32, theorem
`bulkload_cur_level_bound`): every node created by `bulkload` as a leaf node has
level 0, every node it creates as an index node has a level above 0, and every
level stored is at most `maxLevel`. (The node created by `init`, an index node
of level 0 for every capacity, is the exception among the operations `init` and
`bulkload`.) -/
theorem C13_bulkload_levels_match_kinds (lcap icap fuel : Nat) (hl : 1 ≤ lcap) (hi : 1 ≤ icap)
    (t : BTree) (n : Nat) (table : List Result)
    (hlev : (bulkload lcap icap fuel t n table).frame.cur_level ≤ maxLevel + 1) :
    LevelsMatchKinds (createdImages t.file_ (bulkload lcap icap fuel t n table).tree.file_) ∧
    (∀ img ∈ createdImages t.file_ (bulkload lcap icap fuel t n table).tree.file_,
      img.level_ ≤ maxLevel) ∧
    ∀ cap : Nat, createdImages (BlockFile.mk []) (BTree.init cap).file_ =
      [{ kind := NodeKind.index, level_ := 0, num_entries_ := 0, left_sibling_ := -1,
         right_sibling_ := -1, key_ := [], ptr_ := [] }] := by
  refine ⟨?_, ?_, ?_⟩
  · rcases Nat.lt_or_ge table.length n with hshort | hge
    · rw [(bulkload_short lcap icap fuel t n table hshort).2.1]
      intro img himg
      simp [createdImages] at himg
    · rw [bulkload_take lcap icap fuel t n table hge]
      by_cases hne : table.take n = []
      · rw [hne]
        simp only [List.length_nil, bulkload_nil]
        intro img himg
        simp [createdImages] at himg
      · obtain ⟨cs0, last0, L, base, ch, B, -, hS, hO, -, -, -⟩ :=
          bulkload_levels lcap icap fuel hl hi t (table.take n) hne
        obtain ⟨-, hfile, -⟩ :=
          bulkload_frame lcap icap fuel t (table.take n).length (table.take n)
        intro img himg
        rw [hfile, mem_createdImages] at himg
        obtain ⟨a, ha, hr⟩ := himg
        rw [blockFile_eq_mk _ _ hO.1] at hr
        obtain ⟨-, -, -, -, hk⟩ := hS.entry_bounds a img ha hr
        constructor
        · exact hk.1
        · intro hidx
          rcases Nat.eq_zero_or_pos img.level_ with h0 | h0
          · have := hk.2 h0
            rw [hidx] at this
            simp at this
          · exact h0
  · obtain ⟨hframe, hfile, -⟩ := bulkload_frame lcap icap fuel t n table
    intro img himg
    rw [hfile, mem_createdImages] at himg
    obtain ⟨a, ha, hr⟩ := himg
    have := frame_levels_below lcap icap fuel hl hi t n table a img ha hr
    rw [hframe] at hlev
    omega
  · intro cap
    rw [init_eq_exampleTree]
    decide

/-- Witness for C13 (amended): the example tree after `init`, the ten records of
the example, leaf capacity 4, index capacity 3; the level counter ends at 2. -/
theorem C13_bulkload_levels_match_kinds_witness :
    (bulkload 4 3 10 exampleTree 10 exampleTable).frame.cur_level = 2 ∧
    LevelsMatchKinds
      (createdImages exampleTree.file_ (bulkload 4 3 10 exampleTree 10 exampleTable).tree.file_) :=
  ⟨by decide,
    (C13_bulkload_levels_match_kinds 4 3 10 (by decide) (by decide) exampleTree 10 exampleTable
      (by decide)).1⟩

/-- Claim C18. For leaf and index capacities at least 1 and a table holding the
`n >= 1` records, consider the frame `s` reached after at most `k` passes, for
any `k`. The nodes created so far were given consecutive addresses in creation
order, starting with the first block appended. The range
`[last_start_block, last_end_block]` lies in the created blocks and ends with
the last block of the file, and the node at `last_start_block + j` is the
`j`-th node of a sibling chain: its left sibling is the address before it and
its right sibling the address after it, `-1` at the two ends. When the loop is
not left, the next pass restores exactly the addresses `last_start_block, ...,
last_end_block`, each once, in this order, and the range of the level it builds
is exactly the blocks it appends to the file. As long as the level counter has
not exceeded `maxLevel + 1 = 128` (every level stored fits the one-byte field
`char level_`): among the created blocks the nodes of level `cur_level - 1` are
exactly those with an address in the range, and every node the next pass
restores is a node of level `cur_level - 1`. -/
theorem C18_levels_are_address_ranges (lcap icap : Nat) (hl : 1 ≤ lcap) (hi : 1 ≤ icap)
    (t : BTree) (n : Nat) (table : List Result) (hn : n ≤ table.length) (hpos : 1 ≤ n)
    (k : Nat) :
    (builtOf (whileLoop lcap icap k (leafPass lcap t n table)).trace =
      (List.range ((whileLoop lcap icap k (leafPass lcap t n table)).file_.blocks.length -
        t.file_.blocks.length)).map (fun j => ((t.file_.blocks.length + j : Nat) : Int)) ∧
    (t.file_.blocks.length : Int) ≤
      (whileLoop lcap icap k (leafPass lcap t n table)).last_start_block ∧
    (whileLoop lcap icap k (leafPass lcap t n table)).last_start_block ≤
      (whileLoop lcap icap k (leafPass lcap t n table)).last_end_block ∧
    (whileLoop lcap icap k (leafPass lcap t n table)).last_end_block + 1 =
      ((whileLoop lcap icap k (leafPass lcap t n table)).file_.blocks.length : Int) ∧
    (∀ j : Nat,
      (whileLoop lcap icap k (leafPass lcap t n table)).last_start_block + (j : Int) ≤
        (whileLoop lcap icap k (leafPass lcap t n table)).last_end_block →
      ∃ x,
        (whileLoop lcap icap k (leafPass lcap t n table)).file_.read_block
          ((whileLoop lcap icap k (leafPass lcap t n table)).last_start_block + (j : Int)) =
            some x ∧
        x.left_sibling_ =
          (if j = 0 then -1
           else (whileLoop lcap icap k (leafPass lcap t n table)).last_start_block +
             (j : Int) - 1) ∧
        x.right_sibling_ =
          (if (whileLoop lcap icap k (leafPass lcap t n table)).last_start_block + (j : Int) =
              (whileLoop lcap icap k (leafPass lcap t n table)).last_end_block then -1
           else (whileLoop lcap icap k (leafPass lcap t n table)).last_start_block +
             (j : Int) + 1)) ∧
    ((whileLoop lcap icap k (leafPass lcap t n table)).done = false →
      (restoresOf
          (levelPass lcap icap (whileLoop lcap icap k (leafPass lcap t n table))).trace).map
          Prod.snd =
        (restoresOf (whileLoop lcap icap k (leafPass lcap t n table)).trace).map Prod.snd ++
          addrRange (whileLoop lcap icap k (leafPass lcap t n table)).last_start_block
            (whileLoop lcap icap k (leafPass lcap t n table)).last_end_block ∧
      (levelPass lcap icap (whileLoop lcap icap k (leafPass lcap t n table))).last_start_block =
        ((whileLoop lcap icap k (leafPass lcap t n table)).file_.blocks.length : Int) ∧
      (levelPass lcap icap (whileLoop lcap icap k (leafPass lcap t n table))).last_end_block + 1 =
        ((levelPass lcap icap
          (whileLoop lcap icap k (leafPass lcap t n table))).file_.blocks.length : Int))) ∧
    ((whileLoop lcap icap k (leafPass lcap t n table)).cur_level ≤ maxLevel + 1 →
      (∀ (a : Nat) (x : NodeImage), t.file_.blocks.length ≤ a →
        (whileLoop lcap icap k (leafPass lcap t n table)).file_.read_block (a : Int) = some x →
        x.level_ ≤ maxLevel ∧
        (x.level_ + 1 = (whileLoop lcap icap k (leafPass lcap t n table)).cur_level ↔
          ((whileLoop lcap icap k (leafPass lcap t n table)).last_start_block ≤ (a : Int) ∧
            (a : Int) ≤ (whileLoop lcap icap k (leafPass lcap t n table)).last_end_block))) ∧
      ((whileLoop lcap icap k (leafPass lcap t n table)).done = false →
        restoresOf
            (levelPass lcap icap (whileLoop lcap icap k (leafPass lcap t n table))).trace =
          restoresOf (whileLoop lcap icap k (leafPass lcap t n table)).trace ++
            (addrRange (whileLoop lcap icap k (leafPass lcap t n table)).last_start_block
              (whileLoop lcap icap k (leafPass lcap t n table)).last_end_block).map
              (fun i =>
                ((whileLoop lcap icap k (leafPass lcap t n table)).cur_level - 1, i)))) := by
  have hB := builtInv_bulkload lcap icap k t n table
  have hbelow := frame_levels_below lcap icap k hl hi t n table
  have hne : table.take n ≠ [] := by
    intro h0
    have h1 : (table.take n).length = n := by simp [hn]
    rw [h0] at h1
    simp at h1
    omega
  obtain ⟨cs0, last0, L, base, ch, B, -, hS, hO, hnd, -, -⟩ :=
    bulkload_levels lcap icap k hl hi t (table.take n) hne
  rw [← leafPass_take lcap t n table hn] at hO hnd
  obtain ⟨s, hs⟩ : ∃ s : Frame, s = whileLoop lcap icap k (leafPass lcap t n table) := ⟨_, rfl⟩
  rw [← hs] at hO hnd hB hbelow ⊢
  obtain ⟨gB, gls, gle, gl, gf, gc, gp, ga⟩ := hO
  have hfile := blockFile_eq_mk _ _ gB
  have hlen := hS.length_eq
  have hbase := hS.base_le
  obtain ⟨B0, cs, last, hch, -, -, -⟩ := hS.top
  have hchlen : 1 ≤ ch.length := by rw [hch]; simp
  have hrestore : s.done = false →
      restoresOf (levelPass lcap icap s).trace =
        restoresOf s.trace ++
          (addrRange s.last_start_block s.last_end_block).map (fun i => (s.cur_level - 1, i)) := by
    intro hd
    have hA : AtLevel s L base ch.length B := ⟨gB, gls, gle, gl, gf, hd, gc, gp, ga⟩
    have := (levelPass_trace hS s hA hi).1
    rw [this, gl]
    rfl
  refine ⟨⟨hB.2, ?_, ?_, ?_, ?_, ?_⟩, ?_⟩
  · rw [gls]; exact_mod_cast hbase
  · rw [gls, gle]; push_cast; omega
  · rw [gle, gB, hlen]; push_cast; omega
  · intro j hj
    rw [gls, gle] at hj
    have hjlt : j < ch.length := by push_cast at hj; omega
    obtain ⟨hr, -⟩ := hS.read_top j _ (List.getElem?_eq_getElem hjlt)
    refine ⟨nodeImage (childKind (L + 1)) L base j ch[j]
      (if j + 1 = ch.length then -1 else ((base + j : Nat) : Int) + 1), ?_, ?_, ?_⟩
    · rw [hfile, gls]
      have e : (base : Int) + (j : Int) = ((base + j : Nat) : Int) := by push_cast; rfl
      rw [e]
      exact hr
    · rw [gls]
      simp only [nodeImage]
      split_ifs <;> rfl
    · rw [gls, gle]
      simp only [nodeImage]
      split_ifs with h1 h2 h2
      · rfl
      · exfalso; apply h2; push_cast; omega
      · exfalso; apply h1; push_cast at h2; omega
      · push_cast; ring
  · intro hd
    have h2 := hnd hd
    have hA : AtLevel s L base ch.length B := ⟨gB, gls, gle, gl, gf, hd, gc, gp, ga⟩
    obtain ⟨cs', last', -, -, -, -, hA'⟩ := levelPass_stack hS s hA h2 hi
    obtain ⟨gB', gls', gle', -⟩ := hA'
    refine ⟨?_, ?_, ?_⟩
    · rw [hrestore hd, List.map_append, List.map_map]
      congr 1
      exact List.map_id _
    · rw [gls', gB, hlen]
    · rw [gle', gB']
      simp only [List.length_append, levelBlocks_length, hlen]
      push_cast
      omega
  · intro hlev
    refine ⟨?_, hrestore⟩
    intro a x ha hx
    have hb := hbelow a x ha hx
    refine ⟨by omega, ?_⟩
    rw [hfile] at hx
    have hlt := read_lt_length _ _ _ hx
    have hiff := hS.level_range a x ha hx
    rw [gl, gls, gle]
    constructor
    · intro h
      have h1 : x.level_ = L := by omega
      have h2 := hiff.1 h1
      constructor
      · exact_mod_cast h2
      · push_cast; omega
    · intro h
      have h1 : base ≤ a := by exact_mod_cast h.1
      have := hiff.2 h1
      omega

/-- Witness for C18: the example scenario, ten records, leaf capacity 4, index
capacity 3, before the first pass: the three leaves have the addresses 1, 2, 3
and the pass restores them in this order, as nodes of level 0. -/
theorem C18_levels_are_address_ranges_witness :
    builtOf (whileLoop 4 3 0 (leafPass 4 exampleTree 10 exampleTable)).trace = [1, 2, 3] ∧
    restoresOf (levelPass 4 3 (whileLoop 4 3 0 (leafPass 4 exampleTree 10 exampleTable))).trace =
      [(0, 1), (0, 2), (0, 3)] ∧
    (restoresOf
        (levelPass 4 3 (whileLoop 4 3 0 (leafPass 4 exampleTree 10 exampleTable))).trace =
      restoresOf (whileLoop 4 3 0 (leafPass 4 exampleTree 10 exampleTable)).trace ++
        (addrRange (whileLoop 4 3 0 (leafPass 4 exampleTree 10 exampleTable)).last_start_block
          (whileLoop 4 3 0 (leafPass 4 exampleTree 10 exampleTable)).last_end_block).map
          (fun i => ((whileLoop 4 3 0 (leafPass 4 exampleTree 10 exampleTable)).cur_level - 1,
            i))) :=
  ⟨by decide, by decide,
    ((C18_levels_are_address_ranges 4 3 (by decide) (by decide) exampleTree 10 exampleTable
      (by decide) (by decide) 0).2 (by decide)).2 (by decide)⟩

/-- Claim C6 (counterexample). With leaf capacity 4 and index capacity 3, on the
tree right after `init` and `n = 0`: `bulkload` returns 0 and builds no node,
and `root_` is 0, the address of the block that `init` wrote; it is not the
address of a node of a level built by the call. The same call on a constructed
tree sets `root_` to 0 while the file holds no block at all. -/
theorem C6_empty_table_root_counterexample :
    (bulkload 4 3 0 exampleTree 0 []).ret = some 0 ∧
    (bulkload 4 3 0 exampleTree 0 []).tree.root_ = 0 ∧
    createdImages exampleTree.file_ (bulkload 4 3 0 exampleTree 0 []).tree.file_ = [] ∧
    ¬ RootBuilt exampleTree.file_ (bulkload 4 3 0 exampleTree 0 []).tree ∧
    (bulkload 4 3 0 BTree.new 0 []).tree.root_ = 0 ∧
    (bulkload 4 3 0 BTree.new 0 []).tree.file_.blocks = [] ∧
    (bulkload 4 3 0 BTree.new 0 []).tree.file_.read_block
      (bulkload 4 3 0 BTree.new 0 []).tree.root_ = none := by
  refine ⟨by decide, by decide, by decide, ?_, by decide, by decide, by decide⟩
  rintro ⟨a, ha, hroot, -⟩
  have h0 : (bulkload 4 3 0 exampleTree 0 []).tree.root_ = 0 := by decide
  have h1 : exampleTree.file_.blocks.length = 1 := by decide
  rw [h0] at hroot
  rw [h1] at ha
  omega

/-- Claim C6 (amended). With leaf capacity at least 1 and index capacity at
least 2, `bulkload` returns for every table (`n = 0` included) once the fuel is
at least the number of records; on return `root_` is the start and the end
address of the last level. For a non-empty table `root_` is the address of a
node built by the call: the single node of the last level built, the last block
of the file, of level `cur_level - 1`, without siblings. For an empty table no
node is built and `root_` is 0. Every frame at which the loop stands with its
condition true is followed by a pass that builds strictly fewer nodes than it
reads. -/
theorem C6_bulkload_terminates (lcap icap : Nat) (t : BTree) (table : List Result)
    (hl : 1 ≤ lcap) (hi : 2 ≤ icap) :
    (∀ fuel, table.length ≤ fuel →
      (bulkload lcap icap fuel t table.length table).ret = some 0 ∧
      (bulkload lcap icap fuel t table.length table).tree.root_ =
        (bulkload lcap icap fuel t table.length table).frame.last_start_block ∧
      (bulkload lcap icap fuel t table.length table).frame.last_end_block =
        (bulkload lcap icap fuel t table.length table).frame.last_start_block ∧
      (table ≠ [] →
        RootBuilt t.file_ (bulkload lcap icap fuel t table.length table).tree ∧
        ∃ img,
          (bulkload lcap icap fuel t table.length table).tree.file_.read_block
            (bulkload lcap icap fuel t table.length table).tree.root_ = some img ∧
          img.level_ + 1 = (bulkload lcap icap fuel t table.length table).frame.cur_level ∧
          img.left_sibling_ = -1 ∧ img.right_sibling_ = -1 ∧
          (bulkload lcap icap fuel t table.length table).tree.root_ + 1 =
            ((bulkload lcap icap fuel t table.length table).tree.file_.blocks.length : Int)) ∧
      (table = [] →
        (bulkload lcap icap fuel t table.length table).tree.root_ = 0 ∧
        (bulkload lcap icap fuel t table.length table).tree.file_ = t.file_ ∧
        ¬ RootBuilt t.file_ (bulkload lcap icap fuel t table.length table).tree)) ∧
    (∀ k, (whileLoop lcap icap k (leafPass lcap t table.length table)).done = false →
      (whileLoop lcap icap k (leafPass lcap t table.length table)).last_start_block <
        (whileLoop lcap icap k (leafPass lcap t table.length table)).last_end_block ∧
      (levelPass lcap icap
          (whileLoop lcap icap k (leafPass lcap t table.length table))).last_end_block -
        (levelPass lcap icap
          (whileLoop lcap icap k (leafPass lcap t table.length table))).last_start_block <
      (whileLoop lcap icap k (leafPass lcap t table.length table)).last_end_block -
        (whileLoop lcap icap k (leafPass lcap t table.length table)).last_start_block) := by
  by_cases hne : table = []
  · subst hne
    constructor
    · intro fuel _
      simp only [List.length_nil, bulkload_nil]
      refine ⟨trivial, trivial, trivial, fun h => absurd rfl h, fun _ => ⟨trivial, trivial, ?_⟩⟩
      rintro ⟨a, ha, hroot, img, hr⟩
      simp only at hroot hr
      rw [hroot, read_block_natCast, List.getElem?_eq_none ha] at hr
      simp at hr
    · intro k hdone
      exfalso
      have : (whileLoop lcap icap k (leafPass lcap t 0 [])).done = true := by
        cases k <;> simp [leafPass, whileLoop, cleanup, leafBody]
      simp only [List.length_nil] at hdone
      rw [this] at hdone
      simp at hdone
  · constructor
    · intro fuel hfuel
      obtain ⟨cs0, last0, L, base, c, B, hx, hS, gB, groot, -, gret, gl, gls, gle, -⟩ :=
        bulkload_stack lcap icap fuel hl hi t table hne hfuel
      refine ⟨gret, by rw [groot, gls], by rw [gle, gls], fun _ => ?_, fun h => absurd h hne⟩
      obtain ⟨hr, -⟩ := hS.read_top 0 c rfl
      simp only [Nat.add_zero, Nat.zero_add, List.length_singleton, if_true] at hr
      have hread : (bulkload lcap icap fuel t table.length table).tree.file_.read_block
          (bulkload lcap icap fuel t table.length table).tree.root_ =
            some (nodeImage (childKind (L + 1)) L base 0 c (-1)) := by
        rw [blockFile_eq_mk _ _ gB, groot]
        exact hr
      refine ⟨⟨base, hS.base_le, groot, _, hread⟩,
        nodeImage (childKind (L + 1)) L base 0 c (-1), hread, ?_, ?_, ?_, ?_⟩
      · rw [gl]; rfl
      · simp [nodeImage]
      · simp [nodeImage]
      · rw [groot, gB, hS.length_eq]
        simp
    · intro k hdone
      obtain ⟨cs0, last0, hx, hcs, hlast, hlen, hA⟩ := leafPass_stack lcap hl t table hne
      have hS : Stack lcap icap t.file_.blocks cs0 last0 0 t.file_.blocks.length (cs0 ++ [last0])
          (t.file_.blocks ++ levelBlocks NodeKind.leaf 0 t.file_.blocks.length cs0 last0) :=
        Stack.leaf hl hcs hlast hlen
      exact whileLoop_progress hi k _ hS (by simpa using hA) hdone

/-- Witness for C6 (amended) on the example scenario: the call returns with fuel
10, `root_` is the address of a node built by the call, and the frame before
the first pass (three leaves) is followed by a pass that builds fewer nodes. -/
theorem C6_bulkload_terminates_witness :
    (1 ≤ 4 ∧ 2 ≤ 3 ∧ exampleTable.length ≤ 10) ∧
    (bulkload 4 3 10 exampleTree exampleTable.length exampleTable).ret = some 0 ∧
    RootBuilt exampleTree.file_
      (bulkload 4 3 10 exampleTree exampleTable.length exampleTable).tree ∧
    (whileLoop 4 3 0 (leafPass 4 exampleTree exampleTable.length exampleTable)).last_start_block <
      (whileLoop 4 3 0 (leafPass 4 exampleTree exampleTable.length exampleTable)).last_end_block :=
  ⟨by decide,
    ((C6_bulkload_terminates 4 3 exampleTree exampleTable (by decide) (by decide)).1 10
      (by decide)).1,
    (((C6_bulkload_terminates 4 3 exampleTree exampleTable (by decide) (by decide)).1 10
      (by decide)).2.2.2.1 (by decide)).1,
    ((C6_bulkload_terminates 4 3 exampleTree exampleTable (by decide) (by decide)).2 0
      (by decide)).1⟩

end nns
